import Mathlib

/-!
# Skip lists: a verification development

Shallow embedding of the two skip-list implementations of the repository:

* the C implementation `others_imp/skiplists.c` / `skiplists.h` (top level
  definitions, named as in the source), and
* the C++ class template `SkipLists` of `skiplists.hpp` (namespace `SkipLists`).

Memory is an arena: a list of cells addressed by index.  Address `0` is the
null pointer, a released cell holds `none`, and every load or store through an
address that does not hold a node is a fault (`none`).  Loops that chase
pointers take fuel; running out of fuel is reported as `none` as well.
-/

set_option autoImplicit false
set_option linter.unusedSectionVars false
set_option linter.unusedVariables false

/-! ## C implementation: data model (`skiplists.h`) -/

/-- The macro `SKIPLISTS_MAX_NUMBER_OF_LEVELS` of `skiplists.h`. -/
def SKIPLISTS_MAX_NUMBER_OF_LEVELS : Nat := 18

/-- The macro `SKIPLISTS_INVERSE_P` of `skiplists.h` (p = .50). -/
def SKIPLISTS_INVERSE_P : Nat := 2

/-- The macro `LAST_IN_FIRST_OUT` of `skiplists.h`. -/
def LAST_IN_FIRST_OUT : Int := 0

/-- The macro `FIRST_IN_FIRST_OUT` of `skiplists.h`. -/
def FIRST_IN_FIRST_OUT : Int := 1

/-- The struct `skiplists_node_structure`: `forward` is the array of `level + 1`
node addresses; `key` and `value` are nullable pointers (`none` is `NULL`). -/
structure SkiplistsNodeStructure (K V : Type) where
  level : Nat
  key : Option K
  value : Option V
  forward : List Nat
deriving DecidableEq

/-- The struct `skiplists_random_level_structure`. -/
structure SkiplistsRandomStructure where
  max_number_of_levels : Nat
  max_level : Nat
  inverse_p : Nat
  randoms_left : Int
  random_bits : Nat
  bits_per_use : Nat
  bits_in_random : Nat
deriving DecidableEq

/-- The struct `skiplists_list_structure`; `Head`, `Tail` are node addresses and
`finger` is the array of `SKIPLISTS_MAX_NUMBER_OF_LEVELS` node addresses. -/
structure SkiplistsListStructure where
  level : Nat
  Head : Nat
  Tail : Nat
  finger : List Nat
deriving DecidableEq

/-- The arena of node cells; cell `0` is never allocated (null pointer). -/
abbrev Memory (K V : Type) := List (Option (SkiplistsNodeStructure K V))

/-- The struct `skiplists_structure`, together with the two pieces of the
environment the functions act on: the node memory `mem` and the outputs `prng`
that the coming calls of `rand()` return (after them `rand()` returns `0`). -/
structure SkiplistsStructure (K V : Type) where
  size : Int
  init_fingers : Bool
  allow_duplicates : Bool
  duplicate_rule : Int
  compare_function : Option K → Option K → Int
  duplicate_function : Option (Option V → Option V → Option V)
  R : SkiplistsRandomStructure
  L : SkiplistsListStructure
  mem : Memory K V
  prng : List Nat

section Model

variable {K V : Type}

/-! ## Memory accesses -/

/-- The node stored at address `p`, if `p` points to a live node. -/
def deref (mem : Memory K V) (p : Nat) : Option (SkiplistsNodeStructure K V) :=
  match mem[p]? with
  | some (some n) => some n
  | _ => none

/-- The read `p->forward[k]`. -/
def load_forward (mem : Memory K V) (p k : Nat) : Option Nat :=
  match deref mem p with
  | some n => n.forward[k]?
  | none => none

/-- The read `p->key`. -/
def load_key (mem : Memory K V) (p : Nat) : Option (Option K) :=
  match deref mem p with
  | some n => some n.key
  | none => none

/-- The read `p->value`. -/
def load_value (mem : Memory K V) (p : Nat) : Option (Option V) :=
  match deref mem p with
  | some n => some n.value
  | none => none

/-- The read `p->level`. -/
def load_level (mem : Memory K V) (p : Nat) : Option Nat :=
  match deref mem p with
  | some n => some n.level
  | none => none

/-- The write `p->forward[k] = v`. -/
def store_forward (mem : Memory K V) (p k v : Nat) : Option (Memory K V) :=
  match deref mem p with
  | some n =>
    if k < n.forward.length then
      some (mem.set p (some { n with forward := n.forward.set k v }))
    else none
  | none => none

/-- The write `p->key = key`. -/
def store_key (mem : Memory K V) (p : Nat) (key : Option K) : Option (Memory K V) :=
  match deref mem p with
  | some n => some (mem.set p (some { n with key := key }))
  | none => none

/-- The write `p->value = value`. -/
def store_value (mem : Memory K V) (p : Nat) (value : Option V) : Option (Memory K V) :=
  match deref mem p with
  | some n => some (mem.set p (some { n with value := value }))
  | none => none

/-- The write `a[i] = v` into an array of node addresses (`update`, `finger`). -/
def array_store (a : List Nat) (i v : Nat) : Option (List Nat) :=
  if i < a.length then some (a.set i v) else none

/-- `skiplists_new_node_of_level`: a fresh cell at the end of the arena, with
`l + 1` forward slots that hold no address yet. -/
def skiplists_new_node_of_level (mem : Memory K V) (l : Nat) : Nat × Memory K V :=
  (mem.length,
   mem ++ [some { level := l, key := none, value := none, forward := List.replicate (l + 1) 0 }])

/-- `skiplists_remove_node`: releases the cell of node `n`. -/
def skiplists_remove_node (mem : Memory K V) (n : Nat) : Option (Memory K V) :=
  match deref mem n with
  | some _ => some (mem.set n none)
  | none => none

/-! ## Level generator -/

/-- The loop of `count_bits`: `for (bits = 1; (n >>= 1) > 0; bits++);`. -/
def count_bits_loop : Nat → Nat → Nat → Nat
  | 0, _, bits => bits
  | fuel + 1, n, bits =>
    if n >>> 1 > 0 then count_bits_loop fuel (n >>> 1) (bits + 1) else bits

/-- `count_bits`; the loop runs fewer than `n + 1` times. -/
def count_bits (n : Nat) : Nat := count_bits_loop n n 1

/-- One call of `rand()`: the next output of the generator. -/
def rand (prng : List Nat) : Nat × List Nat :=
  match prng with
  | [] => (0, [])
  | r :: rest => (r, rest)

/-- The `while (!b)` loop of `random_level`; `level` is the running counter. -/
def random_level_loop :
    Nat → SkiplistsRandomStructure → List Nat → Nat →
      Option (Nat × SkiplistsRandomStructure × List Nat)
  | 0, _, _, _ => none
  | fuel + 1, R, prng, level =>
    let b := R.random_bits &&& (R.inverse_p - 1)
    let level1 := if b = 0 then level + 1 else level
    let R1 := { R with random_bits := R.random_bits >>> R.bits_per_use,
                       randoms_left := R.randoms_left - 1 }
    let next : SkiplistsRandomStructure × List Nat :=
      if R1.randoms_left = 0 then
        ({ R1 with random_bits := (rand prng).1,
                   randoms_left := ((R1.bits_in_random / R1.bits_per_use : Nat) : Int) },
         (rand prng).2)
      else (R1, prng)
    if b = 0 then random_level_loop fuel next.1 next.2 level1
    else some (level1, next.1, next.2)

/-- A number of iterations that every returning run of the loop of
`random_level` stays below: once the outputs in `prng` are used up the
generator only yields zero bits. -/
def random_level_fuel (R : SkiplistsRandomStructure) (prng : List Nat) : Nat :=
  R.randoms_left.toNat + R.random_bits + 1
    + prng.length * (R.bits_in_random / R.bits_per_use + 1) + prng.sum

/-- `random_level`: the level of the next node, capped at `max_level`. -/
def random_level (R : SkiplistsRandomStructure) (prng : List Nat) :
    Option (Nat × SkiplistsRandomStructure × List Nat) :=
  match random_level_loop (random_level_fuel R prng) R prng 0 with
  | none => none
  | some (level, R1, prng1) =>
    some (if level > R1.max_level then R1.max_level else level, R1, prng1)

/-! ## Creation -/

/-- The loop `for (i = 0; i < max_number_of_levels; i++) Head->forward[i] = Tail`. -/
def init_head_forward (Head Tail : Nat) : Nat → Memory K V → Option (Memory K V)
  | 0, mem => some mem
  | n + 1, mem =>
    match init_head_forward Head Tail n mem with
    | none => none
    | some mem1 => store_forward mem1 Head n Tail

/-- `skiplists_new`.  `rand_max` is the constant `RAND_MAX` of `<stdlib.h>`.
The header defines `SKIPLISTS_ALLOW_DUPLICATES`, so `allow_duplicates` starts
as `TRUE`.  A failing store cannot happen on the fresh cells; the memory is then
left as it is. -/
def skiplists_new (compare_function : Option K → Option K → Int) (rand_max : Nat)
    (prng : List Nat) : SkiplistsStructure K V :=
  let bits_per_use := count_bits SKIPLISTS_INVERSE_P
  let bits_in_random := count_bits rand_max
  let R : SkiplistsRandomStructure :=
    { max_number_of_levels := SKIPLISTS_MAX_NUMBER_OF_LEVELS
      max_level := SKIPLISTS_MAX_NUMBER_OF_LEVELS - 1
      inverse_p := SKIPLISTS_INVERSE_P
      bits_per_use := bits_per_use
      bits_in_random := bits_in_random
      random_bits := (rand prng).1
      randoms_left := ((bits_in_random / bits_per_use : Nat) : Int) }
  let h := skiplists_new_node_of_level ([none] : Memory K V) R.max_number_of_levels
  let t := skiplists_new_node_of_level h.2 0
  let mem := (init_head_forward h.1 t.1 R.max_number_of_levels t.2).getD t.2
  { size := 0
    init_fingers := true
    allow_duplicates := true
    duplicate_rule := LAST_IN_FIRST_OUT
    compare_function := compare_function
    duplicate_function := none
    R := R
    L := { level := 0, Head := h.1, Tail := t.1,
           finger := List.replicate R.max_number_of_levels 0 }
    mem := mem
    prng := (rand prng).2 }

/-- `skiplists_allow_duplicates`. -/
def skiplists_allow_duplicates (SL : SkiplistsStructure K V) (duplicate_rule : Int) :
    SkiplistsStructure K V :=
  { SL with allow_duplicates := true, duplicate_rule := duplicate_rule }

/-- `skiplists_disallow_duplicates`. -/
def skiplists_disallow_duplicates (SL : SkiplistsStructure K V)
    (duplicate_function : Option (Option V → Option V → Option V)) :
    SkiplistsStructure K V :=
  { SL with allow_duplicates := false, duplicate_function := duplicate_function }

/-- `skiplists_size`. -/
def skiplists_size (SL : SkiplistsStructure K V) : Int := SL.size

/-! ## Leveled descent -/

/-- The search loop shared by `skiplists_insert`, `skiplists_remove` and the
tail of `skiplists_lookup_with_finger`:

    for (p = start, k = level; k >= 0; update[k] = p, k--)
      for (; q = p->forward[k], q != Tail; p = q)
        if (compare_function (q->key, key) >= 0) break;

It returns the final `p`, the final `q` and the array written (`update` or
`finger`). -/
def descent (mem : Memory K V) (Tail : Nat) (cmp : Option K → Option K → Int) (key : K) :
    Nat → Nat → Nat → List Nat → Option (Nat × Nat × List Nat)
  | 0, _, _, _ => none
  | fuel + 1, p, k, update =>
    match load_forward mem p k with
    | none => none
    | some q =>
      let down : Option (Nat × Nat × List Nat) :=
        match array_store update k p with
        | none => none
        | some u => if k = 0 then some (p, q, u) else descent mem Tail cmp key fuel p (k - 1) u
      if q = Tail then down
      else
        match load_key mem q with
        | none => none
        | some qk =>
          if cmp qk (some key) ≥ 0 then down
          else descent mem Tail cmp key fuel q k update

/-- The search loop of `skiplists_lookup` (the same loop without `update`). -/
def lookup_descent (mem : Memory K V) (Tail : Nat) (cmp : Option K → Option K → Int)
    (key : K) : Nat → Nat → Nat → Option (Nat × Nat)
  | 0, _, _ => none
  | fuel + 1, p, k =>
    match load_forward mem p k with
    | none => none
    | some q =>
      let down : Option (Nat × Nat) :=
        if k = 0 then some (p, q) else lookup_descent mem Tail cmp key fuel p (k - 1)
      if q = Tail then down
      else
        match load_key mem q with
        | none => none
        | some qk =>
          if cmp qk (some key) ≥ 0 then down
          else lookup_descent mem Tail cmp key fuel q k

/-- Fuel for a descent: it makes at most one step per cell and one per level. -/
def descent_fuel (mem : Memory K V) (level : Nat) : Nat := mem.length + level + 1

/-- The test after the descent:
`if (q != Tail) key_found = compare_function (q->key, key) == 0`. -/
def key_found_at (mem : Memory K V) (Tail : Nat) (cmp : Option K → Option K → Int)
    (key : K) (q : Nat) : Option Bool :=
  if q = Tail then some false
  else
    match load_key mem q with
    | none => none
    | some qk => some (decide (cmp qk (some key) = 0))

/-! ## Insert -/

/-- The loop `for (k = p->level; k >= 0; k--) update[k] = last_identical`. -/
def fill_down (p : Nat) : Nat → List Nat → Option (List Nat)
  | 0, update => array_store update 0 p
  | k + 1, update =>
    match array_store update (k + 1) p with
    | none => none
    | some u => fill_down p k u

/-- The walk along an equal-key run made under `FIRST_IN_FIRST_OUT`:

    for (p = last_identical; p != Tail; p = p->forward[0])
      if (compare_function (p->key, key) == 0) { last_identical = p; ... }
      else break; -/
def fifo_walk (mem : Memory K V) (Tail : Nat) (cmp : Option K → Option K → Int) (key : K) :
    Nat → Nat → Nat → List Nat → Option (Nat × List Nat)
  | 0, _, _, _ => none
  | fuel + 1, p, last_identical, update =>
    if p = Tail then some (last_identical, update)
    else
      match load_key mem p with
      | none => none
      | some pk =>
        if cmp pk (some key) = 0 then
          match load_level mem p with
          | none => none
          | some lv =>
            match fill_down p lv update with
            | none => none
            | some u =>
              match load_forward mem p 0 with
              | none => none
              | some nx => fifo_walk mem Tail cmp key fuel nx p u
        else some (last_identical, update)

/-- The loop `for (i = k; i > level; i--) update[i] = Head`. -/
def raise_update (Head level : Nat) : Nat → List Nat → Option (List Nat)
  | 0, update => some update
  | i + 1, update =>
    if i + 1 > level then
      match array_store update (i + 1) Head with
      | none => none
      | some u => raise_update Head level i u
    else some update

/-- One round of the splice loop:
`p = update[k]; q->forward[k] = p->forward[k]; p->forward[k] = q`. -/
def splice_step (update : List Nat) (q k : Nat) (mem : Memory K V) : Option (Memory K V) :=
  match update[k]? with
  | none => none
  | some p =>
    match load_forward mem p k with
    | none => none
    | some x =>
      match store_forward mem q k x with
      | none => none
      | some mem1 => store_forward mem1 p k q

/-- The loop `while (k >= 0) { ...; k--; }` that links the new node `q`. -/
def splice (update : List Nat) (q : Nat) : Nat → Memory K V → Option (Memory K V)
  | 0, mem => splice_step update q 0 mem
  | k + 1, mem =>
    match splice_step update q (k + 1) mem with
    | none => none
    | some mem1 => splice update q k mem1

/-- `skiplists_insert`.  The static array `update` is modelled as a fresh
array of null addresses: no slot is read before it is written in the same
call. -/
def skiplists_insert (SL : SkiplistsStructure K V) (key : K) (value : Option V) :
    Option (Bool × SkiplistsStructure K V) :=
  match descent SL.mem SL.L.Tail SL.compare_function key (descent_fuel SL.mem SL.L.level)
      SL.L.Head SL.L.level (List.replicate SKIPLISTS_MAX_NUMBER_OF_LEVELS 0) with
  | none => none
  | some (_, q, update) =>
    match key_found_at SL.mem SL.L.Tail SL.compare_function key q with
    | none => none
    | some key_found =>
      let walked : Option (Nat × List Nat) :=
        if key_found = true ∧ SL.duplicate_rule = FIRST_IN_FIRST_OUT then
          fifo_walk SL.mem SL.L.Tail SL.compare_function key (SL.mem.length + 1) q q update
        else some (if key_found then q else 0, update)
      match walked with
      | none => none
      | some (last_identical, update1) =>
        if SL.allow_duplicates = false ∧ key_found = true then
          match SL.duplicate_function with
          | none =>
            match store_value SL.mem last_identical value with
            | none => none
            | some mem1 => some (false, { SL with init_fingers := true, mem := mem1 })
          | some f =>
            match load_value SL.mem last_identical with
            | none => none
            | some old_value =>
              match store_value SL.mem last_identical (f old_value value) with
              | none => none
              | some mem1 => some (false, { SL with init_fingers := true, mem := mem1 })
        else
          match random_level SL.R SL.prng with
          | none => none
          | some (k, R1, prng1) =>
            let raised : Option (List Nat) :=
              if k > SL.L.level then raise_update SL.L.Head SL.L.level k update1
              else some update1
            match raised with
            | none => none
            | some update2 =>
              let level1 := if k > SL.L.level then k else SL.L.level
              let q1 := skiplists_new_node_of_level SL.mem k
              match store_key q1.2 q1.1 (some key) with
              | none => none
              | some mem1 =>
                match store_value mem1 q1.1 value with
                | none => none
                | some mem2 =>
                  match splice update2 q1.1 k mem2 with
                  | none => none
                  | some mem3 =>
                    some (true, { SL with init_fingers := true, R := R1, prng := prng1,
                                          L := { SL.L with level := level1 },
                                          mem := mem3, size := SL.size + 1 })

/-! ## Remove -/

/-- The unlink loop of `skiplists_remove`:

    for (k = 0; k <= m && (p = update[k])->forward[k] == last_identical; k++)
      p->forward[k] = last_identical->forward[k];

The first argument counts the rounds still possible, `m + 1 - k`. -/
def remove_unlink (update : List Nat) (last_identical m : Nat) :
    Nat → Nat → Memory K V → Option (Memory K V)
  | 0, _, mem => some mem
  | n + 1, k, mem =>
    if k ≤ m then
      match update[k]? with
      | none => none
      | some p =>
        match load_forward mem p k with
        | none => none
        | some x =>
          if x = last_identical then
            match load_forward mem last_identical k with
            | none => none
            | some y =>
              match store_forward mem p k y with
              | none => none
              | some mem1 => remove_unlink update last_identical m n (k + 1) mem1
          else some mem
    else some mem

/-- The loop `while (Head->forward[m] == Tail && m > 0) m--;`. -/
def shrink_level (mem : Memory K V) (Head Tail : Nat) : Nat → Option Nat
  | 0 =>
    match load_forward mem Head 0 with
    | none => none
    | some _ => some 0
  | m + 1 =>
    match load_forward mem Head (m + 1) with
    | none => none
    | some x => if x = Tail then shrink_level mem Head Tail m else some (m + 1)

/-- `skiplists_remove`. -/
def skiplists_remove (SL : SkiplistsStructure K V) (key : K) :
    Option (Bool × SkiplistsStructure K V) :=
  match descent SL.mem SL.L.Tail SL.compare_function key (descent_fuel SL.mem SL.L.level)
      SL.L.Head SL.L.level (List.replicate SKIPLISTS_MAX_NUMBER_OF_LEVELS 0) with
  | none => none
  | some (_, q, update) =>
    match key_found_at SL.mem SL.L.Tail SL.compare_function key q with
    | none => none
    | some key_found =>
      if key_found = true then
        match remove_unlink update q SL.L.level (SL.L.level + 1) 0 SL.mem with
        | none => none
        | some mem1 =>
          match skiplists_remove_node mem1 q with
          | none => none
          | some mem2 =>
            match shrink_level mem2 SL.L.Head SL.L.Tail SL.L.level with
            | none => none
            | some m =>
              some (true, { SL with init_fingers := true, L := { SL.L with level := m },
                                    size := SL.size - 1, mem := mem2 })
      else some (false, { SL with init_fingers := true })

/-! ## Lookup, finger search and traversal -/

/-- `skiplists_lookup`; the result `some none` is the `NULL` return. -/
def skiplists_lookup (SL : SkiplistsStructure K V) (key : K) : Option (Option V) :=
  match lookup_descent SL.mem SL.L.Tail SL.compare_function key
      (descent_fuel SL.mem SL.L.level) SL.L.Head SL.L.level with
  | none => none
  | some (_, q) =>
    match key_found_at SL.mem SL.L.Tail SL.compare_function key q with
    | none => none
    | some key_found => if key_found = true then load_value SL.mem q else some none

/-- The forward scan of `skiplists_lookup_with_finger` (cached key below the
search key); it returns the final `k`, `key_found` and `last_identical`.  The
first argument counts the rounds still possible. -/
def finger_scan_forward (mem : Memory K V) (Tail : Nat) (cmp : Option K → Option K → Int)
    (key : K) (finger : List Nat) (level : Nat) : Nat → Nat → Option (Nat × Bool × Nat)
  | 0, k => some (k, false, 0)
  | n + 1, k =>
    if k ≤ level then
      match finger[k]? with
      | none => none
      | some fk =>
        match load_forward mem fk k with
        | none => none
        | some q =>
          if q = Tail then some (k, false, 0)
          else
            match load_key mem q with
            | none => none
            | some qk =>
              if cmp qk (some key) ≥ 0 then
                (if cmp qk (some key) = 0 then some (k, true, q) else some (k, false, 0))
              else finger_scan_forward mem Tail cmp key finger level n (k + 1)
    else some (k, false, 0)

/-- The backward scan of `skiplists_lookup_with_finger`; an equal key sets
`key_found` and the loop goes on. -/
def finger_scan_backward (mem : Memory K V) (Head : Nat) (cmp : Option K → Option K → Int)
    (key : K) (finger : List Nat) (level : Nat) :
    Nat → Nat → Bool → Nat → Option (Nat × Bool × Nat)
  | 0, k, key_found, last_identical => some (k, key_found, last_identical)
  | n + 1, k, key_found, last_identical =>
    if k ≤ level then
      match finger[k]? with
      | none => none
      | some q =>
        if q = Head then some (k, key_found, last_identical)
        else
          match load_key mem q with
          | none => none
          | some qk =>
            if cmp qk (some key) ≤ 0 then
              (if cmp qk (some key) = 0 then
                finger_scan_backward mem Head cmp key finger level n (k + 1) true q
               else some (k, key_found, last_identical))
            else finger_scan_backward mem Head cmp key finger level n (k + 1)
                   key_found last_identical
    else some (k, key_found, last_identical)

/-- The choice of the start node and start level of
`skiplists_lookup_with_finger`: `(q, level, key_found, last_identical)`. -/
def finger_start (SL : SkiplistsStructure K V) (key : K) : Option (Nat × Nat × Bool × Nat) :=
  if SL.init_fingers = true then some (SL.L.Head, SL.L.level, false, 0)
  else
    match SL.L.finger[0]? with
    | none => none
    | some f0 =>
      match load_key SL.mem f0 with
      | none => none
      | some k0 =>
        if SL.compare_function k0 (some key) < 0 then
          match finger_scan_forward SL.mem SL.L.Tail SL.compare_function key SL.L.finger
              SL.L.level SL.L.level 1 with
          | none => none
          | some (k, key_found, last_identical) =>
            match SL.L.finger[k - 1]? with
            | none => none
            | some q => some (q, k - 1, key_found, last_identical)
        else
          match finger_scan_backward SL.mem SL.L.Head SL.compare_function key SL.L.finger
              SL.L.level SL.L.level 1 false 0 with
          | none => none
          | some (k, key_found, last_identical) =>
            if k > SL.L.level then some (SL.L.Head, SL.L.level, key_found, last_identical)
            else
              match SL.L.finger[k]? with
              | none => none
              | some q => some (q, k, key_found, last_identical)

/-- `skiplists_lookup_with_finger`: the value returned (`some none` is `NULL`)
and the list with its finger array and `init_fingers` flag updated. -/
def skiplists_lookup_with_finger (SL : SkiplistsStructure K V) (key : K) :
    Option (Option V × SkiplistsStructure K V) :=
  match finger_start SL key with
  | none => none
  | some (q0, level, key_found, last_identical) =>
    let SL1 := { SL with init_fingers := false }
    if key_found = true then
      match load_value SL.mem last_identical with
      | none => none
      | some v => some (v, SL1)
    else
      match descent SL.mem SL.L.Tail SL.compare_function key (descent_fuel SL.mem level)
          q0 level SL.L.finger with
      | none => none
      | some (_, q, finger1) =>
        let SL2 := { SL1 with L := { SL.L with finger := finger1 } }
        match key_found_at SL.mem SL.L.Tail SL.compare_function key q with
        | none => none
        | some found =>
          if found = true then
            match load_value SL.mem q with
            | none => none
            | some v => some (v, SL2)
          else some (none, SL2)

/-- The loop of `skiplists_traverse`; the visitor returns its verdict (non-zero
stops the walk) and the new contents of `data`. -/
def traverse_loop {D : Type} (mem : Memory K V) (Tail : Nat)
    (traverse_function : Option K → Option V → D → Int × D) : Nat → Nat → D → Option D
  | 0, _, _ => none
  | fuel + 1, p, data =>
    if p = Tail then some data
    else
      match load_key mem p with
      | none => none
      | some k =>
        match load_value mem p with
        | none => none
        | some v =>
          if (traverse_function k v data).1 ≠ 0 then some (traverse_function k v data).2
          else
            match load_forward mem p 0 with
            | none => none
            | some nx => traverse_loop mem Tail traverse_function fuel nx
                           (traverse_function k v data).2

/-- `skiplists_traverse`. -/
def skiplists_traverse {D : Type} (SL : SkiplistsStructure K V)
    (traverse_function : Option K → Option V → D → Int × D) (data : D) : Option D :=
  if SL.size > 0 then
    match load_forward SL.mem SL.L.Head 0 with
    | none => none
    | some p => traverse_loop SL.mem SL.L.Tail traverse_function (SL.mem.length + 1) p data
  else some data

/-- The visitor that appends every visited pair to `data` and never stops. -/
def collect_visit (k : Option K) (v : Option V) (data : List (Option K × Option V)) :
    Int × List (Option K × Option V) :=
  (0, data ++ [(k, v)])

/-- The pairs visited by a full traversal, in the order visited. -/
def traversal (SL : SkiplistsStructure K V) : Option (List (Option K × Option V)) :=
  skiplists_traverse SL collect_visit []

end Model

/-- Comparison of `int` keys used in the examples (never called on `NULL`). -/
def int_compare : Option Int → Option Int → Int
  | some a, some b => a - b
  | _, _ => 0


/-! ## Abstraction: the level-0 chain as a list of entries -/

section Abstraction

variable {K V : Type}

/-- Two memories agree on everything but forward slots. -/
def SameInfo (mem mem1 : Memory K V) : Prop :=
  mem1.length = mem.length ∧ ∀ x, load_key mem1 x = load_key mem x ∧
    load_value mem1 x = load_value mem x ∧ load_level mem1 x = load_level mem x

/-- One stored entry: the address of its node, the node's level, key and value. -/
structure Entry (K V : Type) where
  id : Nat
  level : Nat
  key : K
  value : Option V

/-- The address that a forward pointer of level `j` must hold when the entries
`es` follow: the first of them that reaches level `j`, or `T` (the tail). -/
def nextAt (T j : Nat) : List (Entry K V) → Nat
  | [] => T
  | e :: es => if j ≤ e.level then e.id else nextAt T j es

/-- The last node of level at least `j` met when walking from `p` over `es`. -/
def prevAt (j : Nat) : Nat → List (Entry K V) → Nat
  | p, [] => p
  | p, e :: es => prevAt j (if j ≤ e.level then e.id else p) es

/-- The node of entry `e` is in memory, with the entries `rest` after it. -/
def NodeOk (mem : Memory K V) (T : Nat) (e : Entry K V) (rest : List (Entry K V)) : Prop :=
  load_level mem e.id = some e.level ∧ load_key mem e.id = some (some e.key) ∧
  load_value mem e.id = some e.value ∧
  ∀ j, j ≤ e.level → load_forward mem e.id j = some (nextAt T j rest)

/-- The nodes of the entries `es` are in memory and linked, `tl` following them. -/
def ChainOk (mem : Memory K V) (T : Nat) : List (Entry K V) → List (Entry K V) → Prop
  | [], _ => True
  | e :: es, tl => NodeOk mem T e (es ++ tl) ∧ ChainOk mem T es tl

/-- The representation invariant: the memory of `SL` holds exactly the skip
list whose level-0 chain is `es`. -/
structure ListInv [LinearOrder K] (SL : SkiplistsStructure K V) (es : List (Entry K V)) : Prop where
  head : SL.L.Head = 1
  tail : SL.L.Tail = 2
  level_le : SL.L.level ≤ 17
  max_level : SL.R.max_level = 17
  head_fwd : ∀ j, j ≤ 17 → load_forward SL.mem SL.L.Head j = some (nextAt SL.L.Tail j es)
  chain : ChainOk SL.mem SL.L.Tail es []
  ids : ∀ e ∈ es, 3 ≤ e.id
  nodup : (es.map (fun e => e.id)).Nodup
  levels : ∀ e ∈ es, e.level ≤ SL.L.level
  sorted : es.Pairwise (fun a b => a.key ≤ b.key)
  size : SL.size = (es.length : Int)
  mem_len : es.length + 3 ≤ SL.mem.length
  finger_len : SL.L.finger.length = 18

/-- The comparison function decides a total order on the keys. -/
def IsOrderCmp [LinearOrder K] (cmp : Option K → Option K → Int) : Prop :=
  ∀ a b : K, (cmp (some a) (some b) < 0 ↔ a < b) ∧ (cmp (some a) (some b) = 0 ↔ a = b)

/-- The entries whose key is below `key`. -/
def lo [LinearOrder K] (key : K) (es : List (Entry K V)) : List (Entry K V) :=
  es.takeWhile (fun e => decide (e.key < key))

/-- The entries from the first key not below `key` on. -/
def hi [LinearOrder K] (key : K) (es : List (Entry K V)) : List (Entry K V) :=
  es.dropWhile (fun e => decide (e.key < key))

/-- The leading entries with key `key`. -/
def keyRun [LinearOrder K] (key : K) (es : List (Entry K V)) : List (Entry K V) :=
  es.takeWhile (fun e => decide (e.key = key))

/-- The entries after the leading ones with key `key`. -/
def afterRun [LinearOrder K] (key : K) (es : List (Entry K V)) : List (Entry K V) :=
  es.dropWhile (fun e => decide (e.key = key))

/-- The first entry with a key not below `key`, when its key is `key`. -/
def hit [LinearOrder K] (key : K) (es : List (Entry K V)) : Option (Entry K V) :=
  match hi key es with
  | [] => none
  | e :: _ => if e.key = key then some e else none

/-- The entry `e` with its value replaced when its node is at address `id`. -/
def set_value (id : Nat) (v : Option V) (e : Entry K V) : Entry K V :=
  if e.id = id then { e with value := v } else e

/-- The entry that `skiplists_insert` updates in place (`last_identical`). -/
def update_target [LinearOrder K] (rule : Int) (key : K) (es : List (Entry K V)) :
    Option (Entry K V) :=
  if rule = FIRST_IN_FIRST_OUT then (keyRun key (hi key es)).getLast? else hit key es

/-- The entries before and after the place where `skiplists_insert` links a
new node. -/
def insert_point [LinearOrder K] (rule : Int) (key : K) (es : List (Entry K V)) :
    List (Entry K V) × List (Entry K V) :=
  if (hit key es).isSome = true ∧ rule = FIRST_IN_FIRST_OUT then
    (lo key es ++ keyRun key (hi key es), afterRun key (hi key es))
  else (lo key es, hi key es)

/-- The effect of `skiplists_insert` on the entries: the value returned and the
new entries; `newid` and `newlevel` are the address and level of a new node. -/
def abs_insert [LinearOrder K] (allow : Bool) (rule : Int)
    (dupf : Option (Option V → Option V → Option V)) (key : K) (value : Option V)
    (newid newlevel : Nat) (es : List (Entry K V)) : Bool × List (Entry K V) :=
  if allow = false ∧ (hit key es).isSome = true then
    match update_target rule key es with
    | some t =>
      (false, es.map (set_value t.id (match dupf with
                                      | none => value
                                      | some f => f t.value value)))
    | none => (false, es)
  else
    (true, (insert_point rule key es).1 ++ ⟨newid, newlevel, key, value⟩ ::
             (insert_point rule key es).2)

/-- The effect of `skiplists_remove` on the entries. -/
def abs_remove [LinearOrder K] (key : K) (es : List (Entry K V)) : Bool × List (Entry K V) :=
  match hit key es with
  | some _ => (true, lo key es ++ (hi key es).tail)
  | none => (false, es)

/-- The configuration of the list is the same in both states. -/
def SameConfig (SL SL1 : SkiplistsStructure K V) : Prop :=
  SL1.compare_function = SL.compare_function ∧ SL1.allow_duplicates = SL.allow_duplicates ∧
  SL1.duplicate_rule = SL.duplicate_rule ∧ SL1.duplicate_function = SL.duplicate_function

/-- The effect of a traversal with visitor `f` on the entries. -/
def visit_entries {D : Type} (f : Option K → Option V → D → Int × D) :
    List (Entry K V) → D → D
  | [], data => data
  | e :: r, data =>
    if (f (some e.key) e.value data).1 ≠ 0 then (f (some e.key) e.value data).2
    else visit_entries f r (f (some e.key) e.value data).2

/-- The key and value of every entry, in order. -/
def pairs (es : List (Entry K V)) : List (K × Option V) :=
  es.map (fun e => (e.key, e.value))

/-- A pair as the traversal hands it to the visitor. -/
def as_visited (p : K × Option V) : Option K × Option V := (some p.1, p.2)

/-- The states of a list that the public functions can produce, starting from
`skiplists_new`; `skiplists_lookup`, `skiplists_traverse` and `skiplists_size`
leave the state as it is. -/
inductive Reachable (cmp : Option K → Option K → Int) (rand_max : Nat) :
    SkiplistsStructure K V → Prop
  | new (prng : List Nat) : Reachable cmp rand_max (skiplists_new cmp rand_max prng)
  | insert {SL SL1 : SkiplistsStructure K V} {key : K} {value : Option V} {b : Bool} :
      Reachable cmp rand_max SL → skiplists_insert SL key value = some (b, SL1) →
      Reachable cmp rand_max SL1
  | remove {SL SL1 : SkiplistsStructure K V} {key : K} {b : Bool} :
      Reachable cmp rand_max SL → skiplists_remove SL key = some (b, SL1) →
      Reachable cmp rand_max SL1
  | lookup_with_finger {SL SL1 : SkiplistsStructure K V} {key : K} {v : Option V} :
      Reachable cmp rand_max SL → skiplists_lookup_with_finger SL key = some (v, SL1) →
      Reachable cmp rand_max SL1
  | allow_duplicates {SL : SkiplistsStructure K V} (rule : Int) :
      Reachable cmp rand_max SL → Reachable cmp rand_max (skiplists_allow_duplicates SL rule)
  | disallow_duplicates {SL : SkiplistsStructure K V}
      (f : Option (Option V → Option V → Option V)) :
      Reachable cmp rand_max SL → Reachable cmp rand_max (skiplists_disallow_duplicates SL f)

/-- The states of a list that is put in disallow-duplicates mode right after
`skiplists_new` and never leaves that mode. -/
inductive ReachableDisallow (cmp : Option K → Option K → Int) (rand_max : Nat) :
    SkiplistsStructure K V → Prop
  | new (prng : List Nat) (f : Option (Option V → Option V → Option V)) :
      ReachableDisallow cmp rand_max
        (skiplists_disallow_duplicates (skiplists_new cmp rand_max prng) f)
  | insert {SL SL1 : SkiplistsStructure K V} {key : K} {value : Option V} {b : Bool} :
      ReachableDisallow cmp rand_max SL → skiplists_insert SL key value = some (b, SL1) →
      ReachableDisallow cmp rand_max SL1
  | remove {SL SL1 : SkiplistsStructure K V} {key : K} {b : Bool} :
      ReachableDisallow cmp rand_max SL → skiplists_remove SL key = some (b, SL1) →
      ReachableDisallow cmp rand_max SL1
  | lookup_with_finger {SL SL1 : SkiplistsStructure K V} {key : K} {v : Option V} :
      ReachableDisallow cmp rand_max SL →
      skiplists_lookup_with_finger SL key = some (v, SL1) →
      ReachableDisallow cmp rand_max SL1
  | disallow_duplicates {SL : SkiplistsStructure K V}
      (f : Option (Option V → Option V → Option V)) :
      ReachableDisallow cmp rand_max SL →
      ReachableDisallow cmp rand_max (skiplists_disallow_duplicates SL f)

/-- The state of the level generator as `skiplists_new` sets it up when
`RAND_MAX` is at least 2: one bit in two is used and a refill lasts at least
one round. -/
def GenOk (R : SkiplistsRandomStructure) : Prop :=
  R.inverse_p = 2 ∧ R.bits_per_use = 2 ∧ 1 ≤ R.randoms_left ∧ 2 ≤ R.bits_in_random

/-- The outputs that `rand()` still has to give all have their lowest bit set. -/
def AllOdd (prng : List Nat) : Prop := ∀ r ∈ prng, r % 2 = 1

end Abstraction

/-! ## Reference sorted map and runs of operations -/

section Reference

variable {K V : Type}

/-- Reference sorted map, put-or-overwrite: the map is a list of pairs in
ascending key order. -/
def ref_put [LinearOrder K] (key : K) (v : Option V) :
    List (K × Option V) → List (K × Option V)
  | [] => [(key, v)]
  | (k, w) :: r =>
    if key < k then (key, v) :: (k, w) :: r
    else if key = k then (key, v) :: r
    else (k, w) :: ref_put key v r

/-- Reference sorted map, erase. -/
def ref_erase [LinearOrder K] (key : K) (m : List (K × Option V)) : List (K × Option V) :=
  m.filter (fun p => decide (p.1 ≠ key))

/-- Reference sorted map, get: the value stored for `key`, `none` (`NULL`) when
there is none. -/
def ref_get [LinearOrder K] (m : List (K × Option V)) (key : K) : Option V :=
  match m.find? (fun p => decide (p.1 = key)) with
  | some p => p.2
  | none => none

/-- One mutating call of the public interface. -/
inductive Op (K V : Type) where
  | insert (key : K) (value : Option V)
  | remove (key : K)

/-- The reference map after one operation. -/
def ref_apply [LinearOrder K] (m : List (K × Option V)) : Op K V → List (K × Option V)
  | Op.insert key value => ref_put key value m
  | Op.remove key => ref_erase key m

/-- The reference map after a sequence of operations on the empty map. -/
def ref_run [LinearOrder K] (ops : List (Op K V)) : List (K × Option V) :=
  ops.foldl ref_apply []

/-- The list after one operation (`none`: the call does not return). -/
def run_op (SL : SkiplistsStructure K V) : Op K V → Option (SkiplistsStructure K V)
  | Op.insert key value => (skiplists_insert SL key value).map (fun r => r.2)
  | Op.remove key => (skiplists_remove SL key).map (fun r => r.2)

/-- The list after a sequence of operations. -/
def run_ops : SkiplistsStructure K V → List (Op K V) → Option (SkiplistsStructure K V)
  | SL, [] => some SL
  | SL, op :: ops =>
    match run_op SL op with
    | none => none
    | some SL1 => run_ops SL1 ops

/-- The value of the last insert made with `key` in a sequence of inserts. -/
def last_insert [DecidableEq K] (ops : List (K × Option V)) (key : K) : Option (Option V) :=
  (ops.reverse.find? (fun p => decide (p.1 = key))).map (fun p => p.2)

/-- The inserts `(key, value)` as operations. -/
def as_inserts (ops : List (K × Option V)) : List (Op K V) :=
  ops.map (fun p => Op.insert p.1 p.2)

end Reference

/-! ## Level chains and the reference for runs of equal keys -/

section Chains

variable {K V : Type}

/-- The nodes met from `p` along the forward pointers of level `l`, up to the
tail: `for (q = p->forward[l]; q != Tail; q = q->forward[l])`. -/
def chain_from (mem : Memory K V) (Tail l : Nat) : Nat → Nat → Option (List Nat)
  | 0, _ => none
  | fuel + 1, p =>
    match load_forward mem p l with
    | none => none
    | some q => if q = Tail then some [] else (chain_from mem Tail l fuel q).map (fun c => q :: c)

/-- The chain of level `l`: the nodes reachable from `Head` at that level. -/
def level_chain (SL : SkiplistsStructure K V) (l : Nat) : Option (List Nat) :=
  chain_from SL.mem SL.L.Tail l (SL.mem.length + 1) SL.L.Head

/-- The top level of the list is `0` or holds a node. -/
def TopOk (SL : SkiplistsStructure K V) : Prop :=
  SL.L.level = 0 ∨ ∃ x, load_forward SL.mem SL.L.Head SL.L.level = some x ∧ x ≠ SL.L.Tail

/-- The key of the node at `x` is below the key of the node at `y`. -/
def key_below (SL : SkiplistsStructure K V) (x y : Nat) : Prop :=
  ∃ kx ky, load_key SL.mem x = some (some kx) ∧ load_key SL.mem y = some (some ky) ∧
    SL.compare_function (some kx) (some ky) < 0

/-- The values of the visited pairs whose key compares equal to `key`, in the
order visited. -/
def values_of (cmp : Option K → Option K → Int) (key : K) (out : List (Option K × Option V)) :
    List (Option V) :=
  (out.filter (fun p => decide (cmp p.1 (some key) = 0))).map Prod.snd

/-- The values stored under `key` after one more operation, the next one to be
removed first: `skiplists_remove` takes the first; an insert adds at the end
under `FIRST_IN_FIRST_OUT` (a queue) and at the front otherwise (a stack). -/
def bag_apply [DecidableEq K] (rule : Int) (key : K) (b : List (Option V)) :
    Op K V → List (Option V)
  | Op.insert k v =>
    if k = key then (if rule = FIRST_IN_FIRST_OUT then b ++ [v] else v :: b) else b
  | Op.remove k => if k = key then b.tail else b

/-- The values stored under `key` after a sequence of operations on an empty
list, the next one to be removed first. -/
def bag_run [DecidableEq K] (rule : Int) (key : K) (ops : List (Op K V)) : List (Option V) :=
  ops.foldl (bag_apply rule key) []

/-- The values of the entries with key `key`, in order. -/
def entry_values [DecidableEq K] (key : K) (es : List (Entry K V)) : List (Option V) :=
  (es.filter (fun e => decide (e.key = key))).map (fun e => e.value)

end Chains

/-! ## C++ implementation: the class template `SkipLists` (`skiplists.hpp`)

A null pointer is the address `0`.  Reading a member through a pointer that does
not point to a live node, and indexing a vector outside its size, are faults.
-/

/-- The macro `BITSINRANDOM`. -/
def BITSINRANDOM : Nat := 31

/-- What goes wrong in a run of the C++ code. -/
inductive Fault where
  | null_dereference
  | out_of_range
  | no_return
deriving DecidableEq

/-- The struct template `SkipListsNode`; `forward` is the vector of node
addresses. -/
structure SkipListsNode (K V : Type) where
  key : K
  value : V
  forward : List Nat
deriving DecidableEq

/-- The data members of the class template `SkipLists`, with the node memory
`mem` and the outputs `prng` of the coming calls of `rand()`. -/
structure SkipLists (K V : Type) where
  level : Int
  max_number_of_levels : Int
  max_level : Int
  randoms_left : Int
  random_bits : Nat
  header : Nat
  mem : List (Option (SkipListsNode K V))
  prng : List Nat
deriving DecidableEq

namespace SkipLists

variable {K V : Type}

/-- The node a pointer points to. -/
def node_at (mem : List (Option (SkipListsNode K V))) (p : Nat) :
    Except Fault (SkipListsNode K V) :=
  match mem[p]? with
  | some (some n) => Except.ok n
  | _ => Except.error Fault.null_dereference

/-- The read `v[i]` of a vector or array of node addresses. -/
def vec_get (v : List Nat) (i : Int) : Except Fault Nat :=
  if i < 0 then Except.error Fault.out_of_range
  else
    match v[i.toNat]? with
    | some x => Except.ok x
    | none => Except.error Fault.out_of_range

/-- The write `v[i] = x`. -/
def vec_set (v : List Nat) (i : Int) (x : Nat) : Except Fault (List Nat) :=
  if i < 0 then Except.error Fault.out_of_range
  else if i.toNat < v.length then Except.ok (v.set i.toNat x)
  else Except.error Fault.out_of_range

/-- The read `p->forward[i]`. -/
def forward_at (mem : List (Option (SkipListsNode K V))) (p : Nat) (i : Int) :
    Except Fault Nat :=
  match node_at mem p with
  | Except.error f => Except.error f
  | Except.ok n => vec_get n.forward i

/-- The write `p->forward[i] = x`. -/
def set_forward (mem : List (Option (SkipListsNode K V))) (p : Nat) (i : Int) (x : Nat) :
    Except Fault (List (Option (SkipListsNode K V))) :=
  match node_at mem p with
  | Except.error f => Except.error f
  | Except.ok n =>
    match vec_set n.forward i x with
    | Except.error f => Except.error f
    | Except.ok fw => Except.ok (mem.set p (some { n with forward := fw }))

/-- The constructor `SkipLists(int max_level_num = 16)`; the header node takes
the address `1`. -/
def create [Inhabited K] [Inhabited V] (max_level_num : Int) (prng : List Nat) :
    SkipLists K V :=
  { level := 0
    max_number_of_levels := max_level_num
    max_level := max_level_num - 1
    randoms_left := ((BITSINRANDOM / 2 : Nat) : Int)
    random_bits := (rand prng).1 % BITSINRANDOM + 1
    header := 1
    mem := [none, some { key := default, value := default,
                         forward := List.replicate max_level_num.toNat 0 }]
    prng := (rand prng).2 }

/-- The `do ... while (!b)` loop of `random_level`; `l` is the running level. -/
def random_level_loop : Nat → SkipLists K V → Int → Except Fault (Int × SkipLists K V)
  | 0, _, _ => Except.error Fault.no_return
  | fuel + 1, self, l =>
    let b := self.random_bits &&& 3
    let l1 := if b = 0 then l + 1 else l
    let s1 := { self with random_bits := self.random_bits >>> 2,
                          randoms_left := self.randoms_left - 1 }
    let s2 : SkipLists K V :=
      if s1.randoms_left = 0 then
        { s1 with random_bits := (rand s1.prng).1 % BITSINRANDOM + 1,
                  randoms_left := ((BITSINRANDOM / 2 : Nat) : Int),
                  prng := (rand s1.prng).2 }
      else s1
    if b = 0 then random_level_loop fuel s2 l1 else Except.ok (l1, s2)

/-- The method `random_level`; every refill yields a set bit, so the loop ends
within the rounds one refill lasts once the bits in hand are used up. -/
def random_level (self : SkipLists K V) : Except Fault (Int × SkipLists K V) :=
  match random_level_loop (self.randoms_left.toNat + self.random_bits + 64) self 1 with
  | Except.error f => Except.error f
  | Except.ok (l, s) => Except.ok (if l > s.max_level then s.max_level else l, s)

/-- The inner loop of the search in `insert`:
`while (q = p->forward[k], q != NULL && q->key < key) p = q;`. -/
def insert_walk [LinearOrder K] (mem : List (Option (SkipListsNode K V))) (key : K) (k : Int) :
    Nat → Nat → Except Fault (Nat × Nat)
  | 0, _ => Except.error Fault.no_return
  | fuel + 1, p =>
    match forward_at mem p k with
    | Except.error f => Except.error f
    | Except.ok q =>
      if q = 0 then Except.ok (p, q)
      else
        match node_at mem q with
        | Except.error f => Except.error f
        | Except.ok qn =>
          if qn.key < key then insert_walk mem key k fuel q else Except.ok (p, q)

/-- The outer loop of the search in `insert`:
`while (--k >= 0) { ...; update[k] = p; }`; the first argument is `k` before
the decrement. -/
def insert_search [LinearOrder K] (mem : List (Option (SkipListsNode K V))) (key : K) :
    Nat → Nat → Nat → List Nat → Except Fault (Nat × Nat × List Nat)
  | 0, p, q, update => Except.ok (p, q, update)
  | k + 1, p, _, update =>
    match insert_walk mem key (k : Int) (mem.length + 1) p with
    | Except.error f => Except.error f
    | Except.ok (p1, q1) =>
      match vec_set update (k : Int) p1 with
      | Except.error f => Except.error f
      | Except.ok u1 => insert_search mem key k p1 q1 u1

/-- The loop that links the new node `q` in `insert`:
`while (--k >= 0) { p = update[k]; q->forward[k] = p->forward[k]; p->forward[k] = q; }`. -/
def link (update : List Nat) (q : Nat) :
    Nat → List (Option (SkipListsNode K V)) → Except Fault (List (Option (SkipListsNode K V)))
  | 0, mem => Except.ok mem
  | k + 1, mem =>
    match vec_get update (k : Int) with
    | Except.error f => Except.error f
    | Except.ok p =>
      match forward_at mem p (k : Int) with
      | Except.error f => Except.error f
      | Except.ok x =>
        match set_forward mem q (k : Int) x with
        | Except.error f => Except.error f
        | Except.ok mem1 =>
          match set_forward mem1 p (k : Int) q with
          | Except.error f => Except.error f
          | Except.ok mem2 => link update q k mem2

/-- The method `insert`.  The local `q` is read before it is assigned when the
list has no level; `q0` is the value it then holds. -/
def insert [LinearOrder K] (self : SkipLists K V) (q0 : Nat) (key : K) (value : V) :
    Except Fault (Bool × SkipLists K V) :=
  match insert_search self.mem key self.level.toNat self.header q0
      (List.replicate self.max_number_of_levels.toNat 0) with
  | Except.error f => Except.error f
  | Except.ok (_, q, update) =>
    let hit : Except Fault Bool :=
      if q = 0 then Except.ok false
      else
        match node_at self.mem q with
        | Except.error f => Except.error f
        | Except.ok qn => Except.ok (decide (qn.key = key))
    match hit with
    | Except.error f => Except.error f
    | Except.ok true =>
      match node_at self.mem q with
      | Except.error f => Except.error f
      | Except.ok qn =>
        Except.ok (false, { self with mem := self.mem.set q (some { qn with value := value }) })
    | Except.ok false =>
      match random_level self with
      | Except.error f => Except.error f
      | Except.ok (k0, s1) =>
        let raised : Except Fault (Int × Int × List Nat) :=
          if k0 > s1.level then
            match vec_set update (s1.level + 1 - 1) s1.header with
            | Except.error f => Except.error f
            | Except.ok u => Except.ok (s1.level + 1, s1.level + 1, u)
          else Except.ok (k0, s1.level, update)
        match raised with
        | Except.error f => Except.error f
        | Except.ok (k, level1, update1) =>
          let q1 := s1.mem.length
          let mem1 := s1.mem ++ [some { key := key, value := value,
                                        forward := List.replicate k.toNat 0 }]
          match link update1 q1 k.toNat mem1 with
          | Except.error f => Except.error f
          | Except.ok mem2 => Except.ok (true, { s1 with level := level1, mem := mem2 })

/-- The inner loop of the search in `remove` and `find`:
`while (q = p->forward[k], q->key < key) p = q;`. -/
def walk [LinearOrder K] (mem : List (Option (SkipListsNode K V))) (key : K) (k : Int) :
    Nat → Nat → Except Fault (Nat × Nat)
  | 0, _ => Except.error Fault.no_return
  | fuel + 1, p =>
    match forward_at mem p k with
    | Except.error f => Except.error f
    | Except.ok q =>
      match node_at mem q with
      | Except.error f => Except.error f
      | Except.ok qn => if qn.key < key then walk mem key k fuel q else Except.ok (p, q)

/-- The outer loop of the search in `remove`. -/
def remove_search [LinearOrder K] (mem : List (Option (SkipListsNode K V))) (key : K) :
    Nat → Nat → Nat → List Nat → Except Fault (Nat × Nat × List Nat)
  | 0, p, q, update => Except.ok (p, q, update)
  | k + 1, p, _, update =>
    match walk mem key (k : Int) (mem.length + 1) p with
    | Except.error f => Except.error f
    | Except.ok (p1, q1) =>
      match vec_set update (k : Int) p1 with
      | Except.error f => Except.error f
      | Except.ok u1 => remove_search mem key k p1 q1 u1

/-- The outer loop of the search in `find`. -/
def find_search [LinearOrder K] (mem : List (Option (SkipListsNode K V))) (key : K) :
    Nat → Nat → Nat → Except Fault (Nat × Nat)
  | 0, p, q => Except.ok (p, q)
  | k + 1, p, _ =>
    match walk mem key (k : Int) (mem.length + 1) p with
    | Except.error f => Except.error f
    | Except.ok (p1, q1) => find_search mem key k p1 q1

/-- The unlink loop of `remove`:
`for (i = 0; (i < level) && (update[i]->forward[i] == q); ++i) { ... }`; the
first argument counts the rounds still possible. -/
def unlink (update : List Nat) (q : Nat) (level : Int) :
    Nat → Int → List (Option (SkipListsNode K V)) →
      Except Fault (List (Option (SkipListsNode K V)))
  | 0, _, mem => Except.ok mem
  | n + 1, i, mem =>
    if i < level then
      match vec_get update i with
      | Except.error f => Except.error f
      | Except.ok p =>
        match forward_at mem p i with
        | Except.error f => Except.error f
        | Except.ok x =>
          if x = q then
            match forward_at mem q i with
            | Except.error f => Except.error f
            | Except.ok y =>
              match set_forward mem p i y with
              | Except.error f => Except.error f
              | Except.ok mem1 => unlink update q level n (i + 1) mem1
          else Except.ok mem
    else Except.ok mem

/-- The loop `while (header->forward[m-1] == NULL && m >= 0) --m;` of `remove`;
the first argument counts the rounds still possible. -/
def shrink (mem : List (Option (SkipListsNode K V))) (header : Nat) :
    Nat → Int → Except Fault Int
  | 0, _ => Except.error Fault.no_return
  | n + 1, m =>
    match forward_at mem header (m - 1) with
    | Except.error f => Except.error f
    | Except.ok x => if x = 0 ∧ m ≥ 0 then shrink mem header n (m - 1) else Except.ok m

/-- The method `remove`; `q0` is the value the local `q` holds before it is
assigned. -/
def remove [LinearOrder K] (self : SkipLists K V) (q0 : Nat) (key : K) :
    Except Fault (Bool × SkipLists K V) :=
  match remove_search self.mem key self.level.toNat self.header q0
      (List.replicate self.max_number_of_levels.toNat 0) with
  | Except.error f => Except.error f
  | Except.ok (_, q, update) =>
    let hit : Except Fault Bool :=
      if q = 0 then Except.ok false
      else
        match node_at self.mem q with
        | Except.error f => Except.error f
        | Except.ok qn => Except.ok (decide (qn.key = key))
    match hit with
    | Except.error f => Except.error f
    | Except.ok false => Except.ok (false, self)
    | Except.ok true =>
      match unlink update q self.level self.level.toNat 0 self.mem with
      | Except.error f => Except.error f
      | Except.ok mem1 =>
        let mem2 := mem1.set q none
        match shrink mem2 self.header (self.level.toNat + 2) self.level with
        | Except.error f => Except.error f
        | Except.ok m => Except.ok (true, { self with level := m, mem := mem2 })

/-- The method `find`: the value returned and the new contents of `res`; `q0`
is the value the local `q` holds before it is assigned. -/
def find [LinearOrder K] (self : SkipLists K V) (q0 : Nat) (key : K) (res : V) :
    Except Fault (Bool × V) :=
  match find_search self.mem key self.level.toNat self.header q0 with
  | Except.error f => Except.error f
  | Except.ok (_, q) =>
    if q = 0 then Except.ok (false, res)
    else
      match node_at self.mem q with
      | Except.error f => Except.error f
      | Except.ok qn => if qn.key = key then Except.ok (true, qn.value) else Except.ok (false, res)

end SkipLists

/-! ## C++ implementation: generator states and reachable lists -/

namespace SkipLists

variable {K V : Type}

/-- The states of the random-bit pool that the constructor and `random_level`
produce: a refill leaves a number from 1 to 31 and 15 uses, and every use drops
two bits. -/
def PoolOk (self : SkipLists K V) : Prop :=
  1 ≤ self.randoms_left ∧ self.randoms_left ≤ 15 ∧
  self.random_bits * 4 ^ (15 - self.randoms_left).toNat < 32 ∧
  (self.randoms_left = 15 → 1 ≤ self.random_bits)

/-- The fields that the loop of `random_level` leaves alone. -/
def SameList (s s1 : SkipLists K V) : Prop :=
  s1.level = s.level ∧ s1.max_number_of_levels = s.max_number_of_levels ∧
  s1.max_level = s.max_level ∧ s1.header = s.header ∧ s1.mem = s.mem

/-- The lists that the constructor `SkipLists (max_level_num)` and returning
calls of `insert` and `remove` produce (`find` leaves the list as it is). -/
inductive ReachableState [LinearOrder K] [Inhabited K] [Inhabited V] (max_level_num : Int) :
    SkipLists K V → Prop
  | create (prng : List Nat) : ReachableState max_level_num (create max_level_num prng)
  | insert {s s1 : SkipLists K V} {q0 : Nat} {key : K} {value : V} {b : Bool} :
      ReachableState max_level_num s → insert s q0 key value = Except.ok (b, s1) →
      ReachableState max_level_num s1
  | remove {s s1 : SkipLists K V} {q0 : Nat} {key : K} {b : Bool} :
      ReachableState max_level_num s → remove s q0 key = Except.ok (b, s1) →
      ReachableState max_level_num s1

end SkipLists

/-! ## Example lists -/

/-- The value of `RAND_MAX` used in the examples (31 random bits). -/
def ex_rand_max : Nat := 2147483647

/-- A fresh list over `int` keys and values; the generator output `81` makes
the first three nodes get the levels 0, 1 and 0. -/
def ex_new : SkiplistsStructure Int Int := skiplists_new int_compare ex_rand_max [81, 81]

/-- A fresh list put in disallow-duplicates mode without merge function. -/
def ex_fresh : SkiplistsStructure Int Int := skiplists_disallow_duplicates ex_new none

/-- Three inserts, the key `1` twice. -/
def ex_inserts : List (Int × Option Int) := [(1, some 10), (3, some 30), (1, some 11)]

/-- The list after `ex_inserts`: keys `1` and `3`. -/
def ex_two : SkiplistsStructure Int Int := (run_ops ex_fresh (as_inserts ex_inserts)).getD ex_fresh

/-- Inserts and removes. -/
def ex_ops : List (Op Int Int) :=
  [Op.insert 1 (some 10), Op.insert 3 (some 30), Op.insert 1 (some 11), Op.remove 3,
   Op.insert 2 (some 20)]

/-- The list after `ex_ops`: keys `1` and `2`. -/
def ex_mixed : SkiplistsStructure Int Int := (run_ops ex_fresh ex_ops).getD ex_fresh

/-- The list in its initial mode (duplicates allowed, last in first out) after
the key `2` is inserted twice. -/
def ex_dup : SkiplistsStructure Int Int :=
  (run_ops ex_new [Op.insert 2 (some 10), Op.insert 2 (some 20)]).getD ex_new

/-- The list in its initial mode after the inserts `(1, 10)`, `(2, 20)`,
`(2, 21)`; the node of `(2, 20)` has level 1, the other two level 0. -/
def ex_run_of_two : SkiplistsStructure Int Int :=
  (run_ops ex_new [Op.insert 1 (some 10), Op.insert 2 (some 20), Op.insert 2 (some 21)]).getD
    ex_new

/-- The list `ex_run_of_two` after `skiplists_lookup_with_finger` of the key `3`. -/
def ex_fingered : SkiplistsStructure Int Int :=
  ((skiplists_lookup_with_finger ex_run_of_two 3).map (fun r => r.2)).getD ex_run_of_two

namespace SkipLists

/-- The calls `insert (k, v)` for every pair of a list, in order. -/
def insert_each {K V : Type} [LinearOrder K] (q0 : Nat) :
    SkipLists K V → List (K × V) → Except Fault (SkipLists K V)
  | s, [] => Except.ok s
  | s, p :: r =>
    match insert s q0 p.1 p.2 with
    | Except.error f => Except.error f
    | Except.ok r1 => insert_each q0 r1.2 r

/-- The list of the test program after `insert (1,2)`, `insert (3,4)`,
`insert (5,6)` when the nodes get the heights 1, 2 and 1. -/
def ex_heights_121 : SkipLists Int Int :=
  { level := 2, max_number_of_levels := 16, max_level := 15, randoms_left := 13,
    random_bits := 0, header := 1,
    mem := [none,
            some { key := 0, value := 0,
                   forward := [2, 3, 0, 0, 0, 0, 0, 0, 0, 0, 0, 0, 0, 0, 0, 0] },
            some { key := 1, value := 2, forward := [3] },
            some { key := 3, value := 4, forward := [4, 0] },
            some { key := 5, value := 6, forward := [0] }],
    prng := [] }

/-- The list of the test program after its three inserts and `remove (1)`,
`remove (3)`, when the nodes got the heights 1, 2 and 3: only `5` is left. -/
def ex_only_5 : SkipLists Int Int :=
  { level := 3, max_number_of_levels := 16, max_level := 15, randoms_left := 14,
    random_bits := 0, header := 1,
    mem := [none,
            some { key := 0, value := 0,
                   forward := [4, 4, 4, 0, 0, 0, 0, 0, 0, 0, 0, 0, 0, 0, 0, 0] },
            none,
            none,
            some { key := 5, value := 6, forward := [0, 0, 0] }],
    prng := [] }

/-- The list after `insert (1,2)` alone. -/
def ex_only_1 : SkipLists Int Int :=
  { level := 1, max_number_of_levels := 16, max_level := 15, randoms_left := 14,
    random_bits := 4, header := 1,
    mem := [none,
            some { key := 0, value := 0,
                   forward := [2, 0, 0, 0, 0, 0, 0, 0, 0, 0, 0, 0, 0, 0, 0, 0] },
            some { key := 1, value := 2, forward := [0] }],
    prng := [] }

/-- The calls `remove (k)` for every key of a list, in order, with the values
returned. -/
def remove_each {K V : Type} [LinearOrder K] (q0 : Nat) :
    SkipLists K V → List K → Except Fault (List Bool × SkipLists K V)
  | s, [] => Except.ok ([], s)
  | s, k :: r =>
    match remove s q0 k with
    | Except.error f => Except.error f
    | Except.ok r1 =>
      match remove_each q0 r1.2 r with
      | Except.error f => Except.error f
      | Except.ok r2 => Except.ok (r1.1 :: r2.1, r2.2)

/-- The list of the test program after `insert (1,2)`, `insert (3,4)`,
`insert (5,6)` when the nodes get the heights 1, 2 and 3. -/
def ex_heights_123 : SkipLists Int Int :=
  { level := 3, max_number_of_levels := 16, max_level := 15, randoms_left := 14,
    random_bits := 0, header := 1,
    mem := [none,
            some { key := 0, value := 0,
                   forward := [2, 3, 4, 0, 0, 0, 0, 0, 0, 0, 0, 0, 0, 0, 0, 0] },
            some { key := 1, value := 2, forward := [3] },
            some { key := 3, value := 4, forward := [4, 4] },
            some { key := 5, value := 6, forward := [0, 0, 0] }],
    prng := [] }

end SkipLists

/-! ## More example lists -/

/-- The list after the first two inserts of `ex_inserts`: keys `1` and `3`. -/
def ex_before_two : SkiplistsStructure Int Int :=
  (run_ops ex_fresh [Op.insert 1 (some 10), Op.insert 3 (some 30)]).getD ex_fresh

/-- The list `ex_two` after `skiplists_insert (3, 31)`. -/
def ex_two_updated : SkiplistsStructure Int Int :=
  (run_ops ex_two [Op.insert 3 (some 31)]).getD ex_two

/-- The list `ex_two` after `skiplists_insert (2, 20)`. -/
def ex_two_more : SkiplistsStructure Int Int :=
  (run_ops ex_two [Op.insert 2 (some 20)]).getD ex_two

/-- A fresh list that allows duplicates under `FIRST_IN_FIRST_OUT`. -/
def ex_fifo_new : SkiplistsStructure Int Int :=
  skiplists_allow_duplicates (skiplists_new int_compare ex_rand_max [81, 81]) FIRST_IN_FIRST_OUT

/-- Two inserts of the key `2`. -/
def ex_two_dups : List (Op Int Int) := [Op.insert 2 (some 10), Op.insert 2 (some 20)]

/-- The list `ex_fifo_new` after `ex_two_dups`. -/
def ex_fifo_two : SkiplistsStructure Int Int := (run_ops ex_fifo_new ex_two_dups).getD ex_fifo_new

/-- The list `ex_fifo_two` after one `skiplists_remove (2)`. -/
def ex_fifo_one : SkiplistsStructure Int Int :=
  (run_ops ex_fifo_two [Op.remove 2]).getD ex_fifo_two

/-- The list `ex_fifo_two` after two calls of `skiplists_remove (2)`. -/
def ex_fifo_none : SkiplistsStructure Int Int :=
  (run_ops ex_fifo_one [Op.remove 2]).getD ex_fifo_one

/-- The list in disallow-duplicates mode after two inserts of the key `2`. -/
def ex_same_twice : SkiplistsStructure Int Int := (run_ops ex_fresh ex_two_dups).getD ex_fresh

/-- A duplicate function: the sum of the two values (`NULL` counts as `0`). -/
def ex_sum (a b : Option Int) : Option Int := some (a.getD 0 + b.getD 0)

/-- The list `ex_two` with the duplicate function `ex_sum`. -/
def ex_merging : SkiplistsStructure Int Int := skiplists_disallow_duplicates ex_two (some ex_sum)

/-- The list `ex_merging` after `skiplists_insert (3, 1)`. -/
def ex_merged : SkiplistsStructure Int Int :=
  (run_ops ex_merging [Op.insert 3 (some 1)]).getD ex_merging

/-- The fresh list after `skiplists_lookup_with_finger (5)`. -/
def ex_empty_fingered : SkiplistsStructure Int Int :=
  ((skiplists_lookup_with_finger ex_new 5).map (fun r => r.2)).getD ex_new

/-- The list `ex_two` after `skiplists_lookup_with_finger (1)`, a search for its
smallest key. -/
def ex_low_fingered : SkiplistsStructure Int Int :=
  ((skiplists_lookup_with_finger ex_two 1).map (fun r => r.2)).getD ex_two

/-- A comparison of `int` keys that returns `d` when an argument is `NULL`. -/
def null_probe (d : Int) : Option Int → Option Int → Int
  | some a, some b => a - b
  | _, _ => d

/-- The list with comparison `null_probe d` after the inserts `(1, 10)`,
`(2, 20)`, `(3, 30)` (node levels 0, 1, 0) and
`skiplists_lookup_with_finger (1)`. -/
def ex_probe (d : Int) : SkiplistsStructure Int Int :=
  ((run_ops (skiplists_disallow_duplicates (skiplists_new (null_probe d) ex_rand_max [81, 81]) none)
      [Op.insert 1 (some 10), Op.insert 2 (some 20), Op.insert 3 (some 30)]).bind
    (fun s => (skiplists_lookup_with_finger s 1).map (fun r => r.2))).getD
    (skiplists_new (null_probe d) ex_rand_max [81, 81])

/-! ## Memory lemmas -/

section MemoryLemmas

variable {K V : Type}



theorem deref_some_lt {mem : Memory K V} {p : Nat} {n : SkiplistsNodeStructure K V}
    (h : deref mem p = some n) : p < mem.length := by
  unfold deref at h
  by_contra hlt
  rw [List.getElem?_eq_none (by omega)] at h
  simp at h

theorem deref_set (mem : Memory K V) (p x : Nat) (c : Option (SkiplistsNodeStructure K V)) :
    deref (mem.set p c) x = if x = p then (if p < mem.length then c else none) else deref mem x := by
  unfold deref
  by_cases hx : x = p
  · subst hx
    by_cases hl : x < mem.length
    · simp [hl]
      cases c <;> simp
    · simp [hl]
      rw [List.getElem?_eq_none (by simp; omega)]
  · simp [hx, List.getElem?_set_ne (Ne.symm hx)]

theorem deref_append_left (mem l : Memory K V) (x : Nat) (h : x < mem.length) :
    deref (mem ++ l) x = deref mem x := by
  unfold deref
  rw [List.getElem?_append_left h]

theorem deref_append_new (mem : Memory K V) (c : Option (SkiplistsNodeStructure K V)) :
    deref (mem ++ [c]) mem.length = c := by
  unfold deref
  simp
  cases c <;> simp


theorem SameInfo.refl (mem : Memory K V) : SameInfo mem mem := ⟨rfl, fun _ => ⟨rfl, rfl, rfl⟩⟩

theorem SameInfo.trans {m1 m2 m3 : Memory K V} (h1 : SameInfo m1 m2) (h2 : SameInfo m2 m3) :
    SameInfo m1 m3 :=
  ⟨h2.1.trans h1.1, fun x =>
    ⟨((h2.2 x).1).trans (h1.2 x).1, ((h2.2 x).2.1).trans (h1.2 x).2.1,
      ((h2.2 x).2.2).trans (h1.2 x).2.2⟩⟩

theorem load_forward_isSome_iff {mem : Memory K V} {p k : Nat} :
    (load_forward mem p k).isSome ↔ ∃ n, deref mem p = some n ∧ k < n.forward.length := by
  unfold load_forward
  cases h : deref mem p with
  | none => simp
  | some n =>
    simp only [Option.some.injEq, exists_eq_left']
    constructor
    · intro h1
      by_contra h2
      rw [List.getElem?_eq_none (by omega)] at h1
      simp at h1
    · intro h1
      rw [List.getElem?_eq_getElem h1]
      rfl

theorem store_forward_ok {mem : Memory K V} {p k : Nat} (v : Nat)
    (h : (load_forward mem p k).isSome) : ∃ mem1, store_forward mem p k v = some mem1 := by
  obtain ⟨n, hn, hk⟩ := load_forward_isSome_iff.1 h
  refine ⟨mem.set p (some { n with forward := n.forward.set k v }), ?_⟩
  simp [store_forward, hn, hk]

theorem store_forward_spec {mem mem1 : Memory K V} {p k v : Nat}
    (h : store_forward mem p k v = some mem1) :
    SameInfo mem mem1 ∧ ∀ x j, load_forward mem1 x j =
      if x = p ∧ j = k then some v else load_forward mem x j := by
  unfold store_forward at h
  cases hn : deref mem p with
  | none => simp [hn] at h
  | some n =>
    simp only [hn] at h
    split at h
    · rename_i hk
      have hp := deref_some_lt hn
      simp only [Option.some.injEq] at h
      subst h
      refine ⟨⟨by simp, fun x => ?_⟩, fun x j => ?_⟩
      · simp only [load_key, load_value, load_level, deref_set, hp, if_true]
        by_cases hx : x = p
        · subst hx; simp [hn]
        · simp [hx]
      · simp only [load_forward, deref_set, hp, if_true]
        by_cases hx : x = p
        · subst hx
          simp only [true_and, hn, if_true]
          by_cases hj : j = k
          · subst hj; simp [hk]
          · simp [hj, List.getElem?_set_ne (Ne.symm hj)]
        · simp [hx]
    · simp at h

theorem store_value_spec {mem mem1 : Memory K V} {p : Nat} {v : Option V}
    (h : store_value mem p v = some mem1) :
    mem1.length = mem.length ∧ (∀ x j, load_forward mem1 x j = load_forward mem x j) ∧
    (∀ x, load_key mem1 x = load_key mem x) ∧ (∀ x, load_level mem1 x = load_level mem x) ∧
    (∀ x, load_value mem1 x = if x = p then some v else load_value mem x) := by
  unfold store_value at h
  cases hn : deref mem p with
  | none => simp [hn] at h
  | some n =>
    simp only [hn, Option.some.injEq] at h
    subst h
    have hp := deref_some_lt hn
    refine ⟨by simp, fun x j => ?_, fun x => ?_, fun x => ?_, fun x => ?_⟩ <;>
    · simp only [load_forward, load_key, load_value, load_level, deref_set, hp, if_true]
      by_cases hx : x = p
      · subst hx; simp [hn]
      · simp [hx]

theorem store_value_ok {mem : Memory K V} {p : Nat} (v : Option V)
    (h : (load_value mem p).isSome) : ∃ mem1, store_value mem p v = some mem1 := by
  unfold load_value at h
  unfold store_value
  cases hn : deref mem p with
  | none => simp [hn] at h
  | some n => exact ⟨_, rfl⟩

theorem remove_node_spec {mem mem1 : Memory K V} {p : Nat}
    (h : skiplists_remove_node mem p = some mem1) :
    mem1.length = mem.length ∧
    (∀ x, x ≠ p → ∀ j, load_forward mem1 x j = load_forward mem x j) ∧
    (∀ x, x ≠ p → load_key mem1 x = load_key mem x) ∧
    (∀ x, x ≠ p → load_level mem1 x = load_level mem x) ∧
    (∀ x, x ≠ p → load_value mem1 x = load_value mem x) := by
  unfold skiplists_remove_node at h
  cases hn : deref mem p with
  | none => simp [hn] at h
  | some n =>
    simp only [hn, Option.some.injEq] at h
    subst h
    refine ⟨by simp, fun x hx j => ?_, fun x hx => ?_, fun x hx => ?_, fun x hx => ?_⟩ <;>
    simp [load_forward, load_key, load_value, load_level, deref_set, hx]

theorem remove_node_ok {mem : Memory K V} {p : Nat}
    (h : (load_level mem p).isSome) : ∃ mem1, skiplists_remove_node mem p = some mem1 := by
  unfold load_level at h
  unfold skiplists_remove_node
  cases hn : deref mem p with
  | none => simp [hn] at h
  | some n => exact ⟨_, rfl⟩

theorem load_level_lt {mem : Memory K V} {p l : Nat} (h : load_level mem p = some l) :
    p < mem.length := by
  unfold load_level at h
  cases hn : deref mem p with
  | none => simp [hn] at h
  | some n => exact deref_some_lt hn

end MemoryLemmas

section AbsLemmas
variable {K V : Type}

theorem nextAt_append_of_lt (T j : Nat) (a b : List (Entry K V))
    (h : ∀ x ∈ a, x.level < j) : nextAt T j (a ++ b) = nextAt T j b := by
  induction a with
  | nil => rfl
  | cons e a ih =>
    have he : ¬ j ≤ e.level := by have := h e (by simp); omega
    simp only [List.cons_append, nextAt, he, if_false]
    exact ih (fun x hx => h x (by simp [hx]))

theorem nextAt_cases (T j : Nat) (es : List (Entry K V)) :
    (nextAt T j es = T ∧ ∀ x ∈ es, x.level < j) ∨
    ∃ a e b, es = a ++ e :: b ∧ (∀ x ∈ a, x.level < j) ∧ j ≤ e.level ∧ nextAt T j es = e.id := by
  induction es with
  | nil => left; simp [nextAt]
  | cons e es ih =>
    by_cases he : j ≤ e.level
    · right
      exact ⟨[], e, es, rfl, by simp, he, by simp [nextAt, he]⟩
    · rcases ih with ⟨h1, h2⟩ | ⟨a, e1, b, h1, h2, h3, h4⟩
      · left
        refine ⟨by simp [nextAt, he, h1], ?_⟩
        intro x hx
        rcases List.mem_cons.1 hx with rfl | hx
        · omega
        · exact h2 x hx
      · right
        refine ⟨e :: a, e1, b, by simp [h1], ?_, h3, by simp [nextAt, he, h4]⟩
        intro x hx
        rcases List.mem_cons.1 hx with rfl | hx
        · omega
        · exact h2 x hx

theorem nextAt_append_of_mem (T j : Nat) (a b c : List (Entry K V))
    (h : ∃ x ∈ a, j ≤ x.level) : nextAt T j (a ++ b) = nextAt T j (a ++ c) := by
  induction a with
  | nil => simp at h
  | cons e a ih =>
    by_cases he : j ≤ e.level
    · simp [nextAt, he]
    · simp only [List.cons_append, nextAt, he, if_false]
      apply ih
      obtain ⟨x, hx, hxl⟩ := h
      rcases List.mem_cons.1 hx with rfl | hx
      · exact absurd hxl he
      · exact ⟨x, hx, hxl⟩

theorem prevAt_of_lt (j p : Nat) (es : List (Entry K V)) (h : ∀ x ∈ es, x.level < j) :
    prevAt j p es = p := by
  induction es generalizing p with
  | nil => rfl
  | cons e es ih =>
    have he : ¬ j ≤ e.level := by have := h e (by simp); omega
    simp only [prevAt, he, if_false]
    exact ih p (fun x hx => h x (by simp [hx]))

theorem prevAt_append (j p : Nat) (a b : List (Entry K V)) :
    prevAt j p (a ++ b) = prevAt j (prevAt j p a) b := by
  induction a generalizing p with
  | nil => rfl
  | cons e a ih => simp only [List.cons_append, prevAt]; exact ih _

theorem prevAt_append_cons (j p : Nat) (a b : List (Entry K V)) (e : Entry K V)
    (he : j ≤ e.level) : prevAt j p (a ++ e :: b) = prevAt j e.id b := by
  rw [prevAt_append]
  simp [prevAt, he]

theorem prevAt_mem (j p : Nat) (es : List (Entry K V)) (h : ∃ x ∈ es, j ≤ x.level) :
    ∃ x ∈ es, prevAt j p es = x.id := by
  induction es generalizing p with
  | nil => simp at h
  | cons e es ih =>
    by_cases h2 : ∃ x ∈ es, j ≤ x.level
    · obtain ⟨x, hx, hxe⟩ := ih _ h2
      exact ⟨x, by simp [hx], by simp only [prevAt]; exact hxe⟩
    · have h3 : ∀ x ∈ es, x.level < j := by
        intro x hx
        by_contra hc
        exact h2 ⟨x, hx, by omega⟩
      obtain ⟨x, hx, hxl⟩ := h
      have he : j ≤ e.level := by
        rcases List.mem_cons.1 hx with rfl | hx
        · exact hxl
        · have := h3 x hx; omega
      refine ⟨e, by simp, ?_⟩
      simp only [prevAt, he, if_true]
      exact prevAt_of_lt _ _ _ h3

theorem prevAt_eq_or_mem (j p : Nat) (es : List (Entry K V)) :
    prevAt j p es = p ∨ ∃ x ∈ es, prevAt j p es = x.id := by
  by_cases h : ∃ x ∈ es, j ≤ x.level
  · exact Or.inr (prevAt_mem j p es h)
  · left
    apply prevAt_of_lt
    intro x hx
    by_contra hc
    exact h ⟨x, hx, by omega⟩

theorem nextAt_eq_tail_iff (T j : Nat) (es : List (Entry K V)) (hT : ∀ e ∈ es, e.id ≠ T) :
    nextAt T j es = T ↔ ∀ x ∈ es, x.level < j := by
  constructor
  · intro h
    rcases nextAt_cases T j es with ⟨_, h2⟩ | ⟨a, e, b, h1, _, _, h4⟩
    · exact h2
    · exfalso
      exact hT e (by simp [h1]) (h4 ▸ h)
  · intro h
    have := nextAt_append_of_lt T j es [] h
    simpa [nextAt] using this

theorem ChainOk_append (mem : Memory K V) (T : Nat) (a b tl : List (Entry K V)) :
    ChainOk mem T (a ++ b) tl ↔ ChainOk mem T a (b ++ tl) ∧ ChainOk mem T b tl := by
  induction a with
  | nil => simp [ChainOk]
  | cons e a ih =>
    show (NodeOk mem T e ((a ++ b) ++ tl) ∧ ChainOk mem T (a ++ b) tl) ↔
      (NodeOk mem T e (a ++ (b ++ tl)) ∧ ChainOk mem T a (b ++ tl)) ∧ ChainOk mem T b tl
    rw [ih, List.append_assoc]
    tauto

theorem ChainOk_mem {mem : Memory K V} {T : Nat} {es tl : List (Entry K V)}
    (h : ChainOk mem T es tl) {e : Entry K V} (he : e ∈ es) :
    load_level mem e.id = some e.level ∧ load_key mem e.id = some (some e.key) ∧
    load_value mem e.id = some e.value := by
  induction es with
  | nil => simp at he
  | cons x es ih =>
    rcases List.mem_cons.1 he with rfl | he
    · exact ⟨h.1.1, h.1.2.1, h.1.2.2.1⟩
    · exact ih h.2 he

end AbsLemmas

section DescentLemmas
variable {K V : Type} [LinearOrder K]

theorem lo_append_hi (key : K) (es : List (Entry K V)) : lo key es ++ hi key es = es :=
  List.takeWhile_append_dropWhile _ es

theorem lo_all_lt (key : K) (es : List (Entry K V)) : ∀ x ∈ lo key es, x.key < key := by
  intro x hx
  have := List.mem_takeWhile_imp hx
  simpa using this

theorem lo_hi_append_cons_lt (key : K) (a b : List (Entry K V)) (e : Entry K V)
    (hs : (a ++ e :: b).Pairwise (fun x y => x.key ≤ y.key)) (he : e.key < key) :
    lo key (a ++ e :: b) = a ++ e :: lo key b ∧ hi key (a ++ e :: b) = hi key b := by
  have ha : ∀ x ∈ a, decide (x.key < key) = true := by
    intro x hx
    have h1 := (List.pairwise_append.1 hs).2.2 x hx e (by simp)
    simpa using lt_of_le_of_lt h1 he
  unfold lo hi
  constructor
  · rw [List.takeWhile_append_of_pos ha]
    simp [List.takeWhile_cons, he]
  · rw [List.dropWhile_append_of_pos ha]
    simp [List.dropWhile_cons, he]

theorem lo_sub_of_not_lt (key : K) (a b : List (Entry K V)) (e : Entry K V)
    (he : ¬ e.key < key) : ∀ x ∈ lo key (a ++ e :: b), x ∈ a := by
  induction a with
  | nil => simp [lo, List.takeWhile_cons, he]
  | cons y a ih =>
    intro x hx
    unfold lo at hx
    rw [List.cons_append, List.takeWhile_cons] at hx
    split at hx
    · rcases List.mem_cons.1 hx with rfl | hx
      · simp
      · exact List.mem_cons_of_mem _ (ih x hx)
    · simp at hx

theorem hi_head_not_lt (key : K) (es : List (Entry K V)) (e : Entry K V) (r : List (Entry K V))
    (h : hi key es = e :: r) : ¬ e.key < key := by
  have := List.head_dropWhile_not (fun e : Entry K V => decide (e.key < key)) es
  unfold hi at h
  simp only [h] at this
  simpa using this (by simp)

theorem array_store_spec {a u : List Nat} {i v : Nat} (h : array_store a i v = some u) :
    u.length = a.length ∧ u[i]? = some v ∧ ∀ j, j ≠ i → u[j]? = a[j]? := by
  unfold array_store at h
  split at h
  · rename_i hi
    simp only [Option.some.injEq] at h
    subst h
    refine ⟨by simp, by simp [hi], fun j hj => ?_⟩
    rw [List.getElem?_set_ne (Ne.symm hj)]
  · simp at h

theorem array_store_ok (a : List Nat) (i v : Nat) (h : i < a.length) :
    ∃ u, array_store a i v = some u := ⟨a.set i v, by simp [array_store, h]⟩

theorem cmp_ge_iff {cmp : Option K → Option K → Int} (hcmp : IsOrderCmp cmp) (a b : K) :
    cmp (some a) (some b) ≥ 0 ↔ ¬ a < b := by
  rw [← (hcmp a b).1]; omega

/-- What the descent returns when started at `p` on level `k` with the entries
`post` ahead. -/
theorem descent_spec {cmp : Option K → Option K → Int} (hcmp : IsOrderCmp cmp)
    (mem : Memory K V) (T : Nat) (key : K) :
    ∀ (fuel : Nat) (post : List (Entry K V)) (p k : Nat) (update : List Nat),
      ChainOk mem T post [] → (∀ e ∈ post, e.id ≠ T) →
      post.Pairwise (fun a b => a.key ≤ b.key) →
      (∀ j, j ≤ k → load_forward mem p j = some (nextAt T j post)) →
      k < update.length → post.length + k < fuel →
      ∃ u, descent mem T cmp key fuel p k update
            = some (prevAt 0 p (lo key post), nextAt T 0 (hi key post), u) ∧
        u.length = update.length ∧
        (∀ j, j ≤ k → u[j]? = some (prevAt j p (lo key post))) ∧
        (∀ j, k < j → u[j]? = update[j]?) := by
  intro fuel
  induction fuel with
  | zero => intro post p k update _ _ _ _ _ hf; omega
  | succ fuel ih =>
    intro post p k update hch hT hs hsee hk hf
    -- the common "go down one level" step
    have down : (∀ x ∈ lo key post, x.level < k) →
        ∃ u, (match array_store update k p with
              | none => none
              | some u => if k = 0 then some (p, nextAt T k post, u)
                          else descent mem T cmp key fuel p (k - 1) u)
            = some (prevAt 0 p (lo key post), nextAt T 0 (hi key post), u) ∧
        u.length = update.length ∧
        (∀ j, j ≤ k → u[j]? = some (prevAt j p (lo key post))) ∧
        (∀ j, k < j → u[j]? = update[j]?) := by
      intro hlo
      obtain ⟨u0, hu0⟩ := array_store_ok update k p hk
      obtain ⟨hl0, hk0, hne0⟩ := array_store_spec hu0
      rw [hu0]
      by_cases hk0' : k = 0
      · subst hk0'
        have hnil : lo key post = [] := by
          cases h : lo key post with
          | nil => rfl
          | cons x r => have := hlo x (by simp [h]); omega
        have hhi : hi key post = post := by
          have := lo_append_hi key post
          rw [hnil] at this; simpa using this
        refine ⟨u0, by simp [hnil, hhi, prevAt], hl0, ?_, fun j hj => hne0 j (by omega)⟩
        intro j hj
        have : j = 0 := by omega
        subst this
        simp [hnil, prevAt, hk0]
      · simp only [hk0', if_false]
        obtain ⟨u, h1, h2, h3, h4⟩ := ih post p (k - 1) u0 hch hT hs
          (fun j hj => hsee j (by omega)) (by omega) (by omega)
        refine ⟨u, h1, by omega, ?_, ?_⟩
        · intro j hj
          by_cases hjk : j = k
          · subst hjk
            rw [h4 j (by omega), hk0, prevAt_of_lt _ _ _ hlo]
          · exact h3 j (by omega)
        · intro j hj
          rw [h4 j (by omega), hne0 j (by omega)]
    rw [descent]
    simp only [hsee k (le_refl k)]
    rcases nextAt_cases T k post with ⟨h1, h2⟩ | ⟨a, e, b, h1, h2, h3, h4⟩
    · simp only [h1, if_true]
      have := down (fun x hx => h2 x (List.takeWhile_subset _ hx))
      rw [h1] at this
      exact this
    · have heT : e.id ≠ T := hT e (by simp [h1])
      have hnode : NodeOk mem T e (b ++ []) := by
        rw [h1] at hch
        exact ((ChainOk_append mem T a (e :: b) []).1 hch).2.1
      rw [List.append_nil] at hnode
      simp only [h4, heT, if_false, hnode.2.1]
      by_cases hlt : e.key < key
      · have hge : ¬ cmp (some e.key) (some key) ≥ 0 := by
          rw [cmp_ge_iff hcmp]; simpa using hlt
        simp only [hge, if_false]
        have hch' : ChainOk mem T b [] := by
          rw [h1] at hch
          exact ((ChainOk_append mem T a (e :: b) []).1 hch).2.2
        have hs' : b.Pairwise (fun a b => a.key ≤ b.key) := by
          rw [h1] at hs
          exact (List.pairwise_cons.1 (List.pairwise_append.1 hs).2.1).2
        obtain ⟨u, hu1, hu2, hu3, hu4⟩ := ih b e.id k update hch'
          (fun x hx => hT x (by simp [h1, hx])) hs'
          (fun j hj => hnode.2.2.2 j (by omega)) hk (by rw [h1] at hf; simp at hf; omega)
        obtain ⟨hlo, hhi⟩ := lo_hi_append_cons_lt key a b e (h1 ▸ hs) hlt
        rw [h1, hlo, hhi]
        refine ⟨u, ?_, hu2, ?_, hu4⟩
        · rw [hu1, prevAt_append_cons 0 p a _ e (Nat.zero_le _)]
        · intro j hj
          rw [hu3 j hj, prevAt_append_cons j p a _ e (by omega)]
      · have hge : cmp (some e.key) (some key) ≥ 0 := by
          rw [cmp_ge_iff hcmp]; exact hlt
        simp only [hge, if_true]
        have := down (fun x hx => h2 x (lo_sub_of_not_lt key a b e hlt x (h1 ▸ hx)))
        rw [h4] at this
        exact this

end DescentLemmas

section LookupDescent
variable {K V : Type}

theorem lookup_descent_eq (mem : Memory K V) (T : Nat) (cmp : Option K → Option K → Int)
    (key : K) :
    ∀ (fuel p k : Nat) (update : List Nat), k < update.length →
      lookup_descent mem T cmp key fuel p k
        = (descent mem T cmp key fuel p k update).map (fun r => (r.1, r.2.1)) := by
  intro fuel
  induction fuel with
  | zero => intro p k update _; rfl
  | succ fuel ih =>
    intro p k update hk
    rw [lookup_descent, descent]
    cases hq : load_forward mem p k with
    | none => rfl
    | some q =>
      obtain ⟨u0, hu0⟩ := array_store_ok update k p hk
      have hl0 := (array_store_spec hu0).1
      have hdown : (if k = 0 then some (p, q) else lookup_descent mem T cmp key fuel p (k - 1))
          = Option.map (fun r : Nat × Nat × List Nat => (r.1, r.2.1))
              (match array_store update k p with
               | none => none
               | some u => if k = 0 then some (p, q, u)
                           else descent mem T cmp key fuel p (k - 1) u) := by
        rw [hu0]
        by_cases hk0 : k = 0
        · simp [hk0]
        · simp only [hk0, if_false]
          exact ih p (k - 1) u0 (by omega)
      simp only []
      by_cases hqT : q = T
      · simp only [hqT, if_true]
        rw [hqT] at hdown
        exact hdown
      · simp only [hqT, if_false]
        cases hkey : load_key mem q with
        | none => rfl
        | some qk =>
          simp only []
          by_cases hc : cmp qk (some key) ≥ 0
          · simp only [hc, if_true]
            exact hdown
          · simp only [hc, if_false]
            exact ih q k update hk

end LookupDescent

section LookupLemmas
variable {K V : Type} [LinearOrder K]

theorem key_found_at_nil (cmp : Option K → Option K → Int) (mem : Memory K V) (T : Nat)
    (key : K) : key_found_at mem T cmp key (nextAt T 0 ([] : List (Entry K V))) = some false := by
  simp [key_found_at, nextAt]

theorem key_found_at_cons {cmp : Option K → Option K → Int} (hcmp : IsOrderCmp cmp)
    {mem : Memory K V} {T : Nat} {es tl : List (Entry K V)} (key : K)
    (hch : ChainOk mem T es tl) (hT : ∀ e ∈ es, e.id ≠ T) (e : Entry K V)
    (r : List (Entry K V)) (he : e ∈ es) :
    key_found_at mem T cmp key (nextAt T 0 (e :: r)) = some (decide (e.key = key)) := by
  have hk := (ChainOk_mem hch he).2.1
  simp only [key_found_at, nextAt, Nat.zero_le, if_true, hT e he, if_false, hk, (hcmp _ _).2]

end LookupLemmas

section LookupSpec
variable {K V : Type} [LinearOrder K]

theorem ListInv.ne_tail {SL : SkiplistsStructure K V} {es : List (Entry K V)}
    (h : ListInv SL es) : ∀ e ∈ es, e.id ≠ SL.L.Tail := by
  intro e he
  have := h.ids e he
  rw [h.tail]; omega

theorem ListInv.ne_head {SL : SkiplistsStructure K V} {es : List (Entry K V)}
    (h : ListInv SL es) : ∀ e ∈ es, e.id ≠ SL.L.Head := by
  intro e he
  have := h.ids e he
  rw [h.head]; omega

/-- The descent from the head, in a state that satisfies the invariant. -/
theorem descent_head {SL : SkiplistsStructure K V} {es : List (Entry K V)}
    (h : ListInv SL es) (hcmp : IsOrderCmp SL.compare_function) (key : K)
    (update : List Nat) (hu : update.length = 18) :
    ∃ u, descent SL.mem SL.L.Tail SL.compare_function key (descent_fuel SL.mem SL.L.level)
          SL.L.Head SL.L.level update
        = some (prevAt 0 SL.L.Head (lo key es), nextAt SL.L.Tail 0 (hi key es), u) ∧
      u.length = 18 ∧
      (∀ j, j ≤ SL.L.level → u[j]? = some (prevAt j SL.L.Head (lo key es))) ∧
      (∀ j, SL.L.level < j → u[j]? = update[j]?) := by
  have hl := h.level_le
  obtain ⟨u, h1, h2, h3, h4⟩ := descent_spec hcmp SL.mem SL.L.Tail key
    (descent_fuel SL.mem SL.L.level) es SL.L.Head SL.L.level update h.chain h.ne_tail h.sorted
    (fun j hj => h.head_fwd j (by omega)) (by omega)
    (by have := h.mem_len; unfold descent_fuel; omega)
  exact ⟨u, h1, by omega, h3, h4⟩

theorem hi_sub (key : K) (es : List (Entry K V)) : ∀ e ∈ hi key es, e ∈ es :=
  fun _ he => (List.dropWhile_sublist _).subset he

theorem lo_sub (key : K) (es : List (Entry K V)) : ∀ e ∈ lo key es, e ∈ es :=
  fun _ he => List.takeWhile_subset _ he

theorem key_found_hi {SL : SkiplistsStructure K V} {es : List (Entry K V)}
    (h : ListInv SL es) (hcmp : IsOrderCmp SL.compare_function) (key : K) :
    key_found_at SL.mem SL.L.Tail SL.compare_function key (nextAt SL.L.Tail 0 (hi key es))
      = some (hit key es).isSome := by
  unfold hit
  cases hh : hi key es with
  | nil => exact key_found_at_nil _ _ _ _
  | cons e r =>
    rw [key_found_at_cons hcmp key h.chain h.ne_tail e r (hi_sub key es e (by simp [hh]))]
    by_cases he : e.key = key <;> simp [he]

theorem hit_id {key : K} {es : List (Entry K V)} {e : Entry K V} (h : hit key es = some e) :
    nextAt (V := V) 2 0 (hi key es) = e.id ∧ e ∈ es ∧ e.key = key ∧
      ∃ r, hi key es = e :: r := by
  unfold hit at h
  cases hh : hi key es with
  | nil => simp [hh] at h
  | cons x r =>
    simp only [hh] at h
    split at h
    · simp only [Option.some.injEq] at h
      subst h
      rename_i hk
      exact ⟨by simp [nextAt], hi_sub key es x (by simp [hh]), hk, r, rfl⟩
    · simp at h

/-- What `skiplists_lookup` returns in a state that satisfies the invariant. -/
theorem lookup_spec {SL : SkiplistsStructure K V} {es : List (Entry K V)}
    (h : ListInv SL es) (hcmp : IsOrderCmp SL.compare_function) (key : K) :
    skiplists_lookup SL key = some ((hit key es).bind (fun e => e.value)) := by
  obtain ⟨u, h1, -⟩ := descent_head h hcmp key (List.replicate 18 0) (by simp)
  unfold skiplists_lookup
  rw [lookup_descent_eq SL.mem SL.L.Tail SL.compare_function key _ _ _ (List.replicate 18 0)
    (by have := h.level_le; simp; omega), h1]
  simp only [Option.map_some', key_found_hi h hcmp key]
  cases hh : hit key es with
  | none => simp
  | some e =>
    obtain ⟨h2, h3, -⟩ := hit_id hh
    rw [← h.tail] at h2
    simp [h2, (ChainOk_mem h.chain h3).2.2]

end LookupSpec

section LoopLemmas
variable {K V : Type}

theorem fill_down_spec (p : Nat) : ∀ (lv : Nat) (update : List Nat), lv < update.length →
    ∃ u, fill_down p lv update = some u ∧ u.length = update.length ∧
      ∀ j, u[j]? = if j ≤ lv then some p else update[j]? := by
  intro lv
  induction lv with
  | zero =>
    intro update h
    obtain ⟨u, hu⟩ := array_store_ok update 0 p h
    obtain ⟨h1, h2, h3⟩ := array_store_spec hu
    refine ⟨u, by simp [fill_down, hu], h1, fun j => ?_⟩
    by_cases hj : j = 0
    · subst hj; simp [h2]
    · have : ¬ j ≤ 0 := by omega
      simp [this, h3 j hj]
  | succ lv ih =>
    intro update h
    obtain ⟨u0, hu0⟩ := array_store_ok update (lv + 1) p h
    obtain ⟨h1, h2, h3⟩ := array_store_spec hu0
    obtain ⟨u, hu, hl, hs⟩ := ih u0 (by omega)
    refine ⟨u, by simp [fill_down, hu0, hu], by omega, fun j => ?_⟩
    rw [hs j]
    by_cases hj : j ≤ lv
    · have : j ≤ lv + 1 := by omega
      simp [hj, this]
    · by_cases hj2 : j = lv + 1
      · subst hj2; simp [h2]
      · have : ¬ j ≤ lv + 1 := by omega
        simp [hj, this, h3 j hj2]

theorem raise_update_spec (Head level : Nat) : ∀ (k : Nat) (update : List Nat),
    k < update.length →
    ∃ u, raise_update Head level k update = some u ∧ u.length = update.length ∧
      ∀ j, u[j]? = if level < j ∧ j ≤ k then some Head else update[j]? := by
  intro k
  induction k with
  | zero =>
    intro update h
    refine ⟨update, rfl, rfl, fun j => ?_⟩
    have : ¬ (level < j ∧ j ≤ 0) := by omega
    rw [if_neg this]
  | succ k ih =>
    intro update h
    by_cases hk : k + 1 > level
    · obtain ⟨u0, hu0⟩ := array_store_ok update (k + 1) Head h
      obtain ⟨h1, h2, h3⟩ := array_store_spec hu0
      obtain ⟨u, hu, hl, hs⟩ := ih u0 (by omega)
      refine ⟨u, by simp [raise_update, hk, hu0, hu], by omega, fun j => ?_⟩
      rw [hs j]
      by_cases hj : level < j ∧ j ≤ k
      · have : level < j ∧ j ≤ k + 1 := by omega
        simp [hj, this]
      · by_cases hj2 : j = k + 1
        · subst hj2
          have : level < k + 1 ∧ k + 1 ≤ k + 1 := by omega
          simp [hj, this, h2]
        · have : ¬ (level < j ∧ j ≤ k + 1) := by omega
          simp [hj, this, h3 j hj2]
    · refine ⟨update, by simp [raise_update, hk], rfl, fun j => ?_⟩
      have : ¬ (level < j ∧ j ≤ k + 1) := by omega
      simp [this]

/-- The memory after the splice loop, slot by slot. -/
theorem splice_spec (update : List Nat) (q : Nat) : ∀ (k : Nat) (mem : Memory K V),
    (∀ j, j ≤ k → ∃ p, update[j]? = some p ∧ p ≠ q ∧ (load_forward mem p j).isSome) →
    (∀ j, j ≤ k → (load_forward mem q j).isSome) →
    ∃ mem1, splice update q k mem = some mem1 ∧ SameInfo mem mem1 ∧
      ∀ x j, load_forward mem1 x j =
        if j ≤ k then
          (if x = q then load_forward mem (update.getD j 0) j
           else if x = update.getD j 0 then some q else load_forward mem x j)
        else load_forward mem x j := by
  intro k
  induction k with
  | zero =>
    intro mem hup hq
    obtain ⟨p, hp1, hp2, hp3⟩ := hup 0 (le_refl 0)
    obtain ⟨y, hy⟩ := Option.isSome_iff_exists.1 hp3
    obtain ⟨m1, hm1⟩ := @store_forward_ok _ _ mem _ _ y (hq 0 (le_refl 0))
    obtain ⟨hi1, hf1⟩ := store_forward_spec hm1
    have hp3' : (load_forward m1 p 0).isSome := by
      rw [hf1]; simp [hp2, hp3]
    obtain ⟨m2, hm2⟩ := @store_forward_ok _ _ m1 _ _ q hp3'
    obtain ⟨hi2, hf2⟩ := store_forward_spec hm2
    refine ⟨m2, by simp [splice, splice_step, hp1, hy, hm1, hm2], hi1.trans hi2, fun x j => ?_⟩
    have hg : update.getD 0 0 = p := by simp [List.getD_eq_getElem?_getD, hp1]
    rw [hf2, hf1]
    by_cases hj : j = 0
    · subst hj
      simp only [le_refl, if_true, hg, and_true]
      by_cases hxq : x = q
      · subst hxq
        simp [Ne.symm hp2, hy]
      · by_cases hxp : x = p
        · simp [hxp, hp2]
        · simp [hxq, hxp]
    · have : ¬ j ≤ 0 := by omega
      simp [hj, this]
  | succ k ih =>
    intro mem hup hq
    obtain ⟨p, hp1, hp2, hp3⟩ := hup (k + 1) (le_refl _)
    obtain ⟨y, hy⟩ := Option.isSome_iff_exists.1 hp3
    obtain ⟨m1, hm1⟩ := @store_forward_ok _ _ mem _ _ y (hq (k + 1) (le_refl _))
    obtain ⟨hi1, hf1⟩ := store_forward_spec hm1
    have hp3' : (load_forward m1 p (k + 1)).isSome := by
      rw [hf1]; simp [hp2, hp3]
    obtain ⟨m2, hm2⟩ := @store_forward_ok _ _ m1 _ _ q hp3'
    obtain ⟨hi2, hf2⟩ := store_forward_spec hm2
    have hlow : ∀ x j, j ≤ k → load_forward m2 x j = load_forward mem x j := by
      intro x j hj
      have : j ≠ k + 1 := by omega
      rw [hf2, hf1]; simp [this]
    obtain ⟨m3, hm3, hi3, hf3⟩ := ih m2
      (fun j hj => by
        obtain ⟨p', h1, h2, h3⟩ := hup j (by omega)
        exact ⟨p', h1, h2, by rw [hlow _ _ hj]; exact h3⟩)
      (fun j hj => by rw [hlow _ _ hj]; exact hq j (by omega))
    refine ⟨m3, by simp [splice, splice_step, hp1, hy, hm1, hm2, hm3],
      (hi1.trans hi2).trans hi3, fun x j => ?_⟩
    have hg : update.getD (k + 1) 0 = p := by simp [List.getD_eq_getElem?_getD, hp1]
    rw [hf3]
    by_cases hj : j ≤ k
    · have hj' : j ≤ k + 1 := by omega
      simp only [hj, hj', if_true, hlow _ _ hj]
    · simp only [hj, if_false]
      by_cases hj2 : j = k + 1
      · subst hj2
        simp only [le_refl, if_true, hg]
        rw [hf2, hf1]
        by_cases hxq : x = q
        · subst hxq
          simp [Ne.symm hp2, hy]
        · by_cases hxp : x = p
          · simp [hxp, hp2]
          · simp [hxq, hxp]
      · have : ¬ j ≤ k + 1 := by omega
        simp only [this, if_false]
        rw [hf2, hf1]; simp [hj2]

end LoopLemmas

section LoopLemmas2
variable {K V : Type}

/-- The memory after the unlink loop of `skiplists_remove`, slot by slot:
the loop started at round `k` rewrites the slots `k..lv`. -/
theorem remove_unlink_spec (update : List Nat) (q m lv : Nat) (hlv : lv ≤ m) :
    ∀ (n k : Nat) (mem : Memory K V), n = m + 1 - k → k ≤ lv + 1 →
    (∀ j, k ≤ j → j ≤ lv → ∃ p, update[j]? = some p ∧ p ≠ q ∧
        load_forward mem p j = some q ∧ (load_forward mem q j).isSome) →
    (lv < m → ∃ p y, update[lv + 1]? = some p ∧ load_forward mem p (lv + 1) = some y ∧ y ≠ q) →
    ∃ mem1, remove_unlink update q m n k mem = some mem1 ∧ SameInfo mem mem1 ∧
      ∀ x j, load_forward mem1 x j =
        if k ≤ j ∧ j ≤ lv ∧ x = update.getD j 0 then load_forward mem q j
        else load_forward mem x j := by
  intro n
  induction n with
  | zero =>
    intro k mem hn hk _ _
    refine ⟨mem, rfl, SameInfo.refl mem, fun x j => ?_⟩
    have : ¬ (k ≤ j ∧ j ≤ lv ∧ x = update.getD j 0) := by omega
    rw [if_neg this]
  | succ n ih =>
    intro k mem hn hk hup hstop
    have hkm : k ≤ m := by omega
    have hn1 : n = m + 1 - (k + 1) := by clear hup hstop ih; omega
    have hk1 : k ≤ lv → k + 1 ≤ lv + 1 := by omega
    rw [remove_unlink]
    simp only [hkm, if_true]
    by_cases hkl : k ≤ lv
    · obtain ⟨p, hp1, hp2, hp3, hp4⟩ := hup k (le_refl k) hkl
      obtain ⟨y, hy⟩ := Option.isSome_iff_exists.1 hp4
      have hp3' : (load_forward mem p k).isSome := by simp [hp3]
      obtain ⟨m1, hm1⟩ := @store_forward_ok _ _ mem _ _ y hp3'
      obtain ⟨hi1, hf1⟩ := store_forward_spec hm1
      simp only [hp1, hp3, if_true, hy, hm1]
      have hother : ∀ x j, j ≠ k → load_forward m1 x j = load_forward mem x j := by
        intro x j hj
        rw [hf1]; simp [hj]
      have hqsame : ∀ j, load_forward m1 q j = load_forward mem q j := by
        intro j
        rw [hf1]; simp [Ne.symm hp2]
      obtain ⟨m2, hm2, hi2, hf2⟩ := ih (k + 1) m1 hn1 (hk1 hkl)
        (fun j hkj hj => by
          have hjk : j ≠ k := by omega
          obtain ⟨p', h1, h2, h3, h4⟩ := hup j (by omega) hj
          exact ⟨p', h1, h2, by rw [hother _ _ hjk]; exact h3, by rw [hqsame]; exact h4⟩)
        (fun h => by
          obtain ⟨p', y', h1, h2, h3⟩ := hstop h
          exact ⟨p', y', h1, by rw [hother _ _ (by omega)]; exact h2, h3⟩)
      refine ⟨m2, hm2, hi1.trans hi2, fun x j => ?_⟩
      rw [hf2, hqsame]
      have hg : update.getD k 0 = p := by simp [List.getD_eq_getElem?_getD, hp1]
      by_cases hc : k + 1 ≤ j ∧ j ≤ lv ∧ x = update.getD j 0
      · have hc' : k ≤ j ∧ j ≤ lv ∧ x = update.getD j 0 := ⟨by omega, hc.2.1, hc.2.2⟩
        rw [if_pos hc, if_pos hc']
      · rw [if_neg hc, hf1]
        by_cases hjk : j = k
        · subst hjk
          by_cases hx : x = p
          · subst hx
            have : j ≤ j ∧ j ≤ lv ∧ x = update.getD j 0 := ⟨le_refl _, hkl, hg.symm⟩
            rw [if_pos this]; simp [hy]
          · have : ¬ (j ≤ j ∧ j ≤ lv ∧ x = update.getD j 0) := by
              rw [hg]; tauto
            rw [if_neg this]; simp [hx]
        · have : ¬ (k ≤ j ∧ j ≤ lv ∧ x = update.getD j 0) := by
            intro h; apply hc; exact ⟨by omega, h.2.1, h.2.2⟩
          rw [if_neg this]; simp [hjk]
    · have hkeq : k = lv + 1 := by omega
      obtain ⟨p, y, h1, h2, h3⟩ := hstop (by omega)
      rw [← hkeq] at h1 h2
      simp only [h1, h2, h3, if_false]
      refine ⟨mem, rfl, SameInfo.refl mem, fun x j => ?_⟩
      have : ¬ (k ≤ j ∧ j ≤ lv ∧ x = update.getD j 0) := by omega
      rw [if_neg this]

theorem shrink_level_spec (mem : Memory K V) (Head Tail : Nat) : ∀ (m : Nat),
    (∀ j, j ≤ m → (load_forward mem Head j).isSome) →
    ∃ m1, shrink_level mem Head Tail m = some m1 ∧ m1 ≤ m ∧
      (∀ j, m1 < j → j ≤ m → load_forward mem Head j = some Tail) := by
  intro m
  induction m with
  | zero =>
    intro h
    obtain ⟨y, hy⟩ := Option.isSome_iff_exists.1 (h 0 (le_refl 0))
    exact ⟨0, by simp [shrink_level, hy], le_refl 0, fun j h1 h2 => by omega⟩
  | succ m ih =>
    intro h
    obtain ⟨y, hy⟩ := Option.isSome_iff_exists.1 (h (m + 1) (le_refl _))
    by_cases hyT : y = Tail
    · obtain ⟨m1, h1, h2, h3⟩ := ih (fun j hj => h j (by omega))
      refine ⟨m1, by simp [shrink_level, hy, hyT, h1], by omega, fun j hj1 hj2 => ?_⟩
      by_cases hj : j = m + 1
      · rw [hj, hy, hyT]
      · exact h3 j hj1 (by omega)
    · exact ⟨m + 1, by simp [shrink_level, hy, hyT], le_refl _, fun j h1 h2 => by omega⟩

end LoopLemmas2

section ChainLemmas
variable {K V : Type}

theorem ChainOk_congr {mem mem1 : Memory K V} {T : Nat} {es tl : List (Entry K V)}
    (h : ChainOk mem T es tl)
    (hsame : ∀ e ∈ es, load_level mem1 e.id = load_level mem e.id ∧
      load_key mem1 e.id = load_key mem e.id ∧ load_value mem1 e.id = load_value mem e.id ∧
      ∀ j, j ≤ e.level → load_forward mem1 e.id j = load_forward mem e.id j) :
    ChainOk mem1 T es tl := by
  induction es with
  | nil => trivial
  | cons e es ih =>
    obtain ⟨h1, h2, h3, h4⟩ := hsame e (by simp)
    refine ⟨⟨h1 ▸ h.1.1, h2 ▸ h.1.2.1, h3 ▸ h.1.2.2.1, fun j hj => ?_⟩,
      ih h.2 (fun x hx => hsame x (by simp [hx]))⟩
    rw [h4 j hj]; exact h.1.2.2.2 j hj

/-- A forward slot after a node has been linked in behind the entries `r`. -/
theorem slot_insert {mem mem1 : Memory K V} {T x j : Nat} (r tl : List (Entry K V))
    (e : Entry K V)
    (hold : load_forward mem x j = some (nextAt T j (r ++ tl)))
    (hx : ∀ y ∈ r, y.id ≠ x)
    (hnew : load_forward mem1 x j =
      if j ≤ e.level ∧ x = prevAt j x r then some e.id else load_forward mem x j) :
    load_forward mem1 x j = some (nextAt T j (r ++ e :: tl)) := by
  rw [hnew]
  by_cases hr : ∃ y ∈ r, j ≤ y.level
  · obtain ⟨y, hy, hy2⟩ := prevAt_mem j x r hr
    have : ¬ (j ≤ e.level ∧ x = prevAt j x r) := by
      rw [hy2]; intro h; exact hx y hy h.2.symm
    rw [if_neg this, hold]
    exact congrArg some (nextAt_append_of_mem T j r tl (e :: tl) hr)
  · have hlt : ∀ y ∈ r, y.level < j := by
      intro y hy
      by_contra hc
      exact hr ⟨y, hy, by omega⟩
    rw [prevAt_of_lt j x r hlt, nextAt_append_of_lt T j r _ hlt]
    by_cases hj : j ≤ e.level
    · simp [hj, nextAt]
    · simp only [hj, false_and, if_false, nextAt]
      rw [hold, nextAt_append_of_lt T j r _ hlt]

/-- A forward slot after the entry `e` behind the entries `r` has been unlinked. -/
theorem slot_remove {mem mem1 : Memory K V} {T x j : Nat} (r tl : List (Entry K V))
    (e : Entry K V)
    (hold : load_forward mem x j = some (nextAt T j (r ++ e :: tl)))
    (hx : ∀ y ∈ r, y.id ≠ x)
    (hnew : load_forward mem1 x j =
      if j ≤ e.level ∧ x = prevAt j x r then some (nextAt T j tl) else load_forward mem x j) :
    load_forward mem1 x j = some (nextAt T j (r ++ tl)) := by
  rw [hnew]
  by_cases hr : ∃ y ∈ r, j ≤ y.level
  · obtain ⟨y, hy, hy2⟩ := prevAt_mem j x r hr
    have : ¬ (j ≤ e.level ∧ x = prevAt j x r) := by
      rw [hy2]; intro h; exact hx y hy h.2.symm
    rw [if_neg this, hold]
    exact congrArg some (nextAt_append_of_mem T j r (e :: tl) tl hr)
  · have hlt : ∀ y ∈ r, y.level < j := by
      intro y hy
      by_contra hc
      exact hr ⟨y, hy, by omega⟩
    rw [prevAt_of_lt j x r hlt, nextAt_append_of_lt T j r _ hlt]
    by_cases hj : j ≤ e.level
    · simp [hj]
    · simp only [hj, false_and, if_false]
      rw [hold, nextAt_append_of_lt T j r _ hlt]
      simp [nextAt, hj]

/-- The entries before the insertion point stay well linked when the new
entry `e` is linked in; `P j` is the node the walk on level `j` starts from. -/
theorem chain_lo_insert {mem mem1 : Memory K V} {T : Nat} (tl : List (Entry K V))
    (e : Entry K V) :
    ∀ (l : List (Entry K V)) (P : Nat → Nat),
      ChainOk mem T l tl → (l.map (fun x => x.id)).Nodup →
      (∀ x ∈ l, ∀ j, P j ≠ x.id) →
      (∀ x ∈ l, load_level mem1 x.id = load_level mem x.id ∧
        load_key mem1 x.id = load_key mem x.id ∧ load_value mem1 x.id = load_value mem x.id) →
      (∀ x ∈ l, ∀ j, load_forward mem1 x.id j =
        if j ≤ e.level ∧ x.id = prevAt j (P j) l then some e.id
        else load_forward mem x.id j) →
      ChainOk mem1 T l (e :: tl) := by
  intro l
  induction l with
  | nil => intro P _ _ _ _ _; trivial
  | cons y r ih =>
    intro P hch hnd hP hinfo hfw
    have hnd' := List.nodup_cons.1 hnd
    have hy : ∀ z ∈ r, z.id ≠ y.id := by
      intro z hz heq
      exact hnd'.1 (List.mem_map.2 ⟨z, hz, heq⟩)
    obtain ⟨i1, i2, i3⟩ := hinfo y (by simp)
    refine ⟨⟨i1 ▸ hch.1.1, i2 ▸ hch.1.2.1, i3 ▸ hch.1.2.2.1, fun j hj => ?_⟩, ?_⟩
    · apply slot_insert r tl e (hch.1.2.2.2 j hj) hy
      rw [hfw y (by simp) j]
      simp only [prevAt, hj, if_true]
    · apply ih (fun j => if j ≤ y.level then y.id else P j) hch.2 hnd'.2
      · intro x hx j
        by_cases hj : j ≤ y.level
        · simp only [hj, if_true]; exact (hy x hx).symm
        · simp only [hj, if_false]; exact hP x (by simp [hx]) j
      · exact fun x hx => hinfo x (by simp [hx])
      · intro x hx j
        rw [hfw x (by simp [hx]) j]
        simp only [prevAt]

/-- The entries before a removed entry `e` stay well linked. -/
theorem chain_lo_remove {mem mem1 : Memory K V} {T : Nat} (tl : List (Entry K V))
    (e : Entry K V) :
    ∀ (l : List (Entry K V)) (P : Nat → Nat),
      ChainOk mem T l (e :: tl) → (l.map (fun x => x.id)).Nodup →
      (∀ x ∈ l, ∀ j, P j ≠ x.id) →
      (∀ x ∈ l, load_level mem1 x.id = load_level mem x.id ∧
        load_key mem1 x.id = load_key mem x.id ∧ load_value mem1 x.id = load_value mem x.id) →
      (∀ x ∈ l, ∀ j, load_forward mem1 x.id j =
        if j ≤ e.level ∧ x.id = prevAt j (P j) l then some (nextAt T j tl)
        else load_forward mem x.id j) →
      ChainOk mem1 T l tl := by
  intro l
  induction l with
  | nil => intro P _ _ _ _ _; trivial
  | cons y r ih =>
    intro P hch hnd hP hinfo hfw
    have hnd' := List.nodup_cons.1 hnd
    have hy : ∀ z ∈ r, z.id ≠ y.id := by
      intro z hz heq
      exact hnd'.1 (List.mem_map.2 ⟨z, hz, heq⟩)
    obtain ⟨i1, i2, i3⟩ := hinfo y (by simp)
    refine ⟨⟨i1 ▸ hch.1.1, i2 ▸ hch.1.2.1, i3 ▸ hch.1.2.2.1, fun j hj => ?_⟩, ?_⟩
    · apply slot_remove r tl e (hch.1.2.2.2 j hj) hy
      rw [hfw y (by simp) j]
      simp only [prevAt, hj, if_true]
    · apply ih (fun j => if j ≤ y.level then y.id else P j) hch.2 hnd'.2
      · intro x hx j
        by_cases hj : j ≤ y.level
        · simp only [hj, if_true]; exact (hy x hx).symm
        · simp only [hj, if_false]; exact hP x (by simp [hx]) j
      · exact fun x hx => hinfo x (by simp [hx])
      · intro x hx j
        rw [hfw x (by simp [hx]) j]
        simp only [prevAt]

/-- The forward slot of the last node of level `j` before the entries `tl`. -/
theorem prevAt_forward {mem : Memory K V} {T j : Nat} (tl : List (Entry K V)) :
    ∀ (l : List (Entry K V)) (p : Nat),
      load_forward mem p j = some (nextAt T j (l ++ tl)) → ChainOk mem T l tl →
      load_forward mem (prevAt j p l) j = some (nextAt T j tl) := by
  intro l
  induction l with
  | nil => intro p h _; exact h
  | cons y r ih =>
    intro p h hch
    by_cases hj : j ≤ y.level
    · simp only [prevAt, hj, if_true]
      exact ih y.id (hch.1.2.2.2 j hj) hch.2
    · simp only [prevAt, hj, if_false]
      apply ih p _ hch.2
      rw [h]; simp [nextAt, hj]

end ChainLemmas

section NewNode
variable {K V : Type}

theorem load_append_left (mem l : Memory K V) (x : Nat) (hx : x < mem.length) :
    load_level (mem ++ l) x = load_level mem x ∧ load_key (mem ++ l) x = load_key mem x ∧
    load_value (mem ++ l) x = load_value mem x ∧
    ∀ j, load_forward (mem ++ l) x j = load_forward mem x j := by
  simp [load_level, load_key, load_value, load_forward, deref_append_left mem l x hx]

theorem store_key_spec {mem mem1 : Memory K V} {p : Nat} {v : Option K}
    (h : store_key mem p v = some mem1) :
    mem1.length = mem.length ∧ (∀ x j, load_forward mem1 x j = load_forward mem x j) ∧
    (∀ x, load_value mem1 x = load_value mem x) ∧ (∀ x, load_level mem1 x = load_level mem x) ∧
    (∀ x, load_key mem1 x = if x = p then some v else load_key mem x) := by
  unfold store_key at h
  cases hn : deref mem p with
  | none => simp [hn] at h
  | some n =>
    simp only [hn, Option.some.injEq] at h
    subst h
    have hp := deref_some_lt hn
    refine ⟨by simp, fun x j => ?_, fun x => ?_, fun x => ?_, fun x => ?_⟩ <;>
    · simp only [load_forward, load_key, load_value, load_level, deref_set, hp, if_true]
      by_cases hx : x = p
      · subst hx; simp [hn]
      · simp [hx]

/-- The memory once the new node of `skiplists_insert` is allocated and filled. -/
theorem new_node_spec (mem : Memory K V) (k : Nat) (key : K) (value : Option V) :
    ∃ m1 m2, store_key (skiplists_new_node_of_level mem k).2
        (skiplists_new_node_of_level mem k).1 (some key) = some m1 ∧
      store_value m1 (skiplists_new_node_of_level mem k).1 value = some m2 ∧
      m2.length = mem.length + 1 ∧
      (∀ x, x < mem.length → load_level m2 x = load_level mem x ∧
        load_key m2 x = load_key mem x ∧ load_value m2 x = load_value mem x ∧
        ∀ j, load_forward m2 x j = load_forward mem x j) ∧
      load_level m2 mem.length = some k ∧ load_key m2 mem.length = some (some key) ∧
      load_value m2 mem.length = some value ∧
      ∀ j, j ≤ k → (load_forward m2 mem.length j).isSome := by
  have hd : deref (skiplists_new_node_of_level mem k).2 mem.length
      = some { level := k, key := none, value := none, forward := List.replicate (k + 1) 0 } :=
    deref_append_new mem _
  have hv0 : (load_value (skiplists_new_node_of_level mem k).2 mem.length).isSome := by
    simp [load_value, hd]
  have hk0 : ∃ m1, store_key (skiplists_new_node_of_level mem k).2 mem.length (some key)
      = some m1 := by
    simp [store_key, hd]
  obtain ⟨m1, hm1⟩ := hk0
  obtain ⟨a1, a2, a3, a4, a5⟩ := store_key_spec hm1
  obtain ⟨m2, hm2⟩ := @store_value_ok _ _ m1 mem.length value (by rw [a3]; exact hv0)
  obtain ⟨b1, b2, b3, b4, b5⟩ := store_value_spec hm2
  have hlen : (skiplists_new_node_of_level mem k).2.length = mem.length + 1 := by
    simp [skiplists_new_node_of_level]
  refine ⟨m1, m2, hm1, hm2, by omega, fun x hx => ?_, ?_, ?_, ?_, fun j hj => ?_⟩
  · have hne : x ≠ mem.length := by omega
    obtain ⟨c1, c2, c3, c4⟩ := load_append_left mem
      [some { level := k, key := none, value := none, forward := List.replicate (k + 1) 0 }] x hx
    refine ⟨?_, ?_, ?_, fun j => ?_⟩
    · rw [b4, a4]; exact c1
    · rw [b3, a5, if_neg hne]; exact c2
    · rw [b5, if_neg hne, a3]; exact c3
    · rw [b2, a2]; exact c4 j
  · rw [b4, a4]; simp [load_level, hd]
  · rw [b3, a5]; simp
  · rw [b5]; simp
  · rw [b2, a2]
    simp only [load_forward, hd]
    rw [List.getElem?_eq_getElem (by simp; omega)]
    rfl

end NewNode

section LinkNew
variable {K V : Type} [LinearOrder K]

theorem ListInv.id_lt {SL : SkiplistsStructure K V} {es : List (Entry K V)}
    (h : ListInv SL es) : ∀ e ∈ es, e.id < SL.mem.length :=
  fun _ he => load_level_lt (ChainOk_mem h.chain he).1

theorem prevAt_lt_of (j p n : Nat) (l : List (Entry K V)) (hp : p < n)
    (hl : ∀ e ∈ l, e.id < n) : prevAt j p l < n := by
  rcases prevAt_eq_or_mem j p l with h | ⟨x, hx, h⟩
  · rw [h]; exact hp
  · rw [h]; exact hl x hx

/-- Linking a new node of level `k` between the entries `l` and `r`. -/
theorem link_new {SL : SkiplistsStructure K V} {es : List (Entry K V)} (h : ListInv SL es)
    (l r : List (Entry K V)) (hes : es = l ++ r) (key : K) (value : Option V) (k : Nat)
    (hk : k ≤ 17) (update : List Nat)
    (hup : ∀ j, j ≤ k → update[j]? = some (prevAt j SL.L.Head l))
    (hsorted : (l ++ (⟨SL.mem.length, k, key, value⟩ : Entry K V) :: r).Pairwise
      (fun a b => a.key ≤ b.key))
    (R1 : SkiplistsRandomStructure) (hR : R1.max_level = 17) (prng1 : List Nat) :
    ∃ m1 m2 m3, store_key (skiplists_new_node_of_level SL.mem k).2
        (skiplists_new_node_of_level SL.mem k).1 (some key) = some m1 ∧
      store_value m1 (skiplists_new_node_of_level SL.mem k).1 value = some m2 ∧
      splice update (skiplists_new_node_of_level SL.mem k).1 k m2 = some m3 ∧
      ListInv { SL with init_fingers := true, R := R1, prng := prng1,
                        L := { SL.L with level := if k > SL.L.level then k else SL.L.level },
                        mem := m3, size := SL.size + 1 }
        (l ++ (⟨SL.mem.length, k, key, value⟩ : Entry K V) :: r) := by
  obtain ⟨m1, m2, hm1, hm2, hlen2, hold2, hlv2, hkey2, hval2, hfw2⟩ :=
    new_node_spec SL.mem k key value
  have hq : (skiplists_new_node_of_level SL.mem k).1 = SL.mem.length := rfl
  have hidlt := h.id_lt
  have hHeadlt : SL.L.Head < SL.mem.length := by rw [h.head]; have := h.mem_len; omega
  have hHeadne : SL.L.Head ≠ SL.mem.length := by omega
  have hch := h.chain
  rw [hes, ChainOk_append, List.append_nil] at hch
  have hnd := h.nodup
  rw [hes, List.map_append, List.nodup_append] at hnd
  have hlsub : ∀ e ∈ l, e ∈ es := fun e he => by rw [hes]; simp [he]
  have hrsub : ∀ e ∈ r, e ∈ es := fun e he => by rw [hes]; simp [he]
  have hprevlt : ∀ j, prevAt j SL.L.Head l < SL.mem.length :=
    fun j => prevAt_lt_of j _ _ l hHeadlt (fun e he => hidlt e (hlsub e he))
  have hgetD : ∀ j, j ≤ k → update.getD j 0 = prevAt j SL.L.Head l := by
    intro j hj
    simp [List.getD_eq_getElem?_getD, hup j hj]
  have hprevfw : ∀ j, j ≤ 17 →
      load_forward SL.mem (prevAt j SL.L.Head l) j = some (nextAt SL.L.Tail j r) := by
    intro j hj
    apply prevAt_forward r l SL.L.Head _ hch.1
    rw [← hes]; exact h.head_fwd j hj
  obtain ⟨m3, hm3, hinfo3, hfw3⟩ := splice_spec update SL.mem.length k m2
    (fun j hj => ⟨prevAt j SL.L.Head l, hup j hj, by have := hprevlt j; omega, by
      rw [(hold2 _ (hprevlt j)).2.2.2 j, hprevfw j (by omega)]; rfl⟩)
    hfw2
  refine ⟨m1, m2, m3, hm1, hm2, hq ▸ hm3, ?_⟩
  -- loads of old nodes in the final memory
  have hinfo_old : ∀ x, x < SL.mem.length → load_level m3 x = load_level SL.mem x ∧
      load_key m3 x = load_key SL.mem x ∧ load_value m3 x = load_value SL.mem x := by
    intro x hx
    obtain ⟨a1, a2, a3, -⟩ := hold2 x hx
    obtain ⟨b1, b2, b3⟩ := hinfo3.2 x
    exact ⟨b3.trans a1, b1.trans a2, b2.trans a3⟩
  have hfw_old : ∀ x, x < SL.mem.length → ∀ j, load_forward m3 x j =
      if j ≤ k ∧ x = prevAt j SL.L.Head l then some SL.mem.length
      else load_forward SL.mem x j := by
    intro x hx j
    have hne : x ≠ SL.mem.length := by omega
    rw [hfw3]
    by_cases hj : j ≤ k
    · simp only [hj, if_true, hne, if_false, hgetD j hj, true_and]
      by_cases hxp : x = prevAt j SL.L.Head l
      · simp [hxp]
      · simp only [hxp, if_false]; exact (hold2 x hx).2.2.2 j
    · simp only [hj, if_false, false_and]; exact (hold2 x hx).2.2.2 j
  have hnotprev : ∀ e ∈ r, ∀ j, e.id ≠ prevAt j SL.L.Head l := by
    intro e he j
    rcases prevAt_eq_or_mem j SL.L.Head l with h1 | ⟨x, hx, h1⟩
    · rw [h1]; exact h.ne_head e (hrsub e he)
    · rw [h1]; intro heq
      exact hnd.2.2 (List.mem_map.2 ⟨x, hx, rfl⟩) (List.mem_map.2 ⟨e, he, heq⟩)
  constructor
  · exact h.head
  · exact h.tail
  · show (if k > SL.L.level then k else SL.L.level) ≤ 17
    have := h.level_le
    split <;> omega
  · exact hR
  · -- head_fwd
    intro j hj
    show load_forward m3 SL.L.Head j = some (nextAt SL.L.Tail j _)
    apply slot_insert l r _ (by rw [← hes]; exact h.head_fwd j hj)
      (fun y hy => h.ne_head y (hlsub y hy))
    exact hfw_old _ hHeadlt j
  · -- chain
    show ChainOk m3 SL.L.Tail _ []
    rw [ChainOk_append, List.append_nil]
    refine ⟨?_, ⟨⟨?_, ?_, ?_, ?_⟩, ?_⟩⟩
    · apply chain_lo_insert r _ l (fun _ => SL.L.Head) hch.1 hnd.1
        (fun x hx j => (h.ne_head x (hlsub x hx)).symm)
        (fun x hx => hinfo_old x.id (hidlt x (hlsub x hx)))
      intro x hx j
      exact hfw_old x.id (hidlt x (hlsub x hx)) j
    · rw [(hinfo3.2 _).2.2]; exact hlv2
    · rw [(hinfo3.2 _).1]; exact hkey2
    · rw [(hinfo3.2 _).2.1]; exact hval2
    · intro j hj
      have hj' : j ≤ k := hj
      rw [List.append_nil, hfw3]
      simp only [hj', if_true, hgetD j hj']
      rw [(hold2 _ (hprevlt j)).2.2.2 j]
      exact hprevfw j (by omega)
    · apply ChainOk_congr hch.2
      intro e he
      obtain ⟨a1, a2, a3⟩ := hinfo_old e.id (hidlt e (hrsub e he))
      refine ⟨a1, a2, a3, fun j _ => ?_⟩
      rw [hfw_old e.id (hidlt e (hrsub e he)) j]
      have := hnotprev e he j
      simp [this]
  · -- ids
    intro e he
    rcases List.mem_append.1 he with he | he
    · exact h.ids e (hlsub e he)
    · rcases List.mem_cons.1 he with rfl | he
      · show 3 ≤ SL.mem.length
        have := h.mem_len; omega
      · exact h.ids e (hrsub e he)
  · -- nodup
    rw [List.map_append, List.map_cons, List.nodup_append]
    refine ⟨hnd.1, List.nodup_cons.2 ⟨?_, hnd.2.1⟩, ?_⟩
    · intro hmem
      obtain ⟨x, hx, hxe⟩ := List.mem_map.1 hmem
      have := hidlt x (hrsub x hx)
      have hxe' : x.id = SL.mem.length := hxe
      omega
    · intro a ha hb
      rcases List.mem_cons.1 hb with hb | hb
      · obtain ⟨x, hx, hxe⟩ := List.mem_map.1 ha
        have := hidlt x (hlsub x hx)
        have hxe' : x.id = SL.mem.length := hxe.trans hb
        omega
      · exact hnd.2.2 ha hb
  · -- levels
    intro e he
    show e.level ≤ (if k > SL.L.level then k else SL.L.level)
    have hle : ∀ x ∈ es, x.level ≤ (if k > SL.L.level then k else SL.L.level) := by
      intro x hx
      have := h.levels x hx
      split <;> omega
    rcases List.mem_append.1 he with he | he
    · exact hle e (hlsub e he)
    · rcases List.mem_cons.1 he with rfl | he
      · show k ≤ _
        split <;> omega
      · exact hle e (hrsub e he)
  · exact hsorted
  · show SL.size + 1 = _
    rw [h.size, hes]
    simp
    omega
  · show _ ≤ m3.length
    have := h.mem_len
    rw [hes] at this
    rw [hinfo3.1, hlen2]
    simp at this ⊢
    omega
  · exact h.finger_len

end LinkNew

section FifoWalk
variable {K V : Type} [LinearOrder K]

theorem fifo_walk_spec {cmp : Option K → Option K → Int} (hcmp : IsOrderCmp cmp)
    (mem : Memory K V) (T : Nat) (key : K) :
    ∀ (fuel : Nat) (post : List (Entry K V)) (last : Nat) (update : List Nat),
      ChainOk mem T post [] → (∀ e ∈ post, e.id ≠ T) →
      (∀ e ∈ post, e.level < update.length) → post.length < fuel →
      ∃ u, fifo_walk mem T cmp key fuel (nextAt T 0 post) last update
            = some (prevAt 0 last (keyRun key post), u) ∧
        u.length = update.length ∧
        ∀ j, u[j]? = (update[j]?).map (fun p => prevAt j p (keyRun key post)) := by
  intro fuel
  induction fuel with
  | zero => intro post last update _ _ _ hf; omega
  | succ fuel ih =>
    intro post last update hch hT hlv hf
    cases post with
    | nil =>
      refine ⟨update, by simp [fifo_walk, nextAt, keyRun, prevAt], rfl, fun j => ?_⟩
      simp [keyRun, prevAt]
    | cons e r =>
      have heT : e.id ≠ T := hT e (by simp)
      have hnode := hch.1
      rw [List.append_nil] at hnode
      rw [fifo_walk]
      simp only [nextAt, Nat.zero_le, if_true, heT, if_false, hnode.2.1, (hcmp _ _).2]
      by_cases hk : e.key = key
      · simp only [hk, if_true, hnode.1]
        obtain ⟨u1, hu1, hl1, hs1⟩ := fill_down_spec e.id e.level update (hlv e (by simp))
        obtain ⟨u, hu, hl, hs⟩ := ih r e.id u1 hch.2 (fun x hx => hT x (by simp [hx]))
          (fun x hx => by rw [hl1]; exact hlv x (by simp [hx])) (by simp at hf; omega)
        have hrun : keyRun key (e :: r) = e :: keyRun key r := by
          simp [keyRun, List.takeWhile_cons, hk]
        rw [hu1]
        simp only [hnode.2.2.2 0 (Nat.zero_le _), hu, hrun, prevAt, Nat.zero_le, if_true]
        refine ⟨u, rfl, by omega, fun j => ?_⟩
        rw [hs j, hs1 j]
        by_cases hj : j ≤ e.level
        · have hj2 : j < update.length := by have := hlv e (by simp); omega
          simp [hj, List.getElem?_eq_getElem hj2]
        · simp [hj]
      · have hrun : keyRun key (e :: r) = [] := by
          simp [keyRun, List.takeWhile_cons, hk]
        simp only [hk, if_false, hrun, prevAt]
        exact ⟨update, rfl, rfl, fun j => by simp⟩

theorem random_level_loop_fields :
    ∀ (fuel : Nat) (R : SkiplistsRandomStructure) (prng : List Nat) (level : Nat)
      (l : Nat) (R1 : SkiplistsRandomStructure) (prng1 : List Nat),
      random_level_loop fuel R prng level = some (l, R1, prng1) →
      R1.max_level = R.max_level ∧ R1.max_number_of_levels = R.max_number_of_levels ∧
      R1.inverse_p = R.inverse_p ∧ R1.bits_per_use = R.bits_per_use ∧
      R1.bits_in_random = R.bits_in_random := by
  intro fuel
  induction fuel with
  | zero => intro R prng level l R1 prng1 h; simp [random_level_loop] at h
  | succ fuel ih =>
    intro R prng level l R1 prng1 h
    rw [random_level_loop] at h
    simp only [] at h
    split at h
    · have := ih _ _ _ _ _ _ h
      split at this <;> simpa using this
    · simp only [Option.some.injEq, Prod.mk.injEq] at h
      obtain ⟨-, h2, -⟩ := h
      subst h2
      split <;> simp

theorem random_level_spec {R R1 : SkiplistsRandomStructure} {prng prng1 : List Nat} {k : Nat}
    (h : random_level R prng = some (k, R1, prng1)) :
    k ≤ R.max_level ∧ R1.max_level = R.max_level := by
  unfold random_level at h
  cases hl : random_level_loop (random_level_fuel R prng) R prng 0 with
  | none => simp [hl] at h
  | some r =>
    obtain ⟨l, R2, prng2⟩ := r
    simp only [hl, Option.some.injEq, Prod.mk.injEq] at h
    obtain ⟨h1, h2, -⟩ := h
    subst h2
    have hf := (random_level_loop_fields _ _ _ _ _ _ _ hl).1
    refine ⟨?_, hf⟩
    rw [← h1, ← hf]
    split <;> omega

end FifoWalk

section ValueUpdate
variable {K V : Type} [LinearOrder K]

theorem set_value_id (id : Nat) (v : Option V) (e : Entry K V) :
    (set_value id v e).id = e.id ∧ (set_value id v e).level = e.level ∧
    (set_value id v e).key = e.key := by
  unfold set_value; split <;> simp

theorem nextAt_map_set_value (T j id : Nat) (v : Option V) (es : List (Entry K V)) :
    nextAt T j (es.map (set_value id v)) = nextAt T j es := by
  induction es with
  | nil => rfl
  | cons e es ih =>
    simp only [List.map_cons, nextAt, (set_value_id id v e).1, (set_value_id id v e).2.1, ih]

theorem ChainOk_set_value {mem mem1 : Memory K V} {T id : Nat} {v : Option V}
    (hs : store_value mem id v = some mem1) :
    ∀ (es tl : List (Entry K V)), ChainOk mem T es tl →
      ChainOk mem1 T (es.map (set_value id v)) (tl.map (set_value id v)) := by
  obtain ⟨-, s2, s3, s4, s5⟩ := store_value_spec hs
  intro es
  induction es with
  | nil => intro tl _; trivial
  | cons e es ih =>
    intro tl h
    obtain ⟨i1, i2, i3⟩ := set_value_id id v e
    refine ⟨⟨?_, ?_, ?_, fun j hj => ?_⟩, ih tl h.2⟩
    · rw [i1, i2, s4]; exact h.1.1
    · rw [i1, i3, s3]; exact h.1.2.1
    · rw [i1, s5]
      unfold set_value
      by_cases he : e.id = id
      · simp [he]
      · simp only [he, if_false]; exact h.1.2.2.1
    · rw [i1, s2, ← List.map_append, nextAt_map_set_value]
      exact h.1.2.2.2 j (i2 ▸ hj)

/-- Replacing the value of a stored entry keeps the invariant. -/
theorem value_update_inv {SL : SkiplistsStructure K V} {es : List (Entry K V)}
    (h : ListInv SL es) (id : Nat) (v : Option V) (mem1 : Memory K V)
    (hs : store_value SL.mem id v = some mem1) :
    ListInv { SL with init_fingers := true, mem := mem1 } (es.map (set_value id v)) := by
  obtain ⟨s1, s2, s3, s4, s5⟩ := store_value_spec hs
  constructor
  · exact h.head
  · exact h.tail
  · exact h.level_le
  · exact h.max_level
  · intro j hj
    show load_forward mem1 SL.L.Head j = some (nextAt SL.L.Tail j _)
    rw [s2, nextAt_map_set_value]; exact h.head_fwd j hj
  · have := ChainOk_set_value (T := SL.L.Tail) hs es [] h.chain
    simpa using this
  · intro e he
    obtain ⟨x, hx, rfl⟩ := List.mem_map.1 he
    rw [(set_value_id id v x).1]; exact h.ids x hx
  · rw [List.map_map]
    have : ((fun e : Entry K V => e.id) ∘ set_value id v) = (fun e => e.id) := by
      funext e; exact (set_value_id id v e).1
    rw [this]; exact h.nodup
  · intro e he
    obtain ⟨x, hx, rfl⟩ := List.mem_map.1 he
    rw [(set_value_id id v x).2.1]; exact h.levels x hx
  · rw [List.pairwise_map]
    refine h.sorted.imp ?_
    intro a b hab
    rw [(set_value_id id v a).2.2, (set_value_id id v b).2.2]; exact hab
  · show SL.size = _
    rw [h.size]; simp
  · show _ ≤ mem1.length
    rw [s1]; simpa using h.mem_len
  · exact h.finger_len

theorem sorted_insert (l r : List (Entry K V)) (e : Entry K V)
    (hs : (l ++ r).Pairwise (fun a b => a.key ≤ b.key))
    (hl : ∀ x ∈ l, x.key ≤ e.key) (hr : ∀ x ∈ r, e.key ≤ x.key) :
    (l ++ e :: r).Pairwise (fun a b => a.key ≤ b.key) := by
  rw [List.pairwise_append] at hs ⊢
  refine ⟨hs.1, List.pairwise_cons.2 ⟨hr, hs.2.1⟩, ?_⟩
  intro a ha b hb
  rcases List.mem_cons.1 hb with rfl | hb
  · exact hl a ha
  · exact hs.2.2 a ha b hb

theorem hi_all_ge (key : K) (es : List (Entry K V))
    (hs : es.Pairwise (fun a b => a.key ≤ b.key)) : ∀ x ∈ hi key es, key ≤ x.key := by
  intro x hx
  cases hh : hi key es with
  | nil => simp [hh] at hx
  | cons e r =>
    have he := not_lt.1 (hi_head_not_lt key es e r hh)
    rw [hh] at hx
    rcases List.mem_cons.1 hx with rfl | hx
    · exact he
    · have hsub : (hi key es).Pairwise (fun a b => a.key ≤ b.key) :=
        hs.sublist (List.dropWhile_sublist _)
      rw [hh] at hsub
      exact le_trans he ((List.pairwise_cons.1 hsub).1 x hx)

theorem keyRun_append_afterRun (key : K) (es : List (Entry K V)) :
    keyRun key es ++ afterRun key es = es :=
  List.takeWhile_append_dropWhile _ es

theorem keyRun_all_eq (key : K) (es : List (Entry K V)) : ∀ x ∈ keyRun key es, x.key = key := by
  intro x hx
  have := List.mem_takeWhile_imp hx
  simpa using this

end ValueUpdate

section InsertPrefix
variable {K V : Type} [LinearOrder K]

theorem prevAt_zero_getLast (p : Nat) (l : List (Entry K V)) (hl : l ≠ []) :
    ∃ t, l.getLast? = some t ∧ t ∈ l ∧ prevAt 0 p l = t.id := by
  induction l generalizing p with
  | nil => exact absurd rfl hl
  | cons e r ih =>
    simp only [prevAt, Nat.zero_le, if_true]
    cases r with
    | nil => exact ⟨e, rfl, by simp, rfl⟩
    | cons e2 r2 =>
      obtain ⟨t, h1, h2, h3⟩ := ih e.id (by simp)
      refine ⟨t, ?_, List.mem_cons_of_mem _ h2, h3⟩
      rw [List.getLast?_cons_cons]; exact h1

theorem hit_some_iff {key : K} {es : List (Entry K V)} {e : Entry K V} :
    hit key es = some e ↔ ∃ r, hi key es = e :: r ∧ e.key = key := by
  unfold hit
  cases hh : hi key es with
  | nil => simp
  | cons x r =>
    by_cases hx : x.key = key
    · simp only [hx, if_true, Option.some.injEq, List.cons.injEq]
      constructor
      · rintro rfl; exact ⟨r, ⟨rfl, rfl⟩, hx⟩
      · rintro ⟨r', ⟨h1, -⟩, -⟩; exact h1
    · simp only [hx, if_false, List.cons.injEq]
      constructor
      · intro h; simp at h
      · rintro ⟨r', ⟨h1, -⟩, h2⟩; exact absurd (h1 ▸ h2) hx

theorem hit_none_iff {key : K} {es : List (Entry K V)}
    (hs : es.Pairwise (fun a b => a.key ≤ b.key)) :
    hit key es = none ↔ ∀ e ∈ es, e.key ≠ key := by
  constructor
  · intro h e he hk
    have hsplit := lo_append_hi key es
    rw [← hsplit] at he
    rcases List.mem_append.1 he with h1 | h1
    · have := lo_all_lt key es e h1
      rw [hk] at this; exact lt_irrefl _ this
    · cases hh : hi key es with
      | nil => simp [hh] at h1
      | cons x r =>
        have hx1 := hi_head_not_lt key es x r hh
        have hx2 : x.key ≠ key := by
          intro hx
          have := hit_some_iff.2 ⟨r, hh, hx⟩
          rw [h] at this; simp at this
        have hx3 : key < x.key := lt_of_le_of_ne (not_lt.1 hx1) (Ne.symm hx2)
        have hsub : (hi key es).Pairwise (fun a b => a.key ≤ b.key) :=
          hs.sublist (List.dropWhile_sublist _)
        rw [hh] at hsub h1
        rcases List.mem_cons.1 h1 with rfl | h1
        · rw [hk] at hx3; exact lt_irrefl _ hx3
        · have := (List.pairwise_cons.1 hsub).1 e h1
          rw [hk] at this
          exact lt_irrefl _ (lt_of_lt_of_le hx3 this)
  · intro h
    cases hh : hit key es with
    | none => rfl
    | some e =>
      obtain ⟨r, h1, h2⟩ := hit_some_iff.1 hh
      exact absurd h2 (h e (hi_sub key es e (by simp [h1])))

end InsertPrefix

section InsertSpec
variable {K V : Type} [LinearOrder K]

theorem ListInv.chain_hi {SL : SkiplistsStructure K V} {es : List (Entry K V)}
    (h : ListInv SL es) (key : K) : ChainOk SL.mem SL.L.Tail (hi key es) [] := by
  have := h.chain
  rw [← lo_append_hi key es, ChainOk_append] at this
  exact this.2

/-- The state of `skiplists_insert` after the walk along the equal-key run. -/
theorem insert_walked {SL : SkiplistsStructure K V} {es : List (Entry K V)}
    (h : ListInv SL es) (hcmp : IsOrderCmp SL.compare_function) (key : K)
    (update : List Nat) (hul : update.length = 18)
    (hu : ∀ j, j ≤ SL.L.level → update[j]? = some (prevAt j SL.L.Head (lo key es))) :
    ∃ last update1,
      (if (hit key es).isSome = true ∧ SL.duplicate_rule = FIRST_IN_FIRST_OUT then
          fifo_walk SL.mem SL.L.Tail SL.compare_function key (SL.mem.length + 1)
            (nextAt SL.L.Tail 0 (hi key es)) (nextAt SL.L.Tail 0 (hi key es)) update
        else some (if (hit key es).isSome = true then nextAt SL.L.Tail 0 (hi key es) else 0,
                   update)) = some (last, update1) ∧
      update1.length = 18 ∧
      (∀ j, j ≤ SL.L.level →
        update1[j]? = some (prevAt j SL.L.Head (insert_point SL.duplicate_rule key es).1)) ∧
      ((hit key es).isSome = true →
        ∃ t, update_target SL.duplicate_rule key es = some t ∧ t ∈ es ∧ last = t.id) := by
  by_cases hfound : (hit key es).isSome = true
  · obtain ⟨e0, he0⟩ := Option.isSome_iff_exists.1 hfound
    obtain ⟨r0, hhi, hkey⟩ := hit_some_iff.1 he0
    by_cases hrule : SL.duplicate_rule = FIRST_IN_FIRST_OUT
    · have hrun : keyRun key (hi key es) ≠ [] := by
        rw [hhi]; simp [keyRun, List.takeWhile_cons, hkey]
      obtain ⟨u, h1, h2, h3⟩ := fifo_walk_spec hcmp SL.mem SL.L.Tail key (SL.mem.length + 1)
        (hi key es) (nextAt SL.L.Tail 0 (hi key es)) update (h.chain_hi key)
        (fun e he => h.ne_tail e (hi_sub key es e he))
        (fun e he => by
          have := h.levels e (hi_sub key es e he); have := h.level_le; omega)
        (by
          have h1 := h.mem_len
          have h2 : (hi key es).length ≤ es.length := (List.dropWhile_sublist _).length_le
          omega)
      obtain ⟨t, ht1, ht2, ht3⟩ := prevAt_zero_getLast (nextAt SL.L.Tail 0 (hi key es)) _ hrun
      refine ⟨_, u, by simp only [hfound, hrule, and_self, if_true]; exact h1, by omega, ?_, ?_⟩
      · intro j hj
        rw [h3 j, hu j hj]
        simp [insert_point, hfound, hrule, prevAt_append]
      · intro _
        refine ⟨t, by simp [update_target, hrule, ht1], ?_, ht3⟩
        exact hi_sub key es t (List.takeWhile_subset _ ht2)
    · refine ⟨nextAt SL.L.Tail 0 (hi key es), update,
        by simp only [hrule, and_false, if_false, hfound, if_true], hul, ?_, ?_⟩
      · intro j hj
        rw [hu j hj]
        simp [insert_point, hrule]
      · intro _
        refine ⟨e0, by simp [update_target, hrule, he0], hi_sub key es e0 (by simp [hhi]), ?_⟩
        simp [hfound, hhi, nextAt]
  · refine ⟨0, update, by simp [hfound], hul, ?_, ?_⟩
    · intro j hj
      rw [hu j hj]
      simp [insert_point, hfound]
    · intro hc; exact absurd hc hfound

/-- `skiplists_insert` on a key that is stored, duplicates being disallowed:
the value of one entry is replaced. -/
theorem insert_update_spec {SL : SkiplistsStructure K V} {es : List (Entry K V)}
    (h : ListInv SL es) (hcmp : IsOrderCmp SL.compare_function) (key : K) (value : Option V)
    (hallow : SL.allow_duplicates = false) (hfound : (hit key es).isSome = true) :
    ∃ SL1, skiplists_insert SL key value = some (false, SL1) ∧
      ListInv SL1 (abs_insert SL.allow_duplicates SL.duplicate_rule SL.duplicate_function
        key value SL.mem.length 0 es).2 ∧
      SameConfig SL SL1 ∧ SL1.size = SL.size ∧ SL1.L = SL.L ∧ SL1.R = SL.R ∧
      SL1.prng = SL.prng ∧ SL1.init_fingers = true := by
  obtain ⟨u, h1, h2, h3, h4⟩ := descent_head h hcmp key
    (List.replicate SKIPLISTS_MAX_NUMBER_OF_LEVELS 0) (by simp [SKIPLISTS_MAX_NUMBER_OF_LEVELS])
  obtain ⟨last, update1, w1, w2, w3, w4⟩ := insert_walked h hcmp key u h2 h3
  obtain ⟨t, ht1, ht2, ht3⟩ := w4 hfound
  have hval := (ChainOk_mem h.chain ht2).2.2
  unfold skiplists_insert
  rw [h1]
  simp only [key_found_hi h hcmp key]
  rw [w1]
  simp only [hallow, hfound, and_self, if_true, ht3]
  cases hd : SL.duplicate_function with
  | none =>
    obtain ⟨m1, hm1⟩ := @store_value_ok _ _ SL.mem t.id value (by simp [hval])
    simp only [hm1]
    refine ⟨_, rfl, ?_, ⟨rfl, hallow.symm, rfl, hd.symm⟩, rfl, rfl, rfl, rfl, rfl⟩
    have := value_update_inv h t.id value m1 hm1
    simpa [abs_insert, hfound, ht1, hallow, hd] using this
  | some f =>
    obtain ⟨m1, hm1⟩ := @store_value_ok _ _ SL.mem t.id (f t.value value)
      (by simp [hval])
    simp only [hval, hm1]
    refine ⟨_, rfl, ?_, ⟨rfl, hallow.symm, rfl, hd.symm⟩, rfl, rfl, rfl, rfl, rfl⟩
    have := value_update_inv h t.id (f t.value value) m1 hm1
    simpa [abs_insert, hfound, ht1, hallow, hd] using this

end InsertSpec

section InsertNew
variable {K V : Type} [LinearOrder K]

theorem insert_point_spec (rule : Int) (key : K) (es : List (Entry K V))
    (hs : es.Pairwise (fun a b => a.key ≤ b.key)) :
    es = (insert_point rule key es).1 ++ (insert_point rule key es).2 ∧
    (∀ x ∈ (insert_point rule key es).1, x.key ≤ key) ∧
    (∀ x ∈ (insert_point rule key es).2, key ≤ x.key) := by
  unfold insert_point
  split
  · refine ⟨?_, ?_, ?_⟩
    · simp only [List.append_assoc, keyRun_append_afterRun, lo_append_hi]
    · intro x hx
      rcases List.mem_append.1 hx with hx | hx
      · exact le_of_lt (lo_all_lt key es x hx)
      · exact le_of_eq (keyRun_all_eq key _ x hx)
    · intro x hx
      exact hi_all_ge key es hs x ((List.dropWhile_sublist _).subset hx)
  · exact ⟨(lo_append_hi key es).symm, fun x hx => le_of_lt (lo_all_lt key es x hx),
      hi_all_ge key es hs⟩

/-- `skiplists_insert` when it links a new node. -/
theorem insert_new_spec {SL : SkiplistsStructure K V} {es : List (Entry K V)}
    (h : ListInv SL es) (hcmp : IsOrderCmp SL.compare_function) (key : K) (value : Option V)
    (hnew : ¬ (SL.allow_duplicates = false ∧ (hit key es).isSome = true)) :
    (random_level SL.R SL.prng = none → skiplists_insert SL key value = none) ∧
    ∀ k R1 prng1, random_level SL.R SL.prng = some (k, R1, prng1) →
      ∃ SL1, skiplists_insert SL key value = some (true, SL1) ∧
        ListInv SL1 (abs_insert SL.allow_duplicates SL.duplicate_rule SL.duplicate_function
          key value SL.mem.length k es).2 ∧
        SameConfig SL SL1 ∧ SL1.size = SL.size + 1 ∧ SL1.R = R1 ∧ SL1.prng = prng1 ∧
        SL1.init_fingers = true := by
  obtain ⟨u, h1, h2, h3, h4⟩ := descent_head h hcmp key
    (List.replicate SKIPLISTS_MAX_NUMBER_OF_LEVELS 0) (by simp [SKIPLISTS_MAX_NUMBER_OF_LEVELS])
  obtain ⟨last, update1, w1, w2, w3, w4⟩ := insert_walked h hcmp key u h2 h3
  have hunf : skiplists_insert SL key value =
      match random_level SL.R SL.prng with
      | none => none
      | some (k, R1, prng1) =>
        match (if k > SL.L.level then raise_update SL.L.Head SL.L.level k update1
               else some update1) with
        | none => none
        | some update2 =>
          match store_key (skiplists_new_node_of_level SL.mem k).2
              (skiplists_new_node_of_level SL.mem k).1 (some key) with
          | none => none
          | some mem1 =>
            match store_value mem1 (skiplists_new_node_of_level SL.mem k).1 value with
            | none => none
            | some mem2 =>
              match splice update2 (skiplists_new_node_of_level SL.mem k).1 k mem2 with
              | none => none
              | some mem3 =>
                some (true, { SL with init_fingers := true, R := R1, prng := prng1,
                                      L := { SL.L with level :=
                                               if k > SL.L.level then k else SL.L.level },
                                      mem := mem3, size := SL.size + 1 }) := by
    unfold skiplists_insert
    rw [h1]
    simp only [key_found_hi h hcmp key]
    rw [w1]
    simp only []
    rw [if_neg hnew]
    try rfl
  rw [hunf]
  refine ⟨fun hn => by rw [hn], fun k R1 prng1 hr => ?_⟩
  obtain ⟨hk, hR⟩ := random_level_spec hr
  rw [h.max_level] at hk hR
  obtain ⟨hes, hl, hr2⟩ := insert_point_spec SL.duplicate_rule key es h.sorted
  have hraise : ∃ update2, (if k > SL.L.level then raise_update SL.L.Head SL.L.level k update1
        else some update1) = some update2 ∧
      ∀ j, j ≤ k → update2[j]? =
        some (prevAt j SL.L.Head (insert_point SL.duplicate_rule key es).1) := by
    by_cases hkl : k > SL.L.level
    · obtain ⟨u2, r1, r2, r3⟩ := raise_update_spec SL.L.Head SL.L.level k update1 (by omega)
      refine ⟨u2, by simp only [hkl, if_true]; exact r1, fun j hj => ?_⟩
      rw [r3 j]
      by_cases hjl : SL.L.level < j
      · have : SL.L.level < j ∧ j ≤ k := ⟨hjl, hj⟩
        rw [if_pos this, prevAt_of_lt]
        intro x hx
        have := h.levels x (by rw [hes]; simp [hx])
        omega
      · have : ¬ (SL.L.level < j ∧ j ≤ k) := by omega
        rw [if_neg this]
        exact w3 j (by omega)
    · exact ⟨update1, by simp only [hkl, if_false], fun j hj => w3 j (by omega)⟩
  obtain ⟨update2, hu2, hu3⟩ := hraise
  obtain ⟨m1, m2, m3, hm1, hm2, hm3, hinv⟩ := link_new h _ _ hes key value k hk update2 hu3
    (sorted_insert _ _ _ (hes ▸ h.sorted) hl hr2) R1 hR prng1
  simp only [hr, hu2, hm1, hm2, hm3]
  refine ⟨_, rfl, ?_, ⟨rfl, rfl, rfl, rfl⟩, rfl, rfl, rfl, rfl⟩
  have habs : (abs_insert SL.allow_duplicates SL.duplicate_rule SL.duplicate_function
      key value SL.mem.length k es).2 = (insert_point SL.duplicate_rule key es).1 ++
        (⟨SL.mem.length, k, key, value⟩ : Entry K V) ::
        (insert_point SL.duplicate_rule key es).2 := by
    unfold abs_insert
    rw [if_neg hnew]
  rw [habs]
  exact hinv

end InsertNew

section RemoveSpec
variable {K V : Type} [LinearOrder K]

theorem ListInv.congr {SL SL1 : SkiplistsStructure K V} {es : List (Entry K V)}
    (h : ListInv SL es) (hL : SL1.L.level = SL.L.level ∧ SL1.L.Head = SL.L.Head ∧
      SL1.L.Tail = SL.L.Tail ∧ SL1.L.finger.length = SL.L.finger.length)
    (hR : SL1.R.max_level = SL.R.max_level)
    (hm : SL1.mem = SL.mem) (hs : SL1.size = SL.size) : ListInv SL1 es := by
  obtain ⟨l1, l2, l3, l4⟩ := hL
  constructor
  · rw [l2]; exact h.head
  · rw [l3]; exact h.tail
  · rw [l1]; exact h.level_le
  · rw [hR]; exact h.max_level
  · rw [hm, l2, l3]; exact h.head_fwd
  · rw [hm, l3]; exact h.chain
  · exact h.ids
  · exact h.nodup
  · rw [l1]; exact h.levels
  · exact h.sorted
  · rw [hs]; exact h.size
  · rw [hm]; exact h.mem_len
  · rw [l4]; exact h.finger_len

theorem nextAt_eq_or_mem (T j : Nat) (l : List (Entry K V)) :
    nextAt T j l = T ∨ ∃ x ∈ l, nextAt T j l = x.id := by
  rcases nextAt_cases T j l with ⟨h, -⟩ | ⟨a, e, b, h1, -, -, h4⟩
  · exact Or.inl h
  · exact Or.inr ⟨e, by simp [h1], h4⟩

/-- `skiplists_remove` on a key that is stored: the first entry with that key
is unlinked and released. -/
theorem remove_found_spec {SL : SkiplistsStructure K V} {es : List (Entry K V)}
    (h : ListInv SL es) (hcmp : IsOrderCmp SL.compare_function) (key : K)
    (e0 : Entry K V) (r0 : List (Entry K V)) (hhi : hi key es = e0 :: r0)
    (hkey : e0.key = key) :
    ∃ SL1, skiplists_remove SL key = some (true, SL1) ∧ ListInv SL1 (lo key es ++ r0) ∧
      SameConfig SL SL1 ∧ SL1.R = SL.R ∧ SL1.prng = SL.prng ∧ SL1.init_fingers = true ∧
      SL1.size = SL.size - 1 := by
  obtain ⟨u, h1, h2, h3, h4⟩ := descent_head h hcmp key
    (List.replicate SKIPLISTS_MAX_NUMBER_OF_LEVELS 0) (by simp [SKIPLISTS_MAX_NUMBER_OF_LEVELS])
  have hes : es = lo key es ++ e0 :: r0 := by rw [← hhi, lo_append_hi]
  have hfound : (hit key es).isSome = true := by
    rw [hit_some_iff.2 ⟨r0, hhi, hkey⟩]; rfl
  have hq : nextAt SL.L.Tail 0 (hi key es) = e0.id := by simp [hhi, nextAt]
  have hch := h.chain
  rw [hes, ChainOk_append, List.append_nil] at hch
  have hnode := hch.2.1
  rw [List.append_nil] at hnode
  have hnd := h.nodup
  rw [hes, List.map_append, List.nodup_append, List.map_cons, List.nodup_cons] at hnd
  have he0 : e0 ∈ es := by rw [hes]; simp
  have hlsub : ∀ e ∈ lo key es, e ∈ es := lo_sub key es
  have hrsub : ∀ e ∈ r0, e ∈ es := fun e he => by rw [hes]; simp [he]
  have hlv := h.levels e0 he0
  have hlne : ∀ e ∈ lo key es, e.id ≠ e0.id := by
    intro e he heq
    exact hnd.2.2 (List.mem_map.2 ⟨e, he, rfl⟩) (by simp [heq])
  have hrne : ∀ e ∈ r0, e.id ≠ e0.id := by
    intro e he heq
    exact hnd.2.1.1 (List.mem_map.2 ⟨e, he, heq⟩)
  have hprevne : ∀ j, prevAt j SL.L.Head (lo key es) ≠ e0.id := by
    intro j
    rcases prevAt_eq_or_mem j SL.L.Head (lo key es) with hp | ⟨x, hx, hp⟩
    · rw [hp]; exact (h.ne_head e0 he0).symm
    · rw [hp]; exact hlne x hx
  have hprevfw : ∀ j, j ≤ 17 → load_forward SL.mem (prevAt j SL.L.Head (lo key es)) j
      = some (nextAt SL.L.Tail j (e0 :: r0)) := by
    intro j hj
    apply prevAt_forward (e0 :: r0) (lo key es) SL.L.Head _ hch.1
    rw [← hes]; exact h.head_fwd j hj
  have hgetD : ∀ j, j ≤ SL.L.level → u.getD j 0 = prevAt j SL.L.Head (lo key es) := by
    intro j hj
    simp [List.getD_eq_getElem?_getD, h3 j hj]
  have hlevel := h.level_le
  have hlen : es.length = (lo key es).length + (r0.length + 1) := by
    have := congrArg List.length hes
    simpa using this
  -- the unlink loop
  obtain ⟨m1, hm1, hi1, hf1⟩ := remove_unlink_spec u e0.id SL.L.level e0.level hlv
    (SL.L.level + 1) 0 SL.mem rfl (Nat.zero_le _)
    (fun j _ hj => ⟨_, h3 j (by omega), hprevne j, by
      rw [hprevfw j (by omega)]; simp [nextAt, hj], by
      rw [hnode.2.2.2 j hj]; rfl⟩)
    (fun hlt => ⟨_, _, h3 _ (by omega), hprevfw _ (by omega), by
      have hn : ¬ (e0.level + 1 ≤ e0.level) := by omega
      simp only [nextAt, hn, if_false]
      rcases nextAt_eq_or_mem SL.L.Tail (e0.level + 1) r0 with hT | ⟨x, hx, hT⟩
      · rw [hT]; exact (h.ne_tail e0 he0).symm
      · rw [hT]; exact hrne x hx⟩)
  -- releasing the node
  have hlvq : (load_level m1 e0.id).isSome := by
    rw [(hi1.2 _).2.2, hnode.1]; rfl
  obtain ⟨m2, hm2⟩ := remove_node_ok hlvq
  obtain ⟨f1, f2, f3, f4, f5⟩ := remove_node_spec hm2
  have hfw2 : ∀ x, x ≠ e0.id → ∀ j, load_forward m2 x j =
      if j ≤ e0.level ∧ x = prevAt j SL.L.Head (lo key es) then some (nextAt SL.L.Tail j r0)
      else load_forward SL.mem x j := by
    intro x hx j
    rw [f2 x hx j, hf1]
    by_cases hj : j ≤ e0.level
    · simp only [Nat.zero_le, hj, true_and, hgetD j (by omega)]
      by_cases hxp : x = prevAt j SL.L.Head (lo key es)
      · simp only [hxp, if_true]; exact hnode.2.2.2 j hj
      · simp only [hxp, if_false]
    · simp only [hj, false_and, and_false, if_false]
  have hinfo2 : ∀ x, x ≠ e0.id → load_level m2 x = load_level SL.mem x ∧
      load_key m2 x = load_key SL.mem x ∧ load_value m2 x = load_value SL.mem x := by
    intro x hx
    exact ⟨(f4 x hx).trans (hi1.2 x).2.2, (f3 x hx).trans (hi1.2 x).1,
      (f5 x hx).trans (hi1.2 x).2.1⟩
  have hhead2 : ∀ j, j ≤ 17 →
      load_forward m2 SL.L.Head j = some (nextAt SL.L.Tail j (lo key es ++ r0)) := by
    intro j hj
    apply slot_remove (lo key es) r0 e0 (by rw [← hes]; exact h.head_fwd j hj)
      (fun y hy => h.ne_head y (hlsub y hy))
    exact hfw2 _ (h.ne_head e0 he0).symm j
  -- the level
  obtain ⟨mm, hmm1, hmm2, hmm3⟩ := shrink_level_spec m2 SL.L.Head SL.L.Tail SL.L.level
    (fun j hj => by rw [hhead2 j (by omega)]; rfl)
  have hunf : skiplists_remove SL key = some (true,
      { SL with init_fingers := true, L := { SL.L with level := mm },
                size := SL.size - 1, mem := m2 }) := by
    unfold skiplists_remove
    rw [h1]
    simp only [key_found_hi h hcmp key]
    simp only [hfound, if_true, hq, hm1, hm2, hmm1]
  refine ⟨_, hunf, ?_, ⟨rfl, rfl, rfl, rfl⟩, rfl, rfl, rfl, rfl⟩
  have hne_tail : ∀ e ∈ lo key es ++ r0, e.id ≠ SL.L.Tail := by
    intro e he
    rcases List.mem_append.1 he with he | he
    · exact h.ne_tail e (hlsub e he)
    · exact h.ne_tail e (hrsub e he)
  constructor
  · exact h.head
  · exact h.tail
  · show mm ≤ 17
    omega
  · exact h.max_level
  · exact hhead2
  · show ChainOk m2 SL.L.Tail _ []
    rw [ChainOk_append, List.append_nil]
    constructor
    · apply chain_lo_remove r0 e0 (lo key es) (fun _ => SL.L.Head) hch.1 hnd.1
        (fun x hx j => (h.ne_head x (hlsub x hx)).symm)
        (fun x hx => hinfo2 x.id (hlne x hx))
      intro x hx j
      exact hfw2 x.id (hlne x hx) j
    · apply ChainOk_congr hch.2.2
      intro e he
      obtain ⟨a1, a2, a3⟩ := hinfo2 e.id (hrne e he)
      refine ⟨a1, a2, a3, fun j _ => ?_⟩
      rw [hfw2 e.id (hrne e he) j]
      have : e.id ≠ prevAt j SL.L.Head (lo key es) := by
        rcases prevAt_eq_or_mem j SL.L.Head (lo key es) with hp | ⟨x, hx, hp⟩
        · rw [hp]; exact h.ne_head e (hrsub e he)
        · rw [hp]; intro heq
          exact hnd.2.2 (List.mem_map.2 ⟨x, hx, rfl⟩) (by simp; right; exact ⟨e, he, heq⟩)
      simp [this]
  · intro e he
    rcases List.mem_append.1 he with he | he
    · exact h.ids e (hlsub e he)
    · exact h.ids e (hrsub e he)
  · rw [List.map_append, List.nodup_append]
    refine ⟨hnd.1, hnd.2.1.2, ?_⟩
    intro a ha hb
    exact hnd.2.2 ha (List.mem_cons_of_mem _ hb)
  · intro e he
    show e.level ≤ mm
    by_contra hc
    have hle : e.level ≤ SL.L.level := by
      rcases List.mem_append.1 he with he | he
      · exact h.levels e (hlsub e he)
      · exact h.levels e (hrsub e he)
    have := hmm3 e.level (by omega) hle
    rw [hhead2 e.level (by omega)] at this
    have h2 := (nextAt_eq_tail_iff SL.L.Tail e.level _ hne_tail).1 (Option.some.inj this) e he
    omega
  · have := h.sorted
    rw [hes] at this
    exact this.sublist (List.Sublist.append_left (List.sublist_cons_self _ _) _)
  · show SL.size - 1 = _
    rw [h.size, hlen]
    simp only [List.length_append]
    push_cast
    omega
  · show _ ≤ m2.length
    rw [f1, hi1.1]
    have := h.mem_len
    rw [hlen] at this
    simp only [List.length_append]
    omega
  · exact h.finger_len

end RemoveSpec

section TraverseSpec
variable {K V : Type} [LinearOrder K]

theorem remove_miss_spec {SL : SkiplistsStructure K V} {es : List (Entry K V)}
    (h : ListInv SL es) (hcmp : IsOrderCmp SL.compare_function) (key : K)
    (hmiss : hit key es = none) :
    skiplists_remove SL key = some (false, { SL with init_fingers := true }) := by
  obtain ⟨u, h1, -⟩ := descent_head h hcmp key
    (List.replicate SKIPLISTS_MAX_NUMBER_OF_LEVELS 0) (by simp [SKIPLISTS_MAX_NUMBER_OF_LEVELS])
  unfold skiplists_remove
  rw [h1]
  simp only [key_found_hi h hcmp key]
  simp [hmiss]

theorem traverse_loop_spec {D : Type} (mem : Memory K V) (T : Nat)
    (f : Option K → Option V → D → Int × D) :
    ∀ (fuel : Nat) (post : List (Entry K V)) (data : D),
      ChainOk mem T post [] → (∀ e ∈ post, e.id ≠ T) → post.length < fuel →
      traverse_loop mem T f fuel (nextAt T 0 post) data = some (visit_entries f post data) := by
  intro fuel
  induction fuel with
  | zero => intro post data _ _ hf; omega
  | succ fuel ih =>
    intro post data hch hT hf
    cases post with
    | nil => simp [traverse_loop, nextAt, visit_entries]
    | cons e r =>
      have heT : e.id ≠ T := hT e (by simp)
      have hnode := hch.1
      rw [List.append_nil] at hnode
      rw [traverse_loop]
      simp only [nextAt, Nat.zero_le, if_true, heT, if_false, hnode.2.1, hnode.2.2.1,
        visit_entries]
      by_cases hstop : (f (some e.key) e.value data).1 = 0
      · simp only [hstop, ne_eq, not_true_eq_false, if_false, hnode.2.2.2 0 (Nat.zero_le _)]
        exact ih r _ hch.2 (fun x hx => hT x (by simp [hx])) (by simp at hf; omega)
      · simp only [hstop, ne_eq, not_false_eq_true, if_true]

theorem traverse_spec {D : Type} {SL : SkiplistsStructure K V} {es : List (Entry K V)}
    (h : ListInv SL es) (f : Option K → Option V → D → Int × D) (data : D) :
    skiplists_traverse SL f data = some (visit_entries f es data) := by
  unfold skiplists_traverse
  by_cases hs : SL.size > 0
  · simp only [hs, if_true, h.head_fwd 0 (by omega)]
    exact traverse_loop_spec SL.mem SL.L.Tail f _ es data h.chain h.ne_tail
      (by have := h.mem_len; omega)
  · have : es = [] := by
      have h1 := h.size
      cases es with
      | nil => rfl
      | cons e r => simp at h1; omega
    simp [hs, this, visit_entries]

theorem visit_collect (es : List (Entry K V)) (data : List (Option K × Option V)) :
    visit_entries collect_visit es data = data ++ (pairs es).map as_visited := by
  induction es generalizing data with
  | nil => simp [visit_entries, pairs]
  | cons e r ih =>
    simp only [visit_entries, collect_visit, ne_eq, not_true_eq_false, if_false]
    rw [ih]
    simp [pairs, as_visited]

/-- A full traversal visits the entries of the list in order. -/
theorem traversal_spec {SL : SkiplistsStructure K V} {es : List (Entry K V)}
    (h : ListInv SL es) : traversal SL = some ((pairs es).map as_visited) := by
  unfold traversal
  rw [traverse_spec h, visit_collect]
  simp

theorem init_head_forward_spec (Head Tail : Nat) : ∀ (n : Nat) (mem : Memory K V),
    (∀ j, j < n → (load_forward mem Head j).isSome) →
    ∃ mem1, init_head_forward Head Tail n mem = some mem1 ∧ SameInfo mem mem1 ∧
      ∀ x j, load_forward mem1 x j =
        if x = Head ∧ j < n then some Tail else load_forward mem x j := by
  intro n
  induction n with
  | zero =>
    intro mem _
    exact ⟨mem, rfl, SameInfo.refl mem, fun x j => by simp⟩
  | succ n ih =>
    intro mem hm
    obtain ⟨m1, h1, h2, h3⟩ := ih mem (fun j hj => hm j (by omega))
    have hsome : (load_forward m1 Head n).isSome := by
      rw [h3]
      have := hm n (by omega)
      split
      · rfl
      · exact this
    obtain ⟨m2, hm2⟩ := @store_forward_ok _ _ m1 _ _ Tail hsome
    obtain ⟨hi2, hf2⟩ := store_forward_spec hm2
    refine ⟨m2, by simp [init_head_forward, h1, hm2], h2.trans hi2, fun x j => ?_⟩
    rw [hf2, h3]
    by_cases hx : x = Head
    · by_cases hj : j = n
      · have : j < n + 1 := by omega
        simp [hx, hj]
      · by_cases hj2 : j < n
        · have : j < n + 1 := by omega
          simp [hx, hj, hj2, this]
        · have : ¬ j < n + 1 := by omega
          simp [hx, hj, hj2, this]
    · simp [hx]

theorem skiplists_new_mem (cmp : Option K → Option K → Int) (rand_max : Nat)
    (prng : List Nat) :
    (skiplists_new cmp rand_max prng : SkiplistsStructure K V).mem =
      (init_head_forward 1 2 18
        (skiplists_new_node_of_level
          (skiplists_new_node_of_level ([none] : Memory K V) 18).2 0).2).getD
        (skiplists_new_node_of_level
          (skiplists_new_node_of_level ([none] : Memory K V) 18).2 0).2 := by
  simp only [skiplists_new, SKIPLISTS_MAX_NUMBER_OF_LEVELS]
  rfl

theorem new_inv (cmp : Option K → Option K → Int) (rand_max : Nat) (prng : List Nat) :
    ListInv (skiplists_new cmp rand_max prng : SkiplistsStructure K V) [] := by
  have hslots : ∀ j, j < 18 → (load_forward
      (skiplists_new_node_of_level (skiplists_new_node_of_level ([none] : Memory K V) 18).2 0).2
      1 j).isSome := by
    intro j hj
    simp only [skiplists_new_node_of_level, load_forward, deref]
    simp only [List.cons_append, List.nil_append, List.getElem?_cons_succ,
      List.getElem?_cons_zero]
    rw [List.getElem?_replicate]
    simp; omega
  obtain ⟨m1, h1, h2, h3⟩ := init_head_forward_spec 1 2 18 _ hslots
  have hmem : (skiplists_new cmp rand_max prng : SkiplistsStructure K V).mem = m1 := by
    rw [skiplists_new_mem, h1]; rfl
  constructor
  · rfl
  · rfl
  · show 0 ≤ 17
    omega
  · rfl
  · intro j hj
    rw [hmem]
    show load_forward m1 1 j = some 2
    rw [h3]
    have : j < 18 := by omega
    simp [this]
  · trivial
  · intro e he; simp at he
  · simp
  · intro e he; simp at he
  · simp
  · rfl
  · rw [hmem, h2.1]; simp [skiplists_new_node_of_level]
  · rfl

end TraverseSpec

section ReachLemmas
variable {K V : Type} [LinearOrder K]

theorem descent_length (mem : Memory K V) (T : Nat) (cmp : Option K → Option K → Int)
    (key : K) : ∀ (fuel p k : Nat) (update : List Nat) (r : Nat × Nat × List Nat),
      descent mem T cmp key fuel p k update = some r → r.2.2.length = update.length := by
  intro fuel
  induction fuel with
  | zero => intro p k update r h; simp [descent] at h
  | succ fuel ih =>
    intro p k update r h
    rw [descent] at h
    have down : ∀ q : Nat, (match array_store update k p with
        | none => none
        | some u => if k = 0 then some (p, q, u)
                    else descent mem T cmp key fuel p (k - 1) u) = some r →
        r.2.2.length = update.length := by
      intro q hd
      cases hu : array_store update k p with
      | none => simp [hu] at hd
      | some u0 =>
        have hl := (array_store_spec hu).1
        simp only [hu] at hd
        split at hd
        · simp only [Option.some.injEq] at hd
          subst hd; exact hl
        · rw [ih _ _ _ _ hd, hl]
    cases hq : load_forward mem p k with
    | none => simp [hq] at h
    | some q =>
      simp only [hq] at h
      split at h
      · exact down _ h
      · cases hk : load_key mem q with
        | none => simp [hk] at h
        | some qk =>
          simp only [hk] at h
          split at h
          · exact down _ h
          · exact ih _ _ _ _ h

theorem lwf_frame {SL SL1 : SkiplistsStructure K V} {key : K} {v : Option V}
    (h : skiplists_lookup_with_finger SL key = some (v, SL1)) :
    SL1.mem = SL.mem ∧ SL1.size = SL.size ∧ SL1.R = SL.R ∧ SL1.prng = SL.prng ∧
    SameConfig SL SL1 ∧ SL1.L.level = SL.L.level ∧ SL1.L.Head = SL.L.Head ∧
    SL1.L.Tail = SL.L.Tail ∧ SL1.L.finger.length = SL.L.finger.length := by
  unfold skiplists_lookup_with_finger at h
  cases hs : finger_start SL key with
  | none => simp [hs] at h
  | some st =>
    obtain ⟨q0, level, kf, li⟩ := st
    simp only [hs] at h
    split at h
    · cases hv : load_value SL.mem li with
      | none => simp [hv] at h
      | some w =>
        simp only [hv, Option.some.injEq, Prod.mk.injEq] at h
        obtain ⟨-, h2⟩ := h
        subst h2
        exact ⟨rfl, rfl, rfl, rfl, ⟨rfl, rfl, rfl, rfl⟩, rfl, rfl, rfl, rfl⟩
    · cases hd : descent SL.mem SL.L.Tail SL.compare_function key (descent_fuel SL.mem level)
          q0 level SL.L.finger with
      | none => simp [hd] at h
      | some r =>
        obtain ⟨p1, q1, f1⟩ := r
        have hl := descent_length _ _ _ _ _ _ _ _ _ hd
        simp only [hd] at h
        cases hk : key_found_at SL.mem SL.L.Tail SL.compare_function key q1 with
        | none => simp [hk] at h
        | some found =>
          simp only [hk] at h
          split at h
          · cases hv : load_value SL.mem q1 with
            | none => simp [hv] at h
            | some w =>
              simp only [hv, Option.some.injEq, Prod.mk.injEq] at h
              obtain ⟨-, h2⟩ := h
              subst h2
              exact ⟨rfl, rfl, rfl, rfl, ⟨rfl, rfl, rfl, rfl⟩, rfl, rfl, rfl, hl⟩
          · simp only [Option.some.injEq, Prod.mk.injEq] at h
            obtain ⟨-, h2⟩ := h
            subst h2
            exact ⟨rfl, rfl, rfl, rfl, ⟨rfl, rfl, rfl, rfl⟩, rfl, rfl, rfl, hl⟩

/-- What a returning `skiplists_insert` does to a state that satisfies the
invariant. -/
theorem insert_result {SL SL1 : SkiplistsStructure K V} {es : List (Entry K V)}
    (h : ListInv SL es) (hcmp : IsOrderCmp SL.compare_function) {key : K} {value : Option V}
    {b : Bool} (hins : skiplists_insert SL key value = some (b, SL1)) :
    ∃ k, b = (abs_insert SL.allow_duplicates SL.duplicate_rule SL.duplicate_function
        key value SL.mem.length k es).1 ∧
      ListInv SL1 (abs_insert SL.allow_duplicates SL.duplicate_rule SL.duplicate_function
        key value SL.mem.length k es).2 ∧
      SameConfig SL SL1 ∧ SL1.size = SL.size + (if b = true then 1 else 0) := by
  by_cases hc : SL.allow_duplicates = false ∧ (hit key es).isSome = true
  · obtain ⟨S, h1, h2, h3, h4, -⟩ := insert_update_spec h hcmp key value hc.1 hc.2
    rw [h1] at hins
    simp only [Option.some.injEq, Prod.mk.injEq] at hins
    obtain ⟨hb, hS⟩ := hins
    subst hS
    refine ⟨0, ?_, h2, h3, ?_⟩
    · rw [← hb]
      unfold abs_insert
      rw [if_pos hc]
      split <;> rfl
    · rw [h4, ← hb]; simp
  · obtain ⟨hn, hs⟩ := insert_new_spec h hcmp key value hc
    cases hr : random_level SL.R SL.prng with
    | none => rw [hn hr] at hins; simp at hins
    | some r =>
      obtain ⟨k, R1, prng1⟩ := r
      obtain ⟨S, h1, h2, h3, h4, -⟩ := hs k R1 prng1 hr
      rw [h1] at hins
      simp only [Option.some.injEq, Prod.mk.injEq] at hins
      obtain ⟨hb, hS⟩ := hins
      subst hS
      refine ⟨k, ?_, h2, h3, ?_⟩
      · rw [← hb]
        unfold abs_insert
        rw [if_neg hc]
      · rw [h4, ← hb]; simp

/-- What `skiplists_remove` does to a state that satisfies the invariant. -/
theorem remove_spec {SL : SkiplistsStructure K V} {es : List (Entry K V)}
    (h : ListInv SL es) (hcmp : IsOrderCmp SL.compare_function) (key : K) :
    ∃ SL1, skiplists_remove SL key = some ((abs_remove key es).1, SL1) ∧
      ListInv SL1 (abs_remove key es).2 ∧ SameConfig SL SL1 ∧
      SL1.size = SL.size - (if (abs_remove key es).1 = true then 1 else 0) ∧
      (hit key es = none → SL1.mem = SL.mem ∧ SL1.L = SL.L) := by
  cases hh : hit key es with
  | none =>
    have := remove_miss_spec h hcmp key hh
    refine ⟨{ SL with init_fingers := true }, by simpa [abs_remove, hh] using this, ?_,
      ⟨rfl, rfl, rfl, rfl⟩, ?_,
      fun _ => ⟨rfl, rfl⟩⟩
    · simp only [abs_remove, hh]
      exact h.congr ⟨rfl, rfl, rfl, rfl⟩ rfl rfl rfl
    · simp [abs_remove, hh]
  | some e0 =>
    obtain ⟨r0, hhi, hkey⟩ := hit_some_iff.1 hh
    obtain ⟨S, h1, h2, h3, -, -, -, h4⟩ := remove_found_spec h hcmp key e0 r0 hhi hkey
    refine ⟨S, by simpa [abs_remove, hh] using h1, ?_, h3, ?_, fun hc => by simp at hc⟩
    · simpa [abs_remove, hh, hhi] using h2
    · simpa [abs_remove, hh] using h4

end ReachLemmas

section ReachInv
variable {K V : Type} [LinearOrder K]

theorem strict_le {es : List (Entry K V)} (h : es.Pairwise (fun a b => a.key < b.key)) :
    es.Pairwise (fun a b => a.key ≤ b.key) := h.imp (fun hab => le_of_lt hab)

theorem abs_remove_sublist (key : K) (es : List (Entry K V)) :
    (abs_remove key es).2.Sublist es := by
  unfold abs_remove
  cases hh : hit key es with
  | none => exact List.Sublist.refl _
  | some e =>
    obtain ⟨r, hhi, -⟩ := hit_some_iff.1 hh
    simp only [hhi, List.tail_cons]
    conv_rhs => rw [← lo_append_hi key es, hhi]
    exact List.Sublist.append_left (List.sublist_cons_self _ _) _

theorem abs_insert_strict (rule : Int) (dupf : Option (Option V → Option V → Option V))
    (key : K) (value : Option V) (id lvl : Nat) (es : List (Entry K V))
    (hs : es.Pairwise (fun a b => a.key < b.key)) :
    (abs_insert false rule dupf key value id lvl es).2.Pairwise (fun a b => a.key < b.key) := by
  unfold abs_insert
  by_cases hf : (hit key es).isSome = true
  · simp only [hf, and_self, if_true]
    split
    · rw [List.pairwise_map]
      refine hs.imp ?_
      intro a b hab
      rw [(set_value_id _ _ a).2.2, (set_value_id _ _ b).2.2]; exact hab
    · exact hs
  · have hnone : hit key es = none := by
      cases hh : hit key es with
      | none => rfl
      | some e => simp [hh] at hf
    have hne := (hit_none_iff (strict_le hs)).1 hnone
    have hc1 : ¬ (false = false ∧ (hit key es).isSome = true) := by simp [hnone]
    have hc2 : ¬ ((hit key es).isSome = true ∧ rule = FIRST_IN_FIRST_OUT) := by simp [hnone]
    rw [if_neg hc1]
    simp only [insert_point]
    rw [if_neg hc2]
    have hge := hi_all_ge key es (strict_le hs)
    have hs2 : (lo key es ++ hi key es).Pairwise (fun a b => a.key < b.key) := by
      rw [lo_append_hi]; exact hs
    rw [List.pairwise_append] at hs2 ⊢
    have hs := hs2
    refine ⟨hs.1, List.pairwise_cons.2 ⟨?_, hs.2.1⟩, ?_⟩
    · intro x hx
      exact lt_of_le_of_ne (hge x hx) (Ne.symm (hne x (hi_sub key es x hx)))
    · intro a ha b hb
      rcases List.mem_cons.1 hb with rfl | hb
      · exact lo_all_lt key es a ha
      · exact hs.2.2 a ha b hb

theorem disallow_inv {SL : SkiplistsStructure K V} {es : List (Entry K V)}
    (h : ListInv SL es) (f : Option (Option V → Option V → Option V)) :
    ListInv (skiplists_disallow_duplicates SL f) es :=
  h.congr ⟨rfl, rfl, rfl, rfl⟩ rfl rfl rfl

theorem allow_inv {SL : SkiplistsStructure K V} {es : List (Entry K V)}
    (h : ListInv SL es) (rule : Int) : ListInv (skiplists_allow_duplicates SL rule) es :=
  h.congr ⟨rfl, rfl, rfl, rfl⟩ rfl rfl rfl

theorem reach_inv {cmp : Option K → Option K → Int} (hcmp : IsOrderCmp cmp) {rand_max : Nat}
    {SL : SkiplistsStructure K V} (hr : Reachable cmp rand_max SL) :
    ∃ es, ListInv SL es ∧ SL.compare_function = cmp := by
  induction hr with
  | new prng => exact ⟨[], new_inv cmp rand_max prng, rfl⟩
  | insert _ hins ih =>
    obtain ⟨es, hinv, hc⟩ := ih
    obtain ⟨k, -, h2, h3, -⟩ := insert_result hinv (hc ▸ hcmp) hins
    exact ⟨_, h2, h3.1.trans hc⟩
  | remove _ hrem ih =>
    obtain ⟨es, hinv, hc⟩ := ih
    obtain ⟨S, h1, h2, h3, -⟩ := remove_spec hinv (hc ▸ hcmp) _
    rw [h1] at hrem
    simp only [Option.some.injEq, Prod.mk.injEq] at hrem
    obtain ⟨-, hS⟩ := hrem
    subst hS
    exact ⟨_, h2, h3.1.trans hc⟩
  | lookup_with_finger _ hl ih =>
    obtain ⟨es, hinv, hc⟩ := ih
    obtain ⟨f1, f2, f3, -, f5, f6, f7, f8, f9⟩ := lwf_frame hl
    exact ⟨es, hinv.congr ⟨f6, f7, f8, f9⟩ (by rw [f3]) f1 f2, f5.1.trans hc⟩
  | allow_duplicates rule _ ih =>
    obtain ⟨es, hinv, hc⟩ := ih
    exact ⟨es, allow_inv hinv rule, hc⟩
  | disallow_duplicates f _ ih =>
    obtain ⟨es, hinv, hc⟩ := ih
    exact ⟨es, disallow_inv hinv f, hc⟩

theorem reach_disallow_inv {cmp : Option K → Option K → Int} (hcmp : IsOrderCmp cmp)
    {rand_max : Nat} {SL : SkiplistsStructure K V} (hr : ReachableDisallow cmp rand_max SL) :
    ∃ es, ListInv SL es ∧ SL.compare_function = cmp ∧ SL.allow_duplicates = false ∧
      es.Pairwise (fun a b => a.key < b.key) := by
  induction hr with
  | new prng f =>
    exact ⟨[], disallow_inv (new_inv cmp rand_max prng) f, rfl, rfl, List.Pairwise.nil⟩
  | insert _ hins ih =>
    obtain ⟨es, hinv, hc, ha, hs⟩ := ih
    obtain ⟨k, -, h2, h3, -⟩ := insert_result hinv (hc ▸ hcmp) hins
    refine ⟨_, h2, h3.1.trans hc, h3.2.1.trans ha, ?_⟩
    rw [ha]
    exact abs_insert_strict _ _ _ _ _ _ es hs
  | remove _ hrem ih =>
    obtain ⟨es, hinv, hc, ha, hs⟩ := ih
    obtain ⟨S, h1, h2, h3, -⟩ := remove_spec hinv (hc ▸ hcmp) _
    rw [h1] at hrem
    simp only [Option.some.injEq, Prod.mk.injEq] at hrem
    obtain ⟨-, hS⟩ := hrem
    subst hS
    exact ⟨_, h2, h3.1.trans hc, h3.2.1.trans ha, hs.sublist (abs_remove_sublist _ es)⟩
  | lookup_with_finger _ hl ih =>
    obtain ⟨es, hinv, hc, ha, hs⟩ := ih
    obtain ⟨f1, f2, f3, -, f5, f6, f7, f8, f9⟩ := lwf_frame hl
    exact ⟨es, hinv.congr ⟨f6, f7, f8, f9⟩ (by rw [f3]) f1 f2, f5.1.trans hc,
      f5.2.1.trans ha, hs⟩
  | disallow_duplicates f _ ih =>
    obtain ⟨es, hinv, hc, ha, hs⟩ := ih
    exact ⟨es, disallow_inv hinv f, hc, rfl, hs⟩

end ReachInv

section RefLemmas
variable {K V : Type} [LinearOrder K]

theorem lo_hi_hit_cons (key : K) (e : Entry K V) (r : List (Entry K V)) :
    (e.key < key → lo key (e :: r) = e :: lo key r ∧ hi key (e :: r) = hi key r ∧
      hit key (e :: r) = hit key r) ∧
    (¬ e.key < key → lo key (e :: r) = [] ∧ hi key (e :: r) = e :: r ∧
      hit key (e :: r) = if e.key = key then some e else none) := by
  constructor
  · intro h
    simp [lo, hi, hit, List.takeWhile_cons, List.dropWhile_cons, h]
  · intro h
    simp [lo, hi, hit, List.takeWhile_cons, List.dropWhile_cons, h]

theorem hit_mem {key : K} {es : List (Entry K V)} {e : Entry K V} (h : hit key es = some e) :
    e ∈ es ∧ e.key = key := by
  obtain ⟨r, h1, h2⟩ := hit_some_iff.1 h
  exact ⟨hi_sub key es e (by simp [h1]), h2⟩

theorem pairs_map_set_value_of_not_mem (id : Nat) (v : Option V) (r : List (Entry K V))
    (h : ∀ x ∈ r, x.id ≠ id) : r.map (set_value id v) = r := by
  induction r with
  | nil => rfl
  | cons x r ih =>
    simp only [List.map_cons]
    rw [ih (fun y hy => h y (by simp [hy]))]
    simp [set_value, h x (by simp)]

/-- In disallow mode without merge function, `skiplists_insert` acts on the
pairs as the reference map's put-or-overwrite. -/
theorem pairs_abs_insert (rule : Int) (hrule : rule ≠ FIRST_IN_FIRST_OUT) (key : K)
    (value : Option V) (id lvl : Nat) :
    ∀ (es : List (Entry K V)), (es.map (fun e => e.id)).Nodup →
      pairs (abs_insert false rule none key value id lvl es).2 = ref_put key value (pairs es) := by
  intro es
  induction es with
  | nil =>
    intro _
    simp [abs_insert, hit, hi, insert_point, lo, pairs, ref_put]
  | cons e r ih =>
    intro hnd
    obtain ⟨hnd1, hnd2⟩ := List.nodup_cons.1 hnd
    have hne : ∀ x ∈ r, x.id ≠ e.id := fun x hx heq => hnd1 (List.mem_map.2 ⟨x, hx, heq⟩)
    obtain ⟨hA, hB⟩ := lo_hi_hit_cons key e r
    have ih' := ih hnd2
    by_cases hlt : e.key < key
    · obtain ⟨a1, a2, a3⟩ := hA hlt
      have hnlt : ¬ key < e.key := not_lt.2 (le_of_lt hlt)
      have hneq : ¬ key = e.key := fun h => (lt_irrefl _ (h ▸ hlt))
      have hput : ref_put key value (pairs (e :: r))
          = (e.key, e.value) :: ref_put key value (pairs r) := by
        simp [pairs, ref_put, hnlt, hneq]
      rw [hput, ← ih']
      unfold abs_insert update_target insert_point
      simp only [a1, a2, a3, if_neg hrule]
      by_cases hf : (hit key r).isSome = true
      · obtain ⟨t, ht⟩ := Option.isSome_iff_exists.1 hf
        have htne : e.id ≠ t.id := fun h => hne t (hit_mem ht).1 h.symm
        simp [ht, pairs, set_value, htne]
      · have hnone : hit key r = none := by
          cases hh : hit key r with
          | none => rfl
          | some e => simp [hh] at hf
        simp [hnone, pairs]
    · obtain ⟨b1, b2, b3⟩ := hB hlt
      unfold abs_insert update_target insert_point
      simp only [b1, b2, b3, if_neg hrule]
      by_cases heq : e.key = key
      · have h1 : ¬ key < e.key := by rw [heq]; exact lt_irrefl _
        simp only [heq, if_true, Option.isSome_some, and_self]
        rw [List.map_cons, pairs_map_set_value_of_not_mem e.id value r hne]
        simp [pairs, ref_put, set_value, heq]
      · have h1 : key < e.key := lt_of_le_of_ne (not_lt.1 hlt) (Ne.symm heq)
        simp [heq, pairs, ref_put, h1]

/-- On distinct keys `skiplists_remove` acts on the pairs as the reference
map's erase. -/
theorem pairs_abs_remove (key : K) :
    ∀ (es : List (Entry K V)), es.Pairwise (fun a b => a.key < b.key) →
      pairs (abs_remove key es).2 = ref_erase key (pairs es) := by
  intro es
  induction es with
  | nil => intro _; simp [abs_remove, hit, hi, pairs, ref_erase]
  | cons e r ih =>
    intro hs
    obtain ⟨hs1, hs2⟩ := List.pairwise_cons.1 hs
    obtain ⟨hA, hB⟩ := lo_hi_hit_cons key e r
    have ih' := ih hs2
    by_cases hlt : e.key < key
    · obtain ⟨a1, a2, a3⟩ := hA hlt
      have hneq : e.key ≠ key := ne_of_lt hlt
      have her : ref_erase key (pairs (e :: r)) = (e.key, e.value) :: ref_erase key (pairs r) := by
        simp [pairs, ref_erase, List.filter_cons, hneq]
      rw [her, ← ih']
      unfold abs_remove
      simp only [a1, a2, a3]
      cases hh : hit key r with
      | none => simp [pairs]
      | some t => simp [pairs]
    · obtain ⟨b1, b2, b3⟩ := hB hlt
      have hgt : ∀ x ∈ r, x.key ≠ key := by
        intro x hx heq
        have := hs1 x hx
        rw [heq] at this
        exact hlt this
      have hfilter : ref_erase key (pairs r) = pairs r := by
        simp only [ref_erase, pairs]
        rw [List.filter_eq_self]
        intro p hp
        obtain ⟨x, hx, rfl⟩ := List.mem_map.1 hp
        simpa using hgt x hx
      unfold abs_remove
      simp only [b1, b2, b3]
      by_cases heq : e.key = key
      · simp only [heq, if_true, List.nil_append, List.tail_cons]
        rw [← hfilter]
        simp [pairs, ref_erase, List.filter_cons, heq]
      · simp only [heq, if_false]
        rw [show pairs (e :: r) = (e.key, e.value) :: pairs r from rfl]
        have her : ref_erase key ((e.key, e.value) :: pairs r)
            = (e.key, e.value) :: ref_erase key (pairs r) := by
          simp [ref_erase, List.filter_cons, heq]
        rw [her, hfilter]

end RefLemmas

section RunLemmas
variable {K V : Type} [LinearOrder K]

theorem hit_eq_find (key : K) : ∀ (es : List (Entry K V)),
    es.Pairwise (fun a b => a.key ≤ b.key) →
    hit key es = es.find? (fun e => decide (e.key = key)) := by
  intro es
  induction es with
  | nil => intro _; simp [hit, hi]
  | cons e r ih =>
    intro hs
    obtain ⟨hs1, hs2⟩ := List.pairwise_cons.1 hs
    obtain ⟨hA, hB⟩ := lo_hi_hit_cons key e r
    by_cases hlt : e.key < key
    · rw [(hA hlt).2.2, ih hs2, List.find?_cons]
      simp [ne_of_lt hlt]
    · rw [(hB hlt).2.2, List.find?_cons]
      by_cases heq : e.key = key
      · simp [heq]
      · simp only [heq, if_false, decide_False]
        symm
        rw [List.find?_eq_none]
        intro x hx
        have h1 := hs1 x hx
        have h2 : key < e.key := lt_of_le_of_ne (not_lt.1 hlt) (Ne.symm heq)
        simpa using ne_of_gt (lt_of_lt_of_le h2 h1)

theorem lookup_ref {SL : SkiplistsStructure K V} {es : List (Entry K V)}
    (h : ListInv SL es) (hcmp : IsOrderCmp SL.compare_function) (key : K) :
    skiplists_lookup SL key = some (ref_get (pairs es) key) := by
  rw [lookup_spec h hcmp key, hit_eq_find key es h.sorted]
  congr 1
  unfold ref_get pairs
  rw [List.find?_map]
  have hf : ((fun p : K × Option V => decide (p.1 = key)) ∘ fun e : Entry K V =>
      (e.key, e.value)) = fun e => decide (e.key = key) := rfl
  rw [hf]
  cases es.find? (fun e => decide (e.key = key)) with
  | none => rfl
  | some e => rfl

theorem find_ref_put (k0 : K) (v0 : Option V) (k : K) : ∀ (m : List (K × Option V)),
    (ref_put k0 v0 m).find? (fun p => decide (p.1 = k))
      = if k0 = k then some (k0, v0) else m.find? (fun p => decide (p.1 = k)) := by
  intro m
  induction m with
  | nil =>
    by_cases h : k0 = k <;> simp [ref_put, h]
  | cons p r ih =>
    obtain ⟨k1, w⟩ := p
    simp only [ref_put]
    by_cases h1 : k0 < k1
    · simp only [h1, if_true, List.find?_cons]
      by_cases h : k0 = k <;> simp [h]
    · simp only [h1, if_false]
      by_cases h2 : k0 = k1
      · simp only [h2, if_true, List.find?_cons]
        by_cases h : k1 = k <;> simp [h]
      · simp only [h2, if_false, List.find?_cons, ih]
        by_cases h : k0 = k
        · have : ¬ k1 = k := fun hc => h2 (h.trans hc.symm)
          simp [h, this]
        · simp [h]

theorem ref_get_ref_put (k0 : K) (v0 : Option V) (k : K) (m : List (K × Option V)) :
    ref_get (ref_put k0 v0 m) k = if k0 = k then v0 else ref_get m k := by
  unfold ref_get
  rw [find_ref_put]
  by_cases h : k0 = k <;> simp [h]

theorem mem_keys_ref_put (k0 : K) (v0 : Option V) (k : K) : ∀ (m : List (K × Option V)),
    k ∈ (ref_put k0 v0 m).map Prod.fst ↔ k = k0 ∨ k ∈ m.map Prod.fst := by
  intro m
  induction m with
  | nil => simp [ref_put]
  | cons p r ih =>
    obtain ⟨k1, w⟩ := p
    simp only [ref_put]
    by_cases h1 : k0 < k1
    · simp [h1]
    · simp only [h1, if_false]
      by_cases h2 : k0 = k1
      · simp only [h2, if_true, List.map_cons, List.mem_cons]
        tauto
      · simp only [h2, if_false, List.map_cons, List.mem_cons, ih]
        tauto

theorem foldl_put_get (k : K) : ∀ (ops : List (K × Option V)) (m : List (K × Option V)),
    ref_get ((as_inserts ops).foldl ref_apply m) k
      = match last_insert ops k with
        | some v => v
        | none => ref_get m k := by
  intro ops
  induction ops using List.reverseRecOn with
  | nil => intro m; rfl
  | append_singleton ops p ih =>
    intro m
    simp only [as_inserts, List.map_append, List.foldl_append, List.map_cons, List.map_nil,
      List.foldl_cons, List.foldl_nil, ref_apply, last_insert, List.reverse_append,
      List.reverse_cons, List.reverse_nil, List.nil_append, List.singleton_append,
      List.find?_cons]
    rw [ref_get_ref_put]
    by_cases h : p.1 = k
    · simp [h]
    · simp only [h, if_false, decide_False]
      exact ih m

theorem foldl_put_keys (k : K) : ∀ (ops : List (K × Option V)) (m : List (K × Option V)),
    k ∈ ((as_inserts ops).foldl ref_apply m).map Prod.fst
      ↔ k ∈ ops.map Prod.fst ∨ k ∈ m.map Prod.fst := by
  intro ops
  induction ops with
  | nil => intro m; simp [as_inserts]
  | cons p r ih =>
    intro m
    simp only [as_inserts, List.map_cons, List.foldl_cons, ref_apply]
    have := ih (ref_put p.1 p.2 m)
    simp only [as_inserts] at this
    rw [this, mem_keys_ref_put]
    simp only [List.mem_cons]
    tauto

end RunLemmas

section RunSpec
variable {K V : Type} [LinearOrder K]

/-- A run of inserts and removes on a list in disallow mode without merge
function follows the reference map. -/
theorem run_ops_spec {cmp : Option K → Option K → Int} (hcmp : IsOrderCmp cmp) :
    ∀ (ops : List (Op K V)) (SL0 SL : SkiplistsStructure K V) (es0 : List (Entry K V)),
      ListInv SL0 es0 → SL0.compare_function = cmp → SL0.allow_duplicates = false →
      SL0.duplicate_function = none → SL0.duplicate_rule ≠ FIRST_IN_FIRST_OUT →
      es0.Pairwise (fun a b => a.key < b.key) → run_ops SL0 ops = some SL →
      ∃ es, ListInv SL es ∧ SL.compare_function = cmp ∧
        es.Pairwise (fun a b => a.key < b.key) ∧
        pairs es = ops.foldl ref_apply (pairs es0) := by
  intro ops
  induction ops with
  | nil =>
    intro SL0 SL es0 hinv hc _ _ _ hs hrun
    simp only [run_ops, Option.some.injEq] at hrun
    subst hrun
    exact ⟨es0, hinv, hc, hs, rfl⟩
  | cons op ops ih =>
    intro SL0 SL es0 hinv hc ha hd hr hs hrun
    rw [run_ops] at hrun
    cases h1 : run_op SL0 op with
    | none => simp [h1] at hrun
    | some SL1 =>
      simp only [h1] at hrun
      cases op with
      | insert key value =>
        simp only [run_op, Option.map_eq_some'] at h1
        obtain ⟨⟨b, S⟩, hins, hS⟩ := h1
        simp only at hS
        subst hS
        obtain ⟨k, -, h2, h3, -⟩ := insert_result hinv (hc ▸ hcmp) hins
        rw [ha, hd] at h2
        obtain ⟨es, i1, i2, i3, i4⟩ := ih S SL _ h2 (h3.1.trans hc) (h3.2.1.trans ha)
          (h3.2.2.2.trans hd) (by rw [h3.2.2.1]; exact hr)
          (abs_insert_strict _ _ _ _ _ _ es0 hs) hrun
        refine ⟨es, i1, i2, i3, ?_⟩
        rw [i4, pairs_abs_insert _ hr key value _ _ es0 hinv.nodup]
        rfl
      | remove key =>
        simp only [run_op, Option.map_eq_some'] at h1
        obtain ⟨⟨b, S⟩, hrem, hS⟩ := h1
        simp only at hS
        subst hS
        obtain ⟨S1, r1, r2, r3, -⟩ := remove_spec hinv (hc ▸ hcmp) key
        rw [r1] at hrem
        simp only [Option.some.injEq, Prod.mk.injEq] at hrem
        obtain ⟨-, hS⟩ := hrem
        subst hS
        obtain ⟨es, i1, i2, i3, i4⟩ := ih S1 SL _ r2 (r3.1.trans hc) (r3.2.1.trans ha)
          (r3.2.2.2.trans hd) (by rw [r3.2.2.1]; exact hr)
          (hs.sublist (abs_remove_sublist key es0)) hrun
        refine ⟨es, i1, i2, i3, ?_⟩
        rw [i4, pairs_abs_remove key es0 hs]
        rfl

/-- The run of a fresh list put in disallow mode without merge function. -/
theorem fresh_run_spec {cmp : Option K → Option K → Int} (hcmp : IsOrderCmp cmp)
    (rand_max : Nat) (prng : List Nat) (ops : List (Op K V)) (SL : SkiplistsStructure K V)
    (hrun : run_ops (skiplists_disallow_duplicates (skiplists_new cmp rand_max prng) none) ops
      = some SL) :
    ∃ es, ListInv SL es ∧ SL.compare_function = cmp ∧
      es.Pairwise (fun a b => a.key < b.key) ∧ pairs es = ref_run ops := by
  have hr : (skiplists_disallow_duplicates (skiplists_new cmp rand_max prng) none :
      SkiplistsStructure K V).duplicate_rule ≠ FIRST_IN_FIRST_OUT := by
    show (LAST_IN_FIRST_OUT : Int) ≠ FIRST_IN_FIRST_OUT
    decide
  exact run_ops_spec hcmp ops _ SL [] (disallow_inv (new_inv cmp rand_max prng) none) rfl rfl
    rfl hr List.Pairwise.nil hrun

end RunSpec
section Returns

theorem count_bits_loop_ge : ∀ (fuel n bits : Nat), bits ≤ count_bits_loop fuel n bits := by
  intro fuel
  induction fuel with
  | zero => intro n bits; simp [count_bits_loop]
  | succ fuel ih =>
    intro n bits
    rw [count_bits_loop]
    split
    · exact le_trans (Nat.le_succ bits) (ih _ _)
    · exact le_refl _

theorem count_bits_ge_two (n : Nat) (hn : 2 ≤ n) : 2 ≤ count_bits n := by
  unfold count_bits
  obtain ⟨m, rfl⟩ : ∃ m, n = m + 1 := ⟨n - 1, by omega⟩
  rw [count_bits_loop]
  have : (m + 1) >>> 1 > 0 := by
    rw [Nat.shiftRight_eq_div_pow]
    simp
    omega
  simp only [this, if_true]
  exact count_bits_loop_ge _ _ _

theorem count_bits_two : count_bits SKIPLISTS_INVERSE_P = 2 := by decide

theorem new_gen_ok {K V : Type} (cmp : Option K → Option K → Int) (rand_max : Nat)
    (hr : 2 ≤ rand_max) (prng : List Nat) :
    GenOk (skiplists_new cmp rand_max prng : SkiplistsStructure K V).R := by
  have h2 := count_bits_ge_two rand_max hr
  refine ⟨rfl, count_bits_two, ?_, h2⟩
  show (1 : Int) ≤ ((count_bits rand_max / count_bits SKIPLISTS_INVERSE_P : Nat) : Int)
  rw [count_bits_two]
  have : 1 ≤ count_bits rand_max / 2 := by omega
  exact_mod_cast this

/-- With odd generator outputs ahead the loop of `random_level` returns, and it
uses at most two of them. -/
theorem random_level_loop_returns :
    ∀ (n fuel : Nat) (R : SkiplistsRandomStructure) (prng : List Nat) (level : Nat),
      GenOk R → R.randoms_left = ((n + 1 : Nat) : Int) → 2 ≤ prng.length → AllOdd prng →
      n + 2 ≤ fuel →
      ∃ l R1 prng1, random_level_loop fuel R prng level = some (l, R1, prng1) ∧ GenOk R1 ∧
        AllOdd prng1 ∧ prng.length ≤ prng1.length + 2 := by
  intro n
  induction n with
  | zero =>
    intro fuel R prng level hg hleft hlen hodd hfuel
    obtain ⟨g1, g2, g3, g4⟩ := hg
    obtain ⟨f1, rfl⟩ : ∃ f1, fuel = f1 + 1 := ⟨fuel - 1, by omega⟩
    obtain ⟨f2, rfl⟩ : ∃ f2, f1 = f2 + 1 := ⟨f1 - 1, by omega⟩
    obtain ⟨r1, rest1, rfl⟩ : ∃ r1 rest1, prng = r1 :: rest1 := by
      cases prng with
      | nil => simp at hlen
      | cons a b => exact ⟨a, b, rfl⟩
    obtain ⟨r2, rest2, rfl⟩ : ∃ r2 rest2, rest1 = r2 :: rest2 := by
      cases rest1 with
      | nil => simp at hlen
      | cons a b => exact ⟨a, b, rfl⟩
    have hr1 : r1 % 2 = 1 := hodd r1 (by simp)
    have hc : 1 ≤ R.bits_in_random / 2 := by omega
    have hcI : (1 : Int) ≤ ((R.bits_in_random / 2 : Nat) : Int) := by exact_mod_cast hc
    have hodd2 : AllOdd (r2 :: rest2) := fun r hr => hodd r (List.mem_cons_of_mem _ hr)
    have hodd3 : AllOdd rest2 := fun r hr => hodd2 r (List.mem_cons_of_mem _ hr)
    have hz : ((0 + 1 : Nat) : Int) - 1 = 0 := by norm_num
    rw [random_level_loop]
    simp only [g1, g2, hleft, rand, hz, if_true]
    by_cases hb : R.random_bits &&& (2 - 1) = 0
    · simp only [hb, if_true]
      rw [random_level_loop]
      simp only [rand]
      have hb1 : ¬ (r1 &&& (2 - 1) = 0) := by
        simp [Nat.and_one_is_mod, hr1]
      simp only [hb1, if_false]
      by_cases hl : ((R.bits_in_random / 2 : Nat) : Int) - 1 = 0
      · simp only [hl, if_true]
        exact ⟨_, _, _, rfl, ⟨rfl, rfl, hcI, g4⟩, hodd3, by simp⟩
      · simp only [hl, if_false]
        refine ⟨_, _, _, rfl, ⟨rfl, rfl, ?_, g4⟩, hodd2, by simp⟩
        show (1 : Int) ≤ ((R.bits_in_random / 2 : Nat) : Int) - 1
        omega
    · simp only [hb, if_false]
      exact ⟨_, _, _, rfl, ⟨rfl, rfl, hcI, g4⟩, hodd2, by simp⟩
  | succ n ih =>
    intro fuel R prng level hg hleft hlen hodd hfuel
    obtain ⟨g1, g2, g3, g4⟩ := hg
    obtain ⟨f1, rfl⟩ : ∃ f1, fuel = f1 + 1 := ⟨fuel - 1, by omega⟩
    have hne : ¬ (((n + 1 + 1 : Nat) : Int) - 1 = 0) := by push_cast; omega
    rw [random_level_loop]
    simp only [g1, g2, hleft, hne, if_false]
    by_cases hb : R.random_bits &&& (2 - 1) = 0
    · simp only [hb, if_true]
      exact ih f1 _ prng _
        ⟨rfl, rfl, by show (1 : Int) ≤ ((n + 1 + 1 : Nat) : Int) - 1; push_cast; omega, g4⟩
        (by show ((n + 1 + 1 : Nat) : Int) - 1 = ((n + 1 : Nat) : Int); push_cast; omega)
        hlen hodd (by omega)
    · simp only [hb, if_false]
      refine ⟨_, _, _, rfl, ⟨rfl, rfl, ?_, g4⟩, hodd, by omega⟩
      show (1 : Int) ≤ ((n + 1 + 1 : Nat) : Int) - 1
      push_cast; omega

theorem random_level_returns (R : SkiplistsRandomStructure) (prng : List Nat) (hg : GenOk R)
    (hlen : 2 ≤ prng.length) (hodd : AllOdd prng) :
    ∃ k R1 prng1, random_level R prng = some (k, R1, prng1) ∧ GenOk R1 ∧ AllOdd prng1 ∧
      prng.length ≤ prng1.length + 2 := by
  obtain ⟨n, hn⟩ : ∃ n : Nat, R.randoms_left = ((n + 1 : Nat) : Int) :=
    ⟨(R.randoms_left - 1).toNat, by have := hg.2.2.1; push_cast; omega⟩
  have hfuel : n + 2 ≤ random_level_fuel R prng := by
    unfold random_level_fuel
    have h1 : R.randoms_left.toNat = n + 1 := by rw [hn]; simp
    have h2 : prng.length * 1 ≤ prng.length * (R.bits_in_random / R.bits_per_use + 1) :=
      Nat.mul_le_mul_left _ (Nat.le_add_left 1 _)
    rw [Nat.mul_one] at h2
    generalize prng.length * (R.bits_in_random / R.bits_per_use + 1) = x at h2 ⊢
    omega
  obtain ⟨l, R1, prng1, h1, h2, h3, h4⟩ :=
    random_level_loop_returns n _ R prng 0 hg hn hlen hodd hfuel
  exact ⟨if l > R1.max_level then R1.max_level else l, R1, prng1,
    by simp only [random_level, h1], h2, h3, h4⟩

end Returns

section RunReturns

variable {K V : Type} [LinearOrder K]

/-- An insert returns whenever the level generator does. -/
theorem insert_returns {SL : SkiplistsStructure K V} {es : List (Entry K V)}
    (h : ListInv SL es) (hcmp : IsOrderCmp SL.compare_function) (key : K) (value : Option V)
    (hlevel : random_level SL.R SL.prng ≠ none) :
    ∃ b SL1, skiplists_insert SL key value = some (b, SL1) := by
  by_cases hc : SL.allow_duplicates = false ∧ (hit key es).isSome = true
  · obtain ⟨S, h1, -⟩ := insert_update_spec h hcmp key value hc.1 hc.2
    exact ⟨false, S, h1⟩
  · obtain ⟨-, hs⟩ := insert_new_spec h hcmp key value hc
    cases hr : random_level SL.R SL.prng with
    | none => exact absurd hr hlevel
    | some r =>
      obtain ⟨k, R1, prng1⟩ := r
      obtain ⟨S, h1, -⟩ := hs k R1 prng1 hr
      exact ⟨true, S, h1⟩

/-- An insert with odd generator outputs ahead returns and leaves the generator
in order, having used at most two outputs. -/
theorem insert_step_returns {SL : SkiplistsStructure K V} {es : List (Entry K V)}
    (h : ListInv SL es) (hcmp : IsOrderCmp SL.compare_function) (key : K) (value : Option V)
    (hg : GenOk SL.R) (hlen : 2 ≤ SL.prng.length) (hodd : AllOdd SL.prng) :
    ∃ b SL1 es1, skiplists_insert SL key value = some (b, SL1) ∧ ListInv SL1 es1 ∧
      SL1.compare_function = SL.compare_function ∧ GenOk SL1.R ∧ AllOdd SL1.prng ∧
      SL.prng.length ≤ SL1.prng.length + 2 := by
  by_cases hc : SL.allow_duplicates = false ∧ (hit key es).isSome = true
  · obtain ⟨S, h1, h2, h3, -, -, h6, h7, -⟩ := insert_update_spec h hcmp key value hc.1 hc.2
    exact ⟨false, S, _, h1, h2, h3.1, h6 ▸ hg, h7 ▸ hodd, by rw [h7]; omega⟩
  · obtain ⟨-, hs⟩ := insert_new_spec h hcmp key value hc
    obtain ⟨k, R1, prng1, hr, g1, g2, g3⟩ := random_level_returns SL.R SL.prng hg hlen hodd
    obtain ⟨S, h1, h2, h3, -, h5, h6, -⟩ := hs k R1 prng1 hr
    exact ⟨true, S, _, h1, h2, h3.1, h5 ▸ g1, h6 ▸ g2, by rw [h6]; exact g3⟩

/-- A remove always returns, and it does not touch the generator. -/
theorem remove_step_returns {SL : SkiplistsStructure K V} {es : List (Entry K V)}
    (h : ListInv SL es) (hcmp : IsOrderCmp SL.compare_function) (key : K) :
    ∃ b SL1 es1, skiplists_remove SL key = some (b, SL1) ∧ ListInv SL1 es1 ∧
      SL1.compare_function = SL.compare_function ∧ SL1.R = SL.R ∧ SL1.prng = SL.prng := by
  cases hh : hit key es with
  | none =>
    exact ⟨false, { SL with init_fingers := true }, es, remove_miss_spec h hcmp key hh,
      h.congr ⟨rfl, rfl, rfl, rfl⟩ rfl rfl rfl, rfl, rfl, rfl⟩
  | some e0 =>
    obtain ⟨r0, hhi, hkey⟩ := hit_some_iff.1 hh
    obtain ⟨S, h1, h2, h3, h4, h5, -⟩ := remove_found_spec h hcmp key e0 r0 hhi hkey
    exact ⟨true, S, _, h1, h2, h3.1, h4, h5⟩

/-- A run of inserts and removes returns when the generator has two odd outputs
ahead for each operation. -/
theorem run_ops_returns :
    ∀ (ops : List (Op K V)) (SL : SkiplistsStructure K V) (es : List (Entry K V)),
      ListInv SL es → IsOrderCmp SL.compare_function → GenOk SL.R → AllOdd SL.prng →
      2 * ops.length ≤ SL.prng.length → ∃ SL1, run_ops SL ops = some SL1 := by
  intro ops
  induction ops with
  | nil => intro SL es _ _ _ _ _; exact ⟨SL, rfl⟩
  | cons op ops ih =>
    intro SL es h hcmp hg hodd hlen
    simp only [List.length_cons] at hlen
    cases op with
    | insert key value =>
      obtain ⟨b, S, es1, h1, h2, h3, h4, h5, h6⟩ :=
        insert_step_returns h hcmp key value hg (by omega) hodd
      obtain ⟨S2, hS2⟩ := ih S es1 h2 (h3 ▸ hcmp) h4 h5 (by omega)
      exact ⟨S2, by simp only [run_ops, run_op, h1, Option.map_some']; exact hS2⟩
    | remove key =>
      obtain ⟨b, S, es1, h1, h2, h3, h4, h5⟩ := remove_step_returns h hcmp key
      obtain ⟨S2, hS2⟩ := ih S es1 h2 (h3 ▸ hcmp) (h4 ▸ hg) (h5 ▸ hodd) (by rw [h5]; omega)
      exact ⟨S2, by simp only [run_ops, run_op, h1, Option.map_some']; exact hS2⟩

/-- On a fresh list in disallow-duplicates mode every run returns when `RAND_MAX`
is at least 2 and `rand()` gives odd numbers, two for each operation after the
one that `skiplists_new` takes. -/
theorem fresh_run_returns {cmp : Option K → Option K → Int} (hcmp : IsOrderCmp cmp)
    (rand_max : Nat) (hmax : 2 ≤ rand_max) (prng : List Nat) (hodd : AllOdd prng.tail)
    (ops : List (Op K V)) (hlen : 2 * ops.length ≤ prng.tail.length) :
    ∃ SL : SkiplistsStructure K V,
      run_ops (skiplists_disallow_duplicates (skiplists_new cmp rand_max prng) none) ops
        = some SL := by
  have hp : (skiplists_disallow_duplicates (skiplists_new cmp rand_max prng) none :
      SkiplistsStructure K V).prng = prng.tail := by
    show (rand prng).2 = prng.tail
    cases prng <;> rfl
  exact run_ops_returns ops _ [] (disallow_inv (new_inv cmp rand_max prng) none) hcmp
    (@new_gen_ok K V cmp rand_max hmax prng) (hp ▸ hodd) (by rw [hp]; exact hlen)

end RunReturns

section ClaimLemmas
variable {K V : Type} [LinearOrder K]

theorem cmp_le_iff {cmp : Option K → Option K → Int} (hcmp : IsOrderCmp cmp) (a b : K) :
    cmp (some a) (some b) ≤ 0 ↔ a ≤ b := by
  rw [le_iff_lt_or_eq, le_iff_lt_or_eq, (hcmp a b).1, (hcmp a b).2]

theorem hit_map_of_key (key : K) (f : Entry K V → Entry K V) (hf : ∀ e, (f e).key = e.key) :
    ∀ (es : List (Entry K V)), hit key (es.map f) = (hit key es).map f := by
  intro es
  induction es with
  | nil => simp [hit, hi]
  | cons e r ih =>
    obtain ⟨hA, hB⟩ := lo_hi_hit_cons key e r
    obtain ⟨hA', hB'⟩ := lo_hi_hit_cons key (f e) (r.map f)
    rw [List.map_cons]
    by_cases hlt : e.key < key
    · rw [(hA hlt).2.2, (hA' (by rw [hf]; exact hlt)).2.2, ih]
    · rw [(hB hlt).2.2, (hB' (by rw [hf]; exact hlt)).2.2, hf]
      by_cases heq : e.key = key <;> simp [heq]

theorem reachable_run_ops {cmp : Option K → Option K → Int} {rand_max : Nat} :
    ∀ (ops : List (Op K V)) (SL SL1 : SkiplistsStructure K V),
      Reachable cmp rand_max SL → run_ops SL ops = some SL1 → Reachable cmp rand_max SL1 := by
  intro ops
  induction ops with
  | nil =>
    intro SL SL1 hr h
    simp only [run_ops, Option.some.injEq] at h
    exact h ▸ hr
  | cons op ops ih =>
    intro SL SL1 hr h
    rw [run_ops] at h
    cases h1 : run_op SL op with
    | none => simp [h1] at h
    | some S =>
      simp only [h1] at h
      refine ih S SL1 ?_ h
      cases op with
      | insert key value =>
        simp only [run_op, Option.map_eq_some'] at h1
        obtain ⟨⟨b, S'⟩, hins, hS⟩ := h1
        simp only at hS
        subst hS
        exact Reachable.insert hr hins
      | remove key =>
        simp only [run_op, Option.map_eq_some'] at h1
        obtain ⟨⟨b, S'⟩, hrem, hS⟩ := h1
        simp only at hS
        subst hS
        exact Reachable.remove hr hrem

theorem reachable_of_disallow {cmp : Option K → Option K → Int} {rand_max : Nat}
    {SL : SkiplistsStructure K V} (h : ReachableDisallow cmp rand_max SL) :
    Reachable cmp rand_max SL := by
  induction h with
  | new prng f => exact Reachable.disallow_duplicates f (Reachable.new prng)
  | insert _ h2 ih => exact Reachable.insert ih h2
  | remove _ h2 ih => exact Reachable.remove ih h2
  | lookup_with_finger _ h2 ih => exact Reachable.lookup_with_finger ih h2
  | disallow_duplicates f _ ih => exact Reachable.disallow_duplicates f ih

/-- The keys met by a traversal, related to the entries. -/
theorem absent_iff {cmp : Option K → Option K → Int} (hcmp : IsOrderCmp cmp) (key : K)
    (es : List (Entry K V)) :
    (∀ p ∈ (pairs es).map as_visited, cmp p.1 (some key) ≠ 0) ↔ ∀ e ∈ es, e.key ≠ key := by
  simp only [pairs, List.map_map, List.mem_map, Function.comp, as_visited]
  constructor
  · intro h e he
    have := h _ ⟨e, he, rfl⟩
    simpa [(hcmp _ _).2] using this
  · rintro h p ⟨e, he, rfl⟩
    simpa [(hcmp _ _).2] using h e he

end ClaimLemmas

section Frames
variable {K V : Type} [LinearOrder K]

theorem store_forward_length {mem mem1 : Memory K V} {p k v : Nat}
    (h : store_forward mem p k v = some mem1) : mem1.length = mem.length :=
  (store_forward_spec h).1.1

theorem splice_length (update : List Nat) (q : Nat) : ∀ (k : Nat) (mem mem1 : Memory K V),
    splice update q k mem = some mem1 → mem1.length = mem.length := by
  have step : ∀ (k : Nat) (mem mem1 : Memory K V),
      splice_step update q k mem = some mem1 → mem1.length = mem.length := by
    intro k mem mem1 h
    unfold splice_step at h
    cases hu : update[k]? with
    | none => simp [hu] at h
    | some p =>
      simp only [hu] at h
      cases hx : load_forward mem p k with
      | none => simp [hx] at h
      | some x =>
        simp only [hx] at h
        cases hs : store_forward mem q k x with
        | none => simp [hs] at h
        | some m1 =>
          simp only [hs] at h
          rw [store_forward_length h, store_forward_length hs]
  intro k
  induction k with
  | zero => intro mem mem1 h; exact step 0 mem mem1 h
  | succ k ih =>
    intro mem mem1 h
    rw [splice] at h
    cases hs : splice_step update q (k + 1) mem with
    | none => simp [hs] at h
    | some m1 =>
      simp only [hs] at h
      rw [ih _ _ h, step _ _ _ hs]

/-- What a returning `skiplists_insert` leaves alone, read off its text. -/
theorem insert_frame {SL SL1 : SkiplistsStructure K V} {key : K} {value : Option V} {b : Bool}
    (h : skiplists_insert SL key value = some (b, SL1)) :
    SL1.init_fingers = true ∧ SL1.L.Head = SL.L.Head ∧ SL1.L.Tail = SL.L.Tail ∧
    SL1.L.finger = SL.L.finger ∧
    (b = false → SL1.L = SL.L ∧ SL1.size = SL.size ∧ SL1.R = SL.R ∧ SL1.prng = SL.prng ∧
      SL.allow_duplicates = false ∧
      ∃ t v, store_value SL.mem t v = some SL1.mem) ∧
    (b = true → ∃ k R1 prng1, random_level SL.R SL.prng = some (k, R1, prng1) ∧
      SL1.L.level = (if k > SL.L.level then k else SL.L.level) ∧ SL1.R = R1 ∧
      SL1.prng = prng1 ∧ SL1.size = SL.size + 1 ∧ SL1.mem.length = SL.mem.length + 1) := by
  unfold skiplists_insert at h
  cases hd : descent SL.mem SL.L.Tail SL.compare_function key (descent_fuel SL.mem SL.L.level)
      SL.L.Head SL.L.level (List.replicate SKIPLISTS_MAX_NUMBER_OF_LEVELS 0) with
  | none => simp [hd] at h
  | some r =>
    obtain ⟨p, q, update⟩ := r
    simp only [hd] at h
    cases hk : key_found_at SL.mem SL.L.Tail SL.compare_function key q with
    | none => simp [hk] at h
    | some key_found =>
      simp only [hk] at h
      split at h
      · simp at h
      · rename_i last update1 hw
        split at h
        · rename_i hup
          split at h
          · cases hs : store_value SL.mem last value with
            | none => simp [hs] at h
            | some m1 =>
              simp only [hs, Option.some.injEq, Prod.mk.injEq] at h
              obtain ⟨hb, hS⟩ := h
              subst hS; subst hb
              exact ⟨rfl, rfl, rfl, rfl, fun _ => ⟨rfl, rfl, rfl, rfl, hup.1, _, _, hs⟩,
                fun hc => by simp at hc⟩
          · rename_i f hf
            cases hl : load_value SL.mem last with
            | none => simp [hl] at h
            | some old =>
              simp only [hl] at h
              cases hs : store_value SL.mem last (f old value) with
              | none => simp [hs] at h
              | some m1 =>
                simp only [hs, Option.some.injEq, Prod.mk.injEq] at h
                obtain ⟨hb, hS⟩ := h
                subst hS; subst hb
                exact ⟨rfl, rfl, rfl, rfl, fun _ => ⟨rfl, rfl, rfl, rfl, hup.1, _, _, hs⟩,
                  fun hc => by simp at hc⟩
        · cases hr : random_level SL.R SL.prng with
          | none => simp [hr] at h
          | some r =>
            obtain ⟨k, R1, prng1⟩ := r
            simp only [hr] at h
            split at h
            · simp at h
            · rename_i update2 hu2
              cases hs1 : store_key (skiplists_new_node_of_level SL.mem k).2
                  (skiplists_new_node_of_level SL.mem k).1 (some key) with
              | none => simp [hs1] at h
              | some m1 =>
                simp only [hs1] at h
                cases hs2 : store_value m1 (skiplists_new_node_of_level SL.mem k).1 value with
                | none => simp [hs2] at h
                | some m2 =>
                  simp only [hs2] at h
                  cases hs3 : splice update2 (skiplists_new_node_of_level SL.mem k).1 k m2 with
                  | none => simp [hs3] at h
                  | some m3 =>
                    simp only [hs3, Option.some.injEq, Prod.mk.injEq] at h
                    obtain ⟨hb, hS⟩ := h
                    subst hS; subst hb
                    refine ⟨rfl, rfl, rfl, rfl, fun hc => by simp at hc,
                      fun _ => ⟨k, R1, prng1, rfl, rfl, rfl, rfl, rfl, ?_⟩⟩
                    show m3.length = SL.mem.length + 1
                    rw [splice_length _ _ _ _ _ hs3, (store_value_spec hs2).1,
                      (store_key_spec hs1).1]
                    simp [skiplists_new_node_of_level]

end Frames

section Frames2
variable {K V : Type} [LinearOrder K]

/-- The level that the shrink loop of `skiplists_remove` stops at is `0` or a
level on which `Head` does not point to `Tail`. -/
theorem shrink_level_top (mem : Memory K V) (Head Tail : Nat) : ∀ (m m1 : Nat),
    shrink_level mem Head Tail m = some m1 →
    m1 ≤ m ∧ (m1 = 0 ∨ ∃ x, load_forward mem Head m1 = some x ∧ x ≠ Tail) := by
  intro m
  induction m with
  | zero =>
    intro m1 h
    unfold shrink_level at h
    cases hx : load_forward mem Head 0 with
    | none => simp [hx] at h
    | some x =>
      simp only [hx, Option.some.injEq] at h
      exact ⟨by omega, Or.inl h.symm⟩
  | succ m ih =>
    intro m1 h
    rw [shrink_level] at h
    cases hx : load_forward mem Head (m + 1) with
    | none => simp [hx] at h
    | some x =>
      simp only [hx] at h
      split at h
      · obtain ⟨h1, h2⟩ := ih m1 h
        exact ⟨by omega, h2⟩
      · rename_i hne
        simp only [Option.some.injEq] at h
        subst h
        exact ⟨le_refl _, Or.inr ⟨x, hx, hne⟩⟩

/-- What a returning `skiplists_remove` leaves alone, read off its text. -/
theorem remove_frame {SL SL1 : SkiplistsStructure K V} {key : K} {b : Bool}
    (h : skiplists_remove SL key = some (b, SL1)) :
    SL1.init_fingers = true ∧ SL1.L.Head = SL.L.Head ∧ SL1.L.Tail = SL.L.Tail ∧
    SL1.L.finger = SL.L.finger ∧ SL1.R = SL.R ∧ SL1.prng = SL.prng ∧
    (b = false → SL1.L = SL.L ∧ SL1.size = SL.size ∧ SL1.mem = SL.mem) ∧
    (b = true → SL1.size = SL.size - 1 ∧
      shrink_level SL1.mem SL.L.Head SL.L.Tail SL.L.level = some SL1.L.level) := by
  unfold skiplists_remove at h
  cases hd : descent SL.mem SL.L.Tail SL.compare_function key (descent_fuel SL.mem SL.L.level)
      SL.L.Head SL.L.level (List.replicate SKIPLISTS_MAX_NUMBER_OF_LEVELS 0) with
  | none => simp [hd] at h
  | some r =>
    obtain ⟨p, q, update⟩ := r
    simp only [hd] at h
    cases hk : key_found_at SL.mem SL.L.Tail SL.compare_function key q with
    | none => simp [hk] at h
    | some key_found =>
      simp only [hk] at h
      split at h
      · cases hu : remove_unlink update q SL.L.level (SL.L.level + 1) 0 SL.mem with
        | none => simp [hu] at h
        | some m1 =>
          simp only [hu] at h
          cases hn : skiplists_remove_node m1 q with
          | none => simp [hn] at h
          | some m2 =>
            simp only [hn] at h
            cases hs : shrink_level m2 SL.L.Head SL.L.Tail SL.L.level with
            | none => simp [hs] at h
            | some m =>
              simp only [hs, Option.some.injEq, Prod.mk.injEq] at h
              obtain ⟨hb, hS⟩ := h
              subst hS; subst hb
              exact ⟨rfl, rfl, rfl, rfl, rfl, rfl, fun hc => by simp at hc, fun _ => ⟨rfl, hs⟩⟩
      · simp only [Option.some.injEq, Prod.mk.injEq] at h
        obtain ⟨hb, hS⟩ := h
        subst hS; subst hb
        exact ⟨rfl, rfl, rfl, rfl, rfl, rfl, fun _ => ⟨rfl, rfl, rfl⟩, fun hc => by simp at hc⟩

/-- The chain of level `l` over linked entries: the entries that reach level `l`. -/
theorem chain_from_spec (mem : Memory K V) (T l : Nat) :
    ∀ (fuel : Nat) (post : List (Entry K V)) (p : Nat),
      ChainOk mem T post [] → (∀ e ∈ post, e.id ≠ T) →
      load_forward mem p l = some (nextAt T l post) → post.length < fuel →
      chain_from mem T l fuel p
        = some ((post.filter (fun e => decide (l ≤ e.level))).map (fun e => e.id)) := by
  intro fuel
  induction fuel with
  | zero => intro post p _ _ _ hf; omega
  | succ fuel ih =>
    intro post p hch hT hp hf
    rw [chain_from, hp]
    rcases nextAt_cases T l post with ⟨h1, h2⟩ | ⟨a, e, b, h1, h2, h3, h4⟩
    · have : post.filter (fun e => decide (l ≤ e.level)) = [] := by
        rw [List.filter_eq_nil_iff]
        intro x hx
        have := h2 x hx
        simp; omega
      simp [h1, this]
    · have hne : nextAt T l post ≠ T := by
        rw [h4]; exact hT e (by rw [h1]; simp)
      simp only [hne, if_false]
      subst h1
      rw [ChainOk_append] at hch
      have hnode := hch.2.1
      have hrec := ih b e.id hch.2.2 (fun x hx => hT x (by simp [hx]))
        (by have := hnode.2.2.2 l h3; simpa using this)
        (by simp at hf; omega)
      rw [h4, hrec]
      have ha : a.filter (fun e => decide (l ≤ e.level)) = [] := by
        rw [List.filter_eq_nil_iff]
        intro x hx
        have := h2 x hx
        simp; omega
      simp [List.filter_append, ha, List.filter_cons, h3]

theorem level_chain_spec {SL : SkiplistsStructure K V} {es : List (Entry K V)}
    (h : ListInv SL es) (l : Nat) (hl : l ≤ 17) :
    level_chain SL l
      = some ((es.filter (fun e => decide (l ≤ e.level))).map (fun e => e.id)) :=
  chain_from_spec SL.mem SL.L.Tail l _ es SL.L.Head h.chain h.ne_tail (h.head_fwd l hl)
    (by have := h.mem_len; omega)

end Frames2

section LevelInv
variable {K V : Type} [LinearOrder K]

/-- `Head` points to `Tail` on level `j` exactly when no entry reaches level `j`. -/
theorem head_tail_iff {SL : SkiplistsStructure K V} {es : List (Entry K V)}
    (h : ListInv SL es) (j : Nat) (hj : j ≤ 17) :
    load_forward SL.mem SL.L.Head j = some SL.L.Tail ↔ ∀ x ∈ es, x.level < j := by
  rw [h.head_fwd j hj, Option.some.injEq]
  exact nextAt_eq_tail_iff _ _ _ h.ne_tail

theorem top_of_entry {SL : SkiplistsStructure K V} {es : List (Entry K V)}
    (h : ListInv SL es) (e : Entry K V) (he : e ∈ es) (hl : SL.L.level ≤ e.level) :
    ∃ x, load_forward SL.mem SL.L.Head SL.L.level = some x ∧ x ≠ SL.L.Tail := by
  refine ⟨_, h.head_fwd _ h.level_le, ?_⟩
  intro heq
  have := (nextAt_eq_tail_iff _ _ _ h.ne_tail).1 heq e he
  omega

theorem entry_of_top {SL : SkiplistsStructure K V} {es : List (Entry K V)}
    (h : ListInv SL es) (x : Nat) (hx : load_forward SL.mem SL.L.Head SL.L.level = some x)
    (hne : x ≠ SL.L.Tail) : ∃ e ∈ es, SL.L.level ≤ e.level := by
  by_contra hcon
  push_neg at hcon
  have := (head_tail_iff h _ h.level_le).2 hcon
  rw [this] at hx
  exact hne (Option.some.inj hx).symm

/-- A returning `skiplists_insert` that reports a new node: the node has the
level that `random_level` drew and sits at the insertion point. -/
theorem insert_true_result {SL SL1 : SkiplistsStructure K V} {es : List (Entry K V)}
    (h : ListInv SL es) (hcmp : IsOrderCmp SL.compare_function) {key : K} {value : Option V}
    (hins : skiplists_insert SL key value = some (true, SL1)) :
    ¬ (SL.allow_duplicates = false ∧ (hit key es).isSome = true) ∧
    ∃ k R1 prng1, random_level SL.R SL.prng = some (k, R1, prng1) ∧
      es = (insert_point SL.duplicate_rule key es).1 ++ (insert_point SL.duplicate_rule key es).2 ∧
      ListInv SL1 ((insert_point SL.duplicate_rule key es).1 ++
        (⟨SL.mem.length, k, key, value⟩ : Entry K V) ::
        (insert_point SL.duplicate_rule key es).2) ∧
      SL1.L.level = (if k > SL.L.level then k else SL.L.level) ∧
      SL1.mem.length = SL.mem.length + 1 := by
  have hc : ¬ (SL.allow_duplicates = false ∧ (hit key es).isSome = true) := by
    intro hc
    obtain ⟨S, h1, -⟩ := insert_update_spec h hcmp key value hc.1 hc.2
    rw [h1] at hins
    simp at hins
  refine ⟨hc, ?_⟩
  obtain ⟨-, -, -, -, -, ft⟩ := insert_frame hins
  obtain ⟨k, R1, prng1, hr, hlev, -, -, -, hlen⟩ := ft rfl
  obtain ⟨-, hs⟩ := insert_new_spec h hcmp key value hc
  obtain ⟨S, h1, h2, -⟩ := hs k R1 prng1 hr
  rw [h1] at hins
  simp only [Option.some.injEq, Prod.mk.injEq, true_and] at hins
  subst hins
  refine ⟨k, R1, prng1, hr, (insert_point_spec _ key es h.sorted).1, ?_, hlev, hlen⟩
  have habs : (abs_insert SL.allow_duplicates SL.duplicate_rule SL.duplicate_function
      key value SL.mem.length k es).2 = (insert_point SL.duplicate_rule key es).1 ++
        (⟨SL.mem.length, k, key, value⟩ : Entry K V) ::
        (insert_point SL.duplicate_rule key es).2 := by
    unfold abs_insert
    rw [if_neg hc]
  rw [← habs]
  exact h2

/-- A returning `skiplists_insert` that reports no new node: one entry with the
key has its value replaced. -/
theorem insert_false_result {SL SL1 : SkiplistsStructure K V} {es : List (Entry K V)}
    (h : ListInv SL es) (hcmp : IsOrderCmp SL.compare_function) {key : K} {value : Option V}
    (hins : skiplists_insert SL key value = some (false, SL1)) :
    SL.allow_duplicates = false ∧
    ∃ t v_new, update_target SL.duplicate_rule key es = some t ∧ t ∈ es ∧ t.key = key ∧
      ListInv SL1 (es.map (set_value t.id v_new)) ∧
      (SL.duplicate_function = none → v_new = value) ∧
      (∀ f, SL.duplicate_function = some f → v_new = f t.value value) := by
  have hc : SL.allow_duplicates = false ∧ (hit key es).isSome = true := by
    by_contra hc
    obtain ⟨hn, hs⟩ := insert_new_spec h hcmp key value hc
    cases hr : random_level SL.R SL.prng with
    | none => rw [hn hr] at hins; simp at hins
    | some r =>
      obtain ⟨k, R1, prng1⟩ := r
      obtain ⟨S, h1, -⟩ := hs k R1 prng1 hr
      rw [h1] at hins
      simp at hins
  refine ⟨hc.1, ?_⟩
  obtain ⟨S, h1, h2, -⟩ := insert_update_spec h hcmp key value hc.1 hc.2
  rw [h1] at hins
  simp only [Option.some.injEq, Prod.mk.injEq, true_and] at hins
  subst hins
  have ht : ∃ t, update_target SL.duplicate_rule key es = some t ∧ t ∈ es ∧ t.key = key := by
    obtain ⟨e0, he0⟩ := Option.isSome_iff_exists.1 hc.2
    obtain ⟨r0, hhi, hkey⟩ := hit_some_iff.1 he0
    unfold update_target
    split
    · have hrun : keyRun key (hi key es) ≠ [] := by
        rw [hhi]; simp [keyRun, List.takeWhile_cons, hkey]
      obtain ⟨t, ht1, ht2, -⟩ := prevAt_zero_getLast 0 _ hrun
      exact ⟨t, ht1, hi_sub key es t ((List.takeWhile_sublist _).subset ht2),
        keyRun_all_eq key _ t ht2⟩
    · exact ⟨e0, he0, (hit_mem he0).1, hkey⟩
  obtain ⟨t, ht1, ht2, ht3⟩ := ht
  unfold abs_insert at h2
  rw [if_pos hc, ht1] at h2
  cases hd : SL.duplicate_function with
  | none =>
    rw [hd] at h2
    exact ⟨t, value, ht1, ht2, ht3, h2, fun _ => rfl, fun f hf => by simp at hf⟩
  | some f =>
    rw [hd] at h2
    exact ⟨t, f t.value value, ht1, ht2, ht3, h2, fun hf => by simp at hf,
      fun g hg => by rw [Option.some.inj hg]⟩

theorem reach_top {cmp : Option K → Option K → Int} (hcmp : IsOrderCmp cmp) {rand_max : Nat}
    {SL : SkiplistsStructure K V} (hr : Reachable cmp rand_max SL) : TopOk SL := by
  induction hr with
  | new prng => exact Or.inl rfl
  | @insert SL SL1 key value b hr0 hins ih =>
    obtain ⟨es, hinv, hc⟩ := reach_inv hcmp hr0
    by_cases hz : SL1.L.level = 0
    · exact Or.inl hz
    · right
      cases b with
      | false =>
        obtain ⟨-, -, -, -, ff, -⟩ := insert_frame hins
        obtain ⟨hL, -⟩ := ff rfl
        obtain ⟨-, t, w, -, -, -, h2, -⟩ := insert_false_result hinv (hc ▸ hcmp) hins
        rcases ih with h0 | ⟨x, hx, hne⟩
        · rw [hL] at hz; exact absurd h0 hz
        · obtain ⟨e, he, hle⟩ := entry_of_top hinv x hx hne
          exact top_of_entry h2 _ (List.mem_map_of_mem _ he)
            (by rw [hL, (set_value_id _ _ e).2.1]; exact hle)
      | true =>
        obtain ⟨-, k, R1, prng1, -, hes, h2, hlev, -⟩ := insert_true_result hinv (hc ▸ hcmp) hins
        by_cases hk : k > SL.L.level
        · rw [if_pos hk] at hlev
          exact top_of_entry h2 ⟨SL.mem.length, k, key, value⟩ (by simp) (by rw [hlev])
        · rw [if_neg hk] at hlev
          rcases ih with h0 | ⟨x, hx, hne⟩
          · rw [hlev] at hz; exact absurd h0 hz
          · obtain ⟨e, he, hle⟩ := entry_of_top hinv x hx hne
            refine top_of_entry h2 e ?_ (by rw [hlev]; exact hle)
            rw [hes] at he
            rcases List.mem_append.1 he with h1 | h1
            · exact List.mem_append_left _ h1
            · exact List.mem_append_right _ (List.mem_cons_of_mem _ h1)
  | @remove SL SL1 key b hr0 hrem ih =>
    obtain ⟨f1, f2, f3, -, -, -, ff, ft⟩ := remove_frame hrem
    cases b with
    | false =>
      obtain ⟨hL, -, hm⟩ := ff rfl
      unfold TopOk
      rw [hL, hm]
      exact ih
    | true =>
      obtain ⟨-, hs⟩ := ft rfl
      obtain ⟨-, htop⟩ := shrink_level_top _ _ _ _ _ hs
      unfold TopOk
      rw [f2, f3]
      exact htop
  | @lookup_with_finger SL SL1 key v hr0 hl ih =>
    obtain ⟨g1, -, -, -, -, g6, g7, g8, -⟩ := lwf_frame hl
    unfold TopOk
    rw [g1, g6, g7, g8]
    exact ih
  | allow_duplicates rule _ ih => exact ih
  | disallow_duplicates f _ ih => exact ih

end LevelInv

section GenInv
variable {K V : Type} [LinearOrder K]

theorem random_level_fields {R R1 : SkiplistsRandomStructure} {prng prng1 : List Nat} {k : Nat}
    (h : random_level R prng = some (k, R1, prng1)) :
    R1.max_level = R.max_level ∧ R1.max_number_of_levels = R.max_number_of_levels ∧
    R1.inverse_p = R.inverse_p ∧ R1.bits_per_use = R.bits_per_use ∧
    R1.bits_in_random = R.bits_in_random := by
  unfold random_level at h
  cases hl : random_level_loop (random_level_fuel R prng) R prng 0 with
  | none => simp [hl] at h
  | some r =>
    obtain ⟨l, R2, prng2⟩ := r
    simp only [hl, Option.some.injEq, Prod.mk.injEq] at h
    obtain ⟨-, h2, -⟩ := h
    subst h2
    exact random_level_loop_fields _ _ _ _ _ _ _ hl

/-- The constants of the level generator in every reachable state. -/
theorem reach_gen {cmp : Option K → Option K → Int} {rand_max : Nat}
    {SL : SkiplistsStructure K V} (hr : Reachable cmp rand_max SL) :
    SL.R.max_number_of_levels = 18 ∧ SL.R.max_level = 17 ∧ SL.R.inverse_p = 2 ∧
    SL.R.bits_per_use = 2 ∧ SL.R.bits_in_random = count_bits rand_max := by
  induction hr with
  | new prng => exact ⟨rfl, rfl, rfl, count_bits_two, rfl⟩
  | @insert SL SL1 key value b _ hins ih =>
    obtain ⟨-, -, -, -, ff, ft⟩ := insert_frame hins
    cases b with
    | false =>
      obtain ⟨-, -, hR, -⟩ := ff rfl
      rw [hR]; exact ih
    | true =>
      obtain ⟨k, R1, prng1, hrl, -, hR, -⟩ := ft rfl
      obtain ⟨f1, f2, f3, f4, f5⟩ := random_level_fields hrl
      rw [hR, f1, f2, f3, f4, f5]; exact ih
  | remove _ hrem ih =>
    obtain ⟨-, -, -, -, hR, -⟩ := remove_frame hrem
    rw [hR]; exact ih
  | lookup_with_finger _ hl ih =>
    obtain ⟨-, -, hR, -⟩ := lwf_frame hl
    rw [hR]; exact ih
  | allow_duplicates rule _ ih => exact ih
  | disallow_duplicates f _ ih => exact ih

end GenInv


section FingerInit
variable {K V : Type} [LinearOrder K]

/-- `skiplists_lookup_with_finger` when `init_fingers` is set: a descent from
`Head` at the list's level, with the result of `skiplists_lookup`. -/
theorem lwf_init_spec {SL : SkiplistsStructure K V} {es : List (Entry K V)}
    (h : ListInv SL es) (hcmp : IsOrderCmp SL.compare_function)
    (hinit : SL.init_fingers = true) (key : K) :
    finger_start SL key = some (SL.L.Head, SL.L.level, false, 0) ∧
    ∃ SL1, skiplists_lookup_with_finger SL key
        = some ((hit key es).bind (fun e => e.value), SL1) ∧
      SL1.init_fingers = false := by
  have hfs : finger_start SL key = some (SL.L.Head, SL.L.level, false, 0) := by
    simp [finger_start, hinit]
  refine ⟨hfs, ?_⟩
  obtain ⟨u, h1, -⟩ := descent_head h hcmp key SL.L.finger h.finger_len
  unfold skiplists_lookup_with_finger
  rw [hfs]
  simp only [Bool.false_eq_true, if_false, h1, key_found_hi h hcmp key]
  cases hh : hit key es with
  | none =>
    exact ⟨{ SL with init_fingers := false, L := { SL.L with finger := u } }, by simp, rfl⟩
  | some e =>
    obtain ⟨h2, h3, -⟩ := hit_id hh
    rw [← h.tail] at h2
    exact ⟨{ SL with init_fingers := false, L := { SL.L with finger := u } },
      by simp [h2, (ChainOk_mem h.chain h3).2.2], rfl⟩

end FingerInit


section CountBits

end CountBits


section ClaimLemmas2
variable {K V : Type} [LinearOrder K]

theorem present_iff_hit {cmp : Option K → Option K → Int} (hcmp : IsOrderCmp cmp) (key : K)
    (es : List (Entry K V)) (hs : es.Pairwise (fun a b => a.key ≤ b.key)) :
    (∃ p ∈ (pairs es).map as_visited, cmp p.1 (some key) = 0) ↔ (hit key es).isSome = true := by
  constructor
  · rintro ⟨p, hp, hp2⟩
    cases hh : hit key es with
    | some e0 => rfl
    | none =>
      exfalso
      exact (absent_iff hcmp key es).2 ((hit_none_iff hs).1 hh) p hp hp2
  · intro h
    by_contra hcon
    push_neg at hcon
    have := (hit_none_iff hs).2 ((absent_iff hcmp key es).1 hcon)
    rw [this] at h
    simp at h

theorem traversal_eq {SL : SkiplistsStructure K V} {es : List (Entry K V)}
    (h : ListInv SL es) {out : List (Option K × Option V)} (hout : traversal SL = some out) :
    out = (pairs es).map as_visited := by
  rw [traversal_spec h] at hout
  exact (Option.some.inj hout).symm

/-- Replacing the value of one entry changes that entry alone. -/
theorem map_set_value_split (es : List (Entry K V)) (hn : (es.map (fun e => e.id)).Nodup)
    (t : Entry K V) (ht : t ∈ es) (v : Option V) :
    ∃ pre post, es = pre ++ t :: post ∧
      es.map (set_value t.id v) = pre ++ { t with value := v } :: post := by
  obtain ⟨pre, post, hes⟩ := List.append_of_mem ht
  refine ⟨pre, post, hes, ?_⟩
  subst hes
  rw [List.map_append, List.nodup_append] at hn
  simp only [List.map_cons, List.nodup_cons] at hn
  obtain ⟨-, ⟨h2, -⟩, h3⟩ := hn
  rw [List.map_append, List.map_cons]
  have hpre : pre.map (set_value t.id v) = pre := by
    apply pairs_map_set_value_of_not_mem
    intro x hx hid
    exact h3 (List.mem_map_of_mem (fun e => e.id) hx) (by simp [hid])
  have hpost : post.map (set_value t.id v) = post := by
    apply pairs_map_set_value_of_not_mem
    intro x hx hid
    exact h2 (by rw [← hid]; exact List.mem_map_of_mem (fun e => e.id) hx)
  rw [hpre, hpost]
  simp [set_value]

theorem visited_append_cons (pre post : List (Entry K V)) (e : Entry K V) :
    (pairs (pre ++ e :: post)).map as_visited
      = (pairs pre).map as_visited ++ (some e.key, e.value) :: (pairs post).map as_visited := by
  simp [pairs, as_visited]

theorem visited_append (pre post : List (Entry K V)) :
    (pairs (pre ++ post)).map as_visited
      = (pairs pre).map as_visited ++ (pairs post).map as_visited := by
  simp [pairs]

theorem run_two_inserts {SL SL2 : SkiplistsStructure K V} {k1 k2 : K} {v1 v2 : Option V}
    (h : run_ops SL [Op.insert k1 v1, Op.insert k2 v2] = some SL2) :
    ∃ b1 S1 b2, skiplists_insert SL k1 v1 = some (b1, S1) ∧
      skiplists_insert S1 k2 v2 = some (b2, SL2) := by
  simp only [run_ops, run_op] at h
  cases h1 : skiplists_insert SL k1 v1 with
  | none => simp [h1] at h
  | some r1 =>
    obtain ⟨b1, S1⟩ := r1
    simp only [h1, Option.map_some'] at h
    cases h2 : skiplists_insert S1 k2 v2 with
    | none => simp [h2] at h
    | some r2 =>
      obtain ⟨b2, S2⟩ := r2
      simp only [h2, Option.map_some', Option.some.injEq] at h
      subst h
      exact ⟨b1, S1, b2, rfl, h2⟩

/-- When a key has a single entry, no entry after the first one found has it. -/
theorem single_entry_rest {cmp : Option K → Option K → Int} (hcmp : IsOrderCmp cmp) (key : K)
    (es : List (Entry K V)) (e0 : Entry K V) (r0 : List (Entry K V))
    (hhi : hi key es = e0 :: r0) (hkey : e0.key = key)
    (hcount : (((pairs es).map as_visited).filter
      (fun p => decide (cmp p.1 (some key) = 0))).length = 1) :
    ∀ x ∈ r0, x.key ≠ key := by
  intro x hx hxk
  have hes : es = lo key es ++ e0 :: r0 := by rw [← hhi, lo_append_hi]
  have hfilt : ((pairs es).map as_visited).filter (fun p => decide (cmp p.1 (some key) = 0))
      = ((es.filter (fun e => decide (e.key = key))).map
          (fun e => ((some e.key, e.value) : Option K × Option V))) := by
    simp only [pairs, List.map_map, List.filter_map]
    congr 1
    apply List.filter_congr
    intro e _
    simp [Function.comp, as_visited, (hcmp _ _).2]
  rw [hfilt, List.length_map, hes, List.filter_append, List.length_append,
    List.filter_cons] at hcount
  simp only [hkey, decide_True, if_true, List.length_cons] at hcount
  have hz : (r0.filter (fun e => decide (e.key = key))).length = 0 := by omega
  have hnil := List.length_eq_zero.1 hz
  have hmem : x ∈ r0.filter (fun e => decide (e.key = key)) := by
    rw [List.mem_filter]; exact ⟨hx, by simpa using hxk⟩
  rw [hnil] at hmem
  simp at hmem

/-- The entry that an insert updates is the one that a lookup finds, unless the
rule is `FIRST_IN_FIRST_OUT` and the key has several entries. -/
theorem update_target_eq_hit {cmp : Option K → Option K → Int} (hcmp : IsOrderCmp cmp)
    (rule : Int) (key : K) (es : List (Entry K V)) (hsome : (hit key es).isSome = true)
    (hcond : rule ≠ FIRST_IN_FIRST_OUT ∨ (((pairs es).map as_visited).filter
      (fun p => decide (cmp p.1 (some key) = 0))).length = 1) :
    update_target rule key es = hit key es := by
  unfold update_target
  split
  · rename_i hrule
    rcases hcond with h | h
    · exact absurd hrule h
    · obtain ⟨e0, he0⟩ := Option.isSome_iff_exists.1 hsome
      obtain ⟨r0, hhi, hkey⟩ := hit_some_iff.1 he0
      have hr0 := single_entry_rest hcmp key es e0 r0 hhi hkey h
      have hrun : keyRun key (e0 :: r0) = [e0] := by
        unfold keyRun
        rw [List.takeWhile_cons, if_pos (by simpa using hkey)]
        cases r0 with
        | nil => rfl
        | cons x r =>
          rw [List.takeWhile_cons, if_neg (by simpa using hr0 x (by simp))]
      rw [hhi, hrun, he0]
      rfl
  · rfl

theorem entry_of_id {es : List (Entry K V)} (hn : (es.map (fun e => e.id)).Nodup)
    {a b : Entry K V} (ha : a ∈ es) (hb : b ∈ es) (hid : a.id = b.id) : a = b :=
  List.inj_on_of_nodup_map hn ha hb hid

end ClaimLemmas2

section Bags
variable {K V : Type} [LinearOrder K]

theorem entry_values_append (key : K) (a b : List (Entry K V)) :
    entry_values key (a ++ b) = entry_values key a ++ entry_values key b := by
  simp [entry_values, List.filter_append]

theorem entry_values_cons (key : K) (e : Entry K V) (b : List (Entry K V)) :
    entry_values key (e :: b)
      = if e.key = key then e.value :: entry_values key b else entry_values key b := by
  by_cases h : e.key = key <;> simp [entry_values, List.filter_cons, h]

theorem entry_values_nil_of (key : K) (a : List (Entry K V)) (h : ∀ x ∈ a, x.key ≠ key) :
    entry_values key a = [] := by
  unfold entry_values
  rw [List.map_eq_nil_iff, List.filter_eq_nil_iff]
  intro x hx
  simpa using h x hx

/-- After the leading entries with key `key` of a sorted list whose keys are
not below `key`, no entry has that key. -/
theorem afterRun_ne (key : K) : ∀ (l : List (Entry K V)),
    l.Pairwise (fun a b => a.key ≤ b.key) → (∀ x ∈ l, key ≤ x.key) →
    ∀ x ∈ afterRun key l, x.key ≠ key := by
  intro l
  induction l with
  | nil => intro _ _ x hx; simp [afterRun] at hx
  | cons e r ih =>
    intro hs hge x hx
    by_cases he : e.key = key
    · have : afterRun key (e :: r) = afterRun key r := by
        simp [afterRun, List.dropWhile_cons, he]
      rw [this] at hx
      exact ih (List.pairwise_cons.1 hs).2 (fun y hy => hge y (List.mem_cons_of_mem _ hy)) x hx
    · have : afterRun key (e :: r) = e :: r := by
        simp [afterRun, List.dropWhile_cons, he]
      rw [this] at hx
      have hlt : key < e.key := lt_of_le_of_ne (hge e (by simp)) (Ne.symm he)
      rcases List.mem_cons.1 hx with rfl | hx
      · exact he
      · have := (List.pairwise_cons.1 hs).1 x hx
        exact fun h => absurd (h ▸ this) (not_le.2 hlt)

theorem entry_values_abs_insert (rule : Int) (dupf : Option (Option V → Option V → Option V))
    (k : K) (v : Option V) (id lvl : Nat) (es : List (Entry K V))
    (hs : es.Pairwise (fun a b => a.key ≤ b.key)) (key : K) :
    entry_values key (abs_insert true rule dupf k v id lvl es).2
      = bag_apply rule key (entry_values key es) (Op.insert k v) := by
  have hab : (abs_insert true rule dupf k v id lvl es).2
      = (insert_point rule k es).1 ++ (⟨id, lvl, k, v⟩ : Entry K V) :: (insert_point rule k es).2 := by
    simp [abs_insert]
  obtain ⟨hes, -, -⟩ := insert_point_spec rule k es hs
  rw [hab, entry_values_append, entry_values_cons]
  simp only [bag_apply]
  by_cases hk : k = key
  · subst hk
    simp only [if_true]
    by_cases hrule : rule = FIRST_IN_FIRST_OUT
    · simp only [hrule, if_true]
      have h2 : ∀ x ∈ (insert_point FIRST_IN_FIRST_OUT k es).2, x.key ≠ k := by
        unfold insert_point
        split
        · exact afterRun_ne k _ ((hs.sublist (List.dropWhile_sublist _)))
            (hi_all_ge k es hs)
        · rename_i hn
          have hnone : hit k es = none := by
            cases hh : hit k es with
            | none => rfl
            | some e => exact absurd ⟨by rw [hh]; rfl, rfl⟩ hn
          intro x hx
          exact (hit_none_iff hs).1 hnone x (hi_sub k es x hx)
      subst hrule
      have hes2 : entry_values k es = entry_values k (insert_point FIRST_IN_FIRST_OUT k es).1 := by
        conv_lhs => rw [hes]
        rw [entry_values_append, entry_values_nil_of k _ h2, List.append_nil]
      rw [hes2, entry_values_nil_of k _ h2]
    · simp only [hrule, if_false]
      have hip : insert_point rule k es = (lo k es, hi k es) := by
        unfold insert_point
        rw [if_neg (fun h => hrule h.2)]
      rw [hip]
      have h1 : entry_values k (lo k es) = [] :=
        entry_values_nil_of k _ (fun x hx => ne_of_lt (lo_all_lt k es x hx))
      have hes2 : entry_values k es = entry_values k (hi k es) := by
        conv_lhs => rw [← lo_append_hi k es]
        rw [entry_values_append, h1, List.nil_append]
      rw [h1, hes2, List.nil_append]
  · simp only [hk, if_false]
    conv_rhs => rw [hes]
    rw [entry_values_append]

theorem entry_values_abs_remove (k : K) (es : List (Entry K V))
    (hs : es.Pairwise (fun a b => a.key ≤ b.key)) (key : K) :
    entry_values key (abs_remove k es).2
      = bag_apply (V := V) 0 key (entry_values key es) (Op.remove k) ∧
    (abs_remove k es).1 = !(entry_values k es).isEmpty := by
  simp only [bag_apply]
  unfold abs_remove
  cases hh : hit k es with
  | none =>
    have hne := (hit_none_iff hs).1 hh
    simp only []
    refine ⟨?_, by rw [entry_values_nil_of k es hne]; rfl⟩
    by_cases hk : k = key
    · subst hk
      rw [entry_values_nil_of k es hne]; simp
    · simp [hk]
  | some e0 =>
    obtain ⟨r0, hhi, hkey⟩ := hit_some_iff.1 hh
    simp only [hhi, List.tail_cons]
    have hes : es = lo k es ++ e0 :: r0 := by rw [← hhi, lo_append_hi]
    have h1 : entry_values k (lo k es) = [] :=
      entry_values_nil_of k _ (fun x hx => ne_of_lt (lo_all_lt k es x hx))
    constructor
    · by_cases hk : k = key
      · subst hk
        simp only [if_true]
        conv_rhs => rw [hes]
        rw [entry_values_append, entry_values_append, entry_values_cons, if_pos hkey, h1]
        simp
      · simp only [hk, if_false]
        conv_rhs => rw [hes]
        rw [entry_values_append, entry_values_append, entry_values_cons,
          if_neg (by rw [hkey]; exact hk)]
    · conv_rhs => rw [hes]
      rw [entry_values_append, entry_values_cons, if_pos hkey, h1]
      simp

theorem bag_apply_remove_rule (rule : Int) (key k : K) (b : List (Option V)) :
    bag_apply rule key b (Op.remove k) = bag_apply 0 key b (Op.remove k) := rfl

theorem values_of_visited {cmp : Option K → Option K → Int} (hcmp : IsOrderCmp cmp) (key : K)
    (es : List (Entry K V)) :
    values_of cmp key ((pairs es).map as_visited) = entry_values key es := by
  unfold values_of entry_values pairs
  simp only [List.map_map, List.filter_map, Function.comp]
  congr 1
  apply List.filter_congr
  intro e _
  simp [as_visited, (hcmp _ _).2]

end Bags

section BagRun
variable {K V : Type} [LinearOrder K]

/-- A run of inserts and removes on a list that allows duplicates under a fixed
rule keeps, for every key, the values of the reference queue or stack. -/
theorem allow_run_spec {cmp : Option K → Option K → Int} (hcmp : IsOrderCmp cmp) (rule : Int) :
    ∀ (ops : List (Op K V)) (SL0 SL : SkiplistsStructure K V) (es0 : List (Entry K V)),
      ListInv SL0 es0 → SL0.compare_function = cmp → SL0.allow_duplicates = true →
      SL0.duplicate_rule = rule → run_ops SL0 ops = some SL →
      ∃ es, ListInv SL es ∧ SL.compare_function = cmp ∧ SL.allow_duplicates = true ∧
        SL.duplicate_rule = rule ∧
        ∀ key, entry_values key es = ops.foldl (bag_apply rule key) (entry_values key es0) := by
  intro ops
  induction ops with
  | nil =>
    intro SL0 SL es0 hinv hc ha hrule hrun
    simp only [run_ops, Option.some.injEq] at hrun
    subst hrun
    exact ⟨es0, hinv, hc, ha, hrule, fun _ => rfl⟩
  | cons op ops ih =>
    intro SL0 SL es0 hinv hc ha hrule hrun
    rw [run_ops] at hrun
    cases h1 : run_op SL0 op with
    | none => simp [h1] at hrun
    | some SL1 =>
      simp only [h1] at hrun
      cases op with
      | insert k v =>
        simp only [run_op, Option.map_eq_some'] at h1
        obtain ⟨⟨b, S⟩, hins, hS⟩ := h1
        simp only at hS
        subst hS
        obtain ⟨lvl, -, h2, h3, -⟩ := insert_result hinv (hc ▸ hcmp) hins
        rw [ha, hrule] at h2
        obtain ⟨es, i1, i2, i3, i4, i5⟩ := ih S SL _ h2 (h3.1.trans hc) (h3.2.1.trans ha)
          (h3.2.2.1.trans hrule) hrun
        refine ⟨es, i1, i2, i3, i4, fun key => ?_⟩
        rw [i5 key, List.foldl_cons, entry_values_abs_insert _ _ _ _ _ _ _ hinv.sorted]
      | remove k =>
        simp only [run_op, Option.map_eq_some'] at h1
        obtain ⟨⟨b, S⟩, hrem, hS⟩ := h1
        simp only at hS
        subst hS
        obtain ⟨S2, r1, r2, r3, -⟩ := remove_spec hinv (hc ▸ hcmp) k
        rw [r1] at hrem
        simp only [Option.some.injEq, Prod.mk.injEq] at hrem
        obtain ⟨-, hS⟩ := hrem
        subst hS
        obtain ⟨es, i1, i2, i3, i4, i5⟩ := ih S2 SL _ r2 (r3.1.trans hc) (r3.2.1.trans ha)
          (r3.2.2.1.trans hrule) hrun
        refine ⟨es, i1, i2, i3, i4, fun key => ?_⟩
        rw [i5 key, List.foldl_cons, (entry_values_abs_remove k es0 hinv.sorted key).1]
        rfl

theorem allow_fresh_run_spec {cmp : Option K → Option K → Int} (hcmp : IsOrderCmp cmp)
    (rule : Int) (rand_max : Nat) (prng : List Nat) (ops : List (Op K V))
    (SL : SkiplistsStructure K V)
    (hrun : run_ops (skiplists_allow_duplicates (skiplists_new cmp rand_max prng) rule) ops
      = some SL) :
    ∃ es, ListInv SL es ∧ SL.compare_function = cmp ∧
      ∀ key, entry_values key es = bag_run rule key ops := by
  obtain ⟨es, h1, h2, -, -, h5⟩ := allow_run_spec hcmp rule ops _ SL []
    (allow_inv (new_inv cmp rand_max prng) rule) rfl rfl rfl hrun
  exact ⟨es, h1, h2, h5⟩

theorem allow_fresh_run_returns {cmp : Option K → Option K → Int} (hcmp : IsOrderCmp cmp)
    (rule : Int) (rand_max : Nat) (hmax : 2 ≤ rand_max) (prng : List Nat)
    (hodd : AllOdd prng.tail) (ops : List (Op K V)) (hlen : 2 * ops.length ≤ prng.tail.length) :
    ∃ SL : SkiplistsStructure K V,
      run_ops (skiplists_allow_duplicates (skiplists_new cmp rand_max prng) rule) ops
        = some SL := by
  have hp : (skiplists_allow_duplicates (skiplists_new cmp rand_max prng) rule :
      SkiplistsStructure K V).prng = prng.tail := by
    show (rand prng).2 = prng.tail
    cases prng <;> rfl
  exact run_ops_returns ops _ [] (allow_inv (new_inv cmp rand_max prng) rule) hcmp
    (@new_gen_ok K V cmp rand_max hmax prng) (hp ▸ hodd) (by rw [hp]; exact hlen)

end BagRun


section Claims
variable {K V : Type} [LinearOrder K]

theorem strict_keys_nodup (es : List (Entry K V)) (hs : es.Pairwise (fun a b => a.key < b.key)) :
    ((pairs es).map Prod.fst).Nodup := by
  unfold pairs
  rw [List.map_map, List.Nodup, List.pairwise_map]
  exact hs.imp (fun h => ne_of_lt h)

/-- C1: in disallow-duplicates mode with no merge function, after any sequence
of `skiplists_insert` calls on a fresh list (whatever levels the generator
draws), `skiplists_lookup` of each inserted key returns the value of the last
insert made with that key, and `skiplists_size` is the number of distinct keys
inserted.  The inserts themselves return whenever `RAND_MAX` is at least 2 and
`rand()` gives odd numbers, two for each insert after the one that
`skiplists_new` takes. -/
theorem C1_lookup_last_insert_and_size (cmp : Option K → Option K → Int)
    (hcmp : IsOrderCmp cmp) (rand_max : Nat) (prng : List Nat) (ops : List (K × Option V)) :
    (∀ SL : SkiplistsStructure K V,
      run_ops (skiplists_disallow_duplicates (skiplists_new cmp rand_max prng) none)
        (as_inserts ops) = some SL →
      (∀ key v, last_insert ops key = some v → skiplists_lookup SL key = some v) ∧
      skiplists_size SL = (((ops.map Prod.fst).dedup.length : Nat) : Int)) ∧
    (2 ≤ rand_max → AllOdd prng.tail → 2 * ops.length ≤ prng.tail.length →
      ∃ SL : SkiplistsStructure K V,
        run_ops (skiplists_disallow_duplicates (skiplists_new cmp rand_max prng) none)
          (as_inserts ops) = some SL) := by
  refine ⟨?_, fun hmax hodd hlen =>
    fresh_run_returns hcmp rand_max hmax prng hodd _ (by simpa [as_inserts] using hlen)⟩
  intro SL hrun
  obtain ⟨es, hinv, hc, hs, hp⟩ := fresh_run_spec hcmp rand_max prng _ SL hrun
  constructor
  · intro key v hv
    rw [lookup_ref hinv (hc ▸ hcmp) key, hp]
    unfold ref_run
    rw [foldl_put_get key ops [], hv]
  · show SL.size = _
    rw [hinv.size]
    congr 1
    have hnd := strict_keys_nodup es hs
    have hlen : es.length = ((pairs es).map Prod.fst).length := by simp [pairs]
    rw [hlen, ← List.toFinset_card_of_nodup hnd, ← List.card_toFinset]
    congr 1
    ext k
    rw [List.mem_toFinset, List.mem_toFinset, hp]
    unfold ref_run
    rw [foldl_put_keys k ops []]
    simp

/-- C6: in disallow-duplicates mode with no merge function, after any sequence
of `skiplists_insert` and `skiplists_remove` calls on a fresh list, a full
`skiplists_traverse` visits exactly the pairs of the reference sorted map put
through the same operations, in ascending key order; the levels drawn by the
generator (`prng`) do not show in the result.  The operations themselves return
whenever `RAND_MAX` is at least 2 and `rand()` gives odd numbers, two for each
operation after the one that `skiplists_new` takes. -/
theorem C6_traverse_matches_reference_map (cmp : Option K → Option K → Int)
    (hcmp : IsOrderCmp cmp) (rand_max : Nat) (prng : List Nat) (ops : List (Op K V)) :
    (∀ SL : SkiplistsStructure K V,
      run_ops (skiplists_disallow_duplicates (skiplists_new cmp rand_max prng) none) ops
        = some SL →
      traversal SL = some ((ref_run ops).map as_visited) ∧
      (ref_run ops).Pairwise (fun a b => a.1 < b.1)) ∧
    (2 ≤ rand_max → AllOdd prng.tail → 2 * ops.length ≤ prng.tail.length →
      ∃ SL : SkiplistsStructure K V,
        run_ops (skiplists_disallow_duplicates (skiplists_new cmp rand_max prng) none) ops
          = some SL) := by
  refine ⟨?_, fun hmax hodd hlen => fresh_run_returns hcmp rand_max hmax prng hodd ops hlen⟩
  intro SL hrun
  obtain ⟨es, hinv, hc, hs, hp⟩ := fresh_run_spec hcmp rand_max prng _ SL hrun
  refine ⟨by rw [traversal_spec hinv, hp], ?_⟩
  rw [← hp]
  unfold pairs
  rw [List.pairwise_map]
  exact hs

end Claims

section Claims2
variable {K V : Type} [LinearOrder K]

/-- C7: with a comparison function that is a total order, in every state
reachable from `skiplists_new` a full `skiplists_traverse` returns, and what it
visits is the level-0 chain: the walk from `Head` along `forward[0]` reaches
`Tail`, the nodes met carry, in order, exactly the keys and values visited,
their number is `skiplists_size`, every visited key is a real key, and a key is
visited exactly when `skiplists_remove` of it returns `TRUE`.  The keys are
visited in ascending order: each key compares not greater than every later one
(so equal keys are contiguous), and strictly smaller when the list has only
ever been in disallow-duplicates mode. -/
theorem C7_traverse_visits_keys_ascending (cmp : Option K → Option K → Int)
    (hcmp : IsOrderCmp cmp) (rand_max : Nat) (SL : SkiplistsStructure K V)
    (hr : Reachable cmp rand_max SL) :
    ∃ out chain, traversal SL = some out ∧ level_chain SL 0 = some chain ∧
      chain.map (fun x => (load_key SL.mem x, load_value SL.mem x))
        = out.map (fun p => (some p.1, some p.2)) ∧
      ((out.length : Nat) : Int) = skiplists_size SL ∧
      (∀ p ∈ out, ∃ k, p.1 = some k) ∧
      (∀ key, (∃ p ∈ out, cmp p.1 (some key) = 0) ↔
        ∃ SL1, skiplists_remove SL key = some (true, SL1)) ∧
      out.Pairwise (fun a b => cmp a.1 b.1 ≤ 0) ∧
      (ReachableDisallow cmp rand_max SL → out.Pairwise (fun a b => cmp a.1 b.1 < 0)) := by
  obtain ⟨es, hinv, hc⟩ := reach_inv hcmp hr
  refine ⟨_, _, traversal_spec hinv, level_chain_spec hinv 0 (by omega), ?_, ?_, ?_, ?_, ?_, ?_⟩
  · have hfil : es.filter (fun e => decide (0 ≤ e.level)) = es := by
      rw [List.filter_eq_self]
      intro e _
      simp
    rw [hfil]
    simp only [pairs, List.map_map]
    apply List.map_congr_left
    intro e he
    obtain ⟨-, h2, h3⟩ := ChainOk_mem hinv.chain he
    simp [Function.comp, as_visited, h2, h3]
  · show (((pairs es).map as_visited).length : Int) = SL.size
    rw [hinv.size]
    simp [pairs]
  · intro p hp
    simp only [pairs, List.map_map, List.mem_map] at hp
    obtain ⟨e, -, rfl⟩ := hp
    exact ⟨e.key, rfl⟩
  · intro key
    obtain ⟨S, r1, -⟩ := remove_spec hinv (hc ▸ hcmp) key
    rw [present_iff_hit hcmp key es hinv.sorted]
    have hb : (abs_remove key es).1 = (hit key es).isSome := by
      unfold abs_remove
      cases hit key es <;> rfl
    rw [hb] at r1
    constructor
    · intro h
      rw [h] at r1
      exact ⟨S, r1⟩
    · rintro ⟨S1, h1⟩
      rw [r1] at h1
      simp only [Option.some.injEq, Prod.mk.injEq] at h1
      exact h1.1
  · simp only [pairs, List.map_map, List.pairwise_map, Function.comp, as_visited]
    exact hinv.sorted.imp (fun h => (cmp_le_iff hcmp _ _).2 h)
  · intro hd
    obtain ⟨es2, hinv2, -, -, hs2⟩ := reach_disallow_inv hcmp hd
    have heq : (pairs es).map as_visited = (pairs es2).map as_visited := by
      have h1 := traversal_spec hinv
      have h2 := traversal_spec hinv2
      rw [h1] at h2
      exact Option.some.inj h2
    rw [heq]
    simp only [pairs, List.map_map, List.pairwise_map, Function.comp, as_visited]
    exact hs2.imp (fun h => ((hcmp _ _).1).2 h)

/-- C10: in every reachable state, for a key that no visited entry compares
equal to, `skiplists_lookup` returns `NULL` and `skiplists_remove` returns
`FALSE` and leaves the size, the list record (level, head, tail) and every
memory cell, hence every forward chain, as they were. -/
theorem C10_miss_reports_and_changes_nothing (cmp : Option K → Option K → Int)
    (hcmp : IsOrderCmp cmp) (rand_max : Nat) (SL : SkiplistsStructure K V)
    (hr : Reachable cmp rand_max SL) (key : K) (out : List (Option K × Option V))
    (hout : traversal SL = some out) (habsent : ∀ p ∈ out, cmp p.1 (some key) ≠ 0) :
    skiplists_lookup SL key = some none ∧
    ∃ SL1, skiplists_remove SL key = some (false, SL1) ∧
      skiplists_size SL1 = skiplists_size SL ∧ SL1.L = SL.L ∧ SL1.mem = SL.mem := by
  obtain ⟨es, hinv, hc⟩ := reach_inv hcmp hr
  have hout2 := traversal_spec hinv
  rw [hout] at hout2
  have hout3 := Option.some.inj hout2
  subst hout3
  have hne := (absent_iff hcmp key es).1 habsent
  have hnone := (hit_none_iff hinv.sorted).2 hne
  constructor
  · rw [lookup_spec hinv (hc ▸ hcmp) key, hnone]; rfl
  · obtain ⟨S, h1, -, -, h4, h5⟩ := remove_spec hinv (hc ▸ hcmp) key
    have hb : (abs_remove key es).1 = false := by simp [abs_remove, hnone]
    rw [hb] at h1 h4
    exact ⟨S, h1, by simpa [skiplists_size] using h4, (h5 hnone).2, (h5 hnone).1⟩

/-- C4 (amended): in every reachable state, for a key that some visited entry
compares equal to, `skiplists_remove` returns `TRUE` and the size is exactly one
less; `skiplists_lookup` of the key then returns `NULL` when the key had a
single entry, which is always so in a list that has only ever been in
disallow-duplicates mode. -/
theorem C4_remove_present_key (cmp : Option K → Option K → Int)
    (hcmp : IsOrderCmp cmp) (rand_max : Nat) (SL : SkiplistsStructure K V)
    (hr : Reachable cmp rand_max SL) (key : K) (out : List (Option K × Option V))
    (hout : traversal SL = some out) (hpresent : ∃ p ∈ out, cmp p.1 (some key) = 0) :
    ∃ SL1, skiplists_remove SL key = some (true, SL1) ∧
      skiplists_size SL1 = skiplists_size SL - 1 ∧
      ((out.filter (fun p => decide (cmp p.1 (some key) = 0))).length = 1 ∨
        ReachableDisallow cmp rand_max SL → skiplists_lookup SL1 key = some none) := by
  obtain ⟨es, hinv, hc⟩ := reach_inv hcmp hr
  have hout2 := traversal_spec hinv
  rw [hout] at hout2
  have hout3 := Option.some.inj hout2
  subst hout3
  have hsome : ∃ e0, hit key es = some e0 := by
    cases hh : hit key es with
    | some e0 => exact ⟨e0, rfl⟩
    | none =>
      exfalso
      have hne := (hit_none_iff hinv.sorted).1 hh
      obtain ⟨p, hp, hp2⟩ := hpresent
      exact (absent_iff hcmp key es).2 hne p hp hp2
  obtain ⟨e0, he0⟩ := hsome
  obtain ⟨r0, hhi, hkey⟩ := hit_some_iff.1 he0
  obtain ⟨S, h1, h2, h3, h4, -⟩ := remove_spec hinv (hc ▸ hcmp) key
  have hb : abs_remove key es = (true, lo key es ++ r0) := by simp [abs_remove, he0, hhi]
  rw [hb] at h1 h2 h4
  refine ⟨S, h1, by simpa [skiplists_size] using h4, ?_⟩
  intro hone
  have hes : es = lo key es ++ e0 :: r0 := by rw [← hhi, lo_append_hi]
  have hr0 : ∀ x ∈ r0, x.key ≠ key := by
    rcases hone with hcount | hd
    · intro x hx hxk
      have hfilt : ((pairs es).map as_visited).filter (fun p => decide (cmp p.1 (some key) = 0))
          = ((es.filter (fun e => decide (e.key = key))).map
              (fun e => ((some e.key, e.value) : Option K × Option V))) := by
        simp only [pairs, List.map_map, List.filter_map]
        congr 1
        apply List.filter_congr
        intro e _
        simp [Function.comp, as_visited, (hcmp _ _).2]
      rw [hfilt, List.length_map, hes, List.filter_append, List.length_append,
        List.filter_cons] at hcount
      simp only [hkey, decide_True, if_true, List.length_cons] at hcount
      have hz : (r0.filter (fun e => decide (e.key = key))).length = 0 := by omega
      have hnil := List.length_eq_zero.1 hz
      have hmem : x ∈ r0.filter (fun e => decide (e.key = key)) := by
        rw [List.mem_filter]; exact ⟨hx, by simpa using hxk⟩
      rw [hnil] at hmem
      simp at hmem
    · obtain ⟨es2, hinv2, -, -, hs2⟩ := reach_disallow_inv hcmp hd
      have heq : pairs es = pairs es2 := by
        have h1' := traversal_spec hinv
        have h2' := traversal_spec hinv2
        rw [h1'] at h2'
        have h3' := Option.some.inj h2'
        have hinj : Function.Injective (as_visited : K × Option V → Option K × Option V) := by
          intro a b hab
          simp only [as_visited, Prod.mk.injEq, Option.some.injEq] at hab
          exact Prod.ext hab.1 hab.2
        exact List.map_injective_iff.2 hinj h3'
      have hstrict : es.Pairwise (fun a b => a.key < b.key) := by
        have h5 : (pairs es).Pairwise (fun a b => a.1 < b.1) := by
          rw [heq]; unfold pairs; rw [List.pairwise_map]; exact hs2
        unfold pairs at h5
        rw [List.pairwise_map] at h5
        exact h5
      rw [hes] at hstrict
      intro x hx hxk
      have h6 := (List.pairwise_cons.1 (List.pairwise_append.1 hstrict).2.1).1 x hx
      rw [hkey, hxk] at h6
      exact lt_irrefl _ h6
  have hnone : hit key (lo key es ++ r0) = none := by
    rw [hit_none_iff h2.sorted]
    intro e he
    rcases List.mem_append.1 he with he | he
    · exact ne_of_lt (lo_all_lt key es e he)
    · exact hr0 e he
  rw [lookup_spec h2 (by rw [h3.1, hc]; exact hcmp) key, hnone]
  rfl

end Claims2

section Claims3
variable {K V : Type} [LinearOrder K]

end Claims3

/-! ## Examples: witnesses, counterexamples and failing inputs -/

theorem int_compare_order : IsOrderCmp int_compare := by
  intro a b
  simp only [int_compare]
  constructor <;> constructor <;> intro h <;> omega

theorem ex_two_run : run_ops ex_fresh (as_inserts ex_inserts) = some ex_two := by rfl

theorem ex_mixed_run : run_ops ex_fresh ex_ops = some ex_mixed := by rfl

theorem ex_new_reachable : Reachable int_compare ex_rand_max ex_new := Reachable.new _

theorem ex_fresh_reachable : Reachable int_compare ex_rand_max ex_fresh :=
  Reachable.disallow_duplicates none ex_new_reachable

theorem ex_two_reachable : Reachable int_compare ex_rand_max ex_two :=
  reachable_run_ops _ _ _ ex_fresh_reachable ex_two_run

theorem ex_mixed_reachable : Reachable int_compare ex_rand_max ex_mixed :=
  reachable_run_ops _ _ _ ex_fresh_reachable ex_mixed_run

theorem ex_dup_reachable : Reachable int_compare ex_rand_max ex_dup :=
  reachable_run_ops [Op.insert 2 (some 10), Op.insert 2 (some 20)] _ _ ex_new_reachable (by rfl)

theorem ex_fingered_reachable : Reachable int_compare ex_rand_max ex_fingered :=
  @Reachable.lookup_with_finger Int Int int_compare ex_rand_max ex_run_of_two ex_fingered 3 none
    (reachable_run_ops
      [Op.insert 1 (some 10), Op.insert 2 (some 20), Op.insert 2 (some 21)] _ _
      ex_new_reachable (by rfl))
    (by rfl)

/-- C1, at an example: after the inserts `(1,10)`, `(3,30)`, `(1,11)` the
lookups return `11` and `30` and the size is `2`; and the three inserts return
on a generator that gives `1` six times after the first output. -/
theorem C1_witness :
    run_ops ex_fresh (as_inserts ex_inserts) = some ex_two ∧
    skiplists_lookup ex_two 1 = some (some 11) ∧ skiplists_lookup ex_two 3 = some (some 30) ∧
    skiplists_size ex_two = 2 ∧
    ∃ SL : SkiplistsStructure Int Int,
      run_ops (skiplists_disallow_duplicates
        (skiplists_new int_compare ex_rand_max [81, 1, 1, 1, 1, 1, 1]) none)
        (as_inserts ex_inserts) = some SL :=
  ⟨ex_two_run,
   ((C1_lookup_last_insert_and_size int_compare int_compare_order ex_rand_max [81, 81]
      ex_inserts).1 ex_two ex_two_run).1 1 (some 11) (by decide),
   ((C1_lookup_last_insert_and_size int_compare int_compare_order ex_rand_max [81, 81]
      ex_inserts).1 ex_two ex_two_run).1 3 (some 30) (by decide),
   ((C1_lookup_last_insert_and_size int_compare int_compare_order ex_rand_max [81, 81]
      ex_inserts).1 ex_two ex_two_run).2,
   (C1_lookup_last_insert_and_size int_compare int_compare_order ex_rand_max
      [81, 1, 1, 1, 1, 1, 1] ex_inserts).2 (by decide) (by simp [AllOdd]) (by decide)⟩

/-- C6, at an example: after `ex_ops` the traversal visits `(1,11)`, `(2,20)`;
and the five operations return on a generator that gives `1` ten times after
the first output. -/
theorem C6_witness :
    run_ops ex_fresh ex_ops = some ex_mixed ∧
    traversal ex_mixed = some [(some 1, some 11), (some 2, some 20)] ∧
    ∃ SL : SkiplistsStructure Int Int,
      run_ops (skiplists_disallow_duplicates
        (skiplists_new int_compare ex_rand_max [81, 1, 1, 1, 1, 1, 1, 1, 1, 1, 1]) none)
        ex_ops = some SL :=
  ⟨ex_mixed_run,
   ((C6_traverse_matches_reference_map int_compare int_compare_order ex_rand_max [81, 81]
      ex_ops).1 ex_mixed ex_mixed_run).1,
   (C6_traverse_matches_reference_map int_compare int_compare_order ex_rand_max
      [81, 1, 1, 1, 1, 1, 1, 1, 1, 1, 1] ex_ops).2 (by decide) (by simp [AllOdd]) (by decide)⟩

/-- C10, at an example: the key `5` is not in the list with keys `1` and `2`. -/
theorem C10_witness :
    traversal ex_mixed = some [(some 1, some 11), (some 2, some 20)] ∧
    skiplists_lookup ex_mixed 5 = some none ∧
    ∃ SL1, skiplists_remove ex_mixed 5 = some (false, SL1) ∧
      skiplists_size SL1 = skiplists_size ex_mixed ∧ SL1.L = ex_mixed.L ∧
      SL1.mem = ex_mixed.mem :=
  ⟨by rfl,
   C10_miss_reports_and_changes_nothing int_compare int_compare_order ex_rand_max ex_mixed
     ex_mixed_reachable 5 [(some 1, some 11), (some 2, some 20)] (by rfl) (by decide)⟩

/-- C4, as stated, fails on the list that holds the key `2` twice: the remove
succeeds and the lookup still finds an entry. -/
theorem C4_counterexample :
    Reachable int_compare ex_rand_max ex_dup ∧
    traversal ex_dup = some [(some 2, some 20), (some 2, some 10)] ∧
    (skiplists_remove ex_dup 2).map (fun r => r.1) = some true ∧
    (skiplists_remove ex_dup 2).bind (fun r => skiplists_lookup r.2 2) = some (some 10) :=
  ⟨ex_dup_reachable, by rfl, by rfl, by rfl⟩

/-- C4 (amended), at an example: removing the key `3` from the list with keys
`1` and `3`. -/
theorem C4_witness :
    traversal ex_two = some [(some 1, some 11), (some 3, some 30)] ∧
    ∃ SL1, skiplists_remove ex_two 3 = some (true, SL1) ∧
      skiplists_size SL1 = skiplists_size ex_two - 1 ∧
      ((([(some 1, some 11), (some 3, some 30)] : List (Option Int × Option Int)).filter
          (fun p => decide (int_compare p.1 (some 3) = 0))).length = 1 ∨
        ReachableDisallow int_compare ex_rand_max ex_two →
        skiplists_lookup SL1 3 = some none) :=
  ⟨by rfl,
   C4_remove_present_key int_compare int_compare_order ex_rand_max ex_two ex_two_reachable 3
     [(some 1, some 11), (some 3, some 30)] (by rfl) ⟨(some 3, some 30), by decide, by decide⟩⟩

/-- C5, at the failing input: on the list `(1,10)`, `(2,21)`, `(2,20)`, after a
finger search for `3`, `skiplists_lookup (2)` returns `21` and
`skiplists_lookup_with_finger (2)` returns `20`. -/
theorem C5_finger_search_returns_other_duplicate :
    Reachable int_compare ex_rand_max ex_fingered ∧
    traversal ex_fingered = some [(some 1, some 10), (some 2, some 21), (some 2, some 20)] ∧
    skiplists_lookup ex_fingered 2 = some (some 21) ∧
    (skiplists_lookup_with_finger ex_fingered 2).map (fun r => r.1) = some (some 20) :=
  ⟨ex_fingered_reachable, by rfl, by rfl, by rfl⟩

/-- C2, at the failing input: the test's three inserts with node heights 1, 2
and 1; `find` of `1` and `3` succeeds and `find (5)` reads the key of a null
pointer. -/
theorem C2_find_of_inserted_key_faults :
    SkipLists.insert_each 0 (SkipLists.create 16 [15, 4]) [(1, 2), (3, 4), (5, 6)]
      = Except.ok SkipLists.ex_heights_121 ∧
    SkipLists.find SkipLists.ex_heights_121 0 1 (-1) = Except.ok (true, 2) ∧
    SkipLists.find SkipLists.ex_heights_121 0 3 (-1) = Except.ok (true, 4) ∧
    SkipLists.find SkipLists.ex_heights_121 0 5 (-1)
      = Except.error Fault.null_dereference :=
  ⟨by rfl, by rfl, by rfl, by rfl⟩

/-- C8, at the failing input: the test's run; `remove (1)` and `remove (3)`
return true, and `remove (5)` on the list that holds `5` alone indexes
`header->forward` at `-1`. -/
theorem C8_remove_of_last_entry_faults :
    SkipLists.insert_each 0 (SkipLists.create 16 [16]) [(1, 2), (3, 4), (5, 6)]
      = Except.ok SkipLists.ex_heights_123 ∧
    SkipLists.remove_each 0 SkipLists.ex_heights_123 [1, 3]
      = Except.ok ([true, true], SkipLists.ex_only_5) ∧
    SkipLists.remove SkipLists.ex_only_5 0 5 = Except.error Fault.out_of_range ∧
    SkipLists.remove SkipLists.ex_heights_121 0 5 = Except.error Fault.null_dereference :=
  ⟨by rfl, by rfl, by rfl, by rfl⟩

/-- C9, at the failing input: on the list that holds `1` alone, `find (5)` and
`remove (5)` read the key of a null pointer. -/
theorem C9_miss_above_all_keys_faults :
    SkipLists.insert_each 0 (SkipLists.create 16 [16]) [(1, 2)]
      = Except.ok SkipLists.ex_only_1 ∧
    SkipLists.find SkipLists.ex_only_1 0 5 (-1) = Except.error Fault.null_dereference ∧
    SkipLists.remove SkipLists.ex_only_1 0 5 = Except.error Fault.null_dereference :=
  ⟨by rfl, by rfl, by rfl⟩

section Claims4
variable {K V : Type} [LinearOrder K]

/-- C11: in every reachable state a returning `skiplists_insert` returns `FALSE`
exactly when duplicates are disallowed and an entry with an equal key exists.
When it returns `TRUE` one node is allocated, it carries the key and the value,
it is on the level-0 chain, the traversal gains that pair and the size grows by
one.  When it returns `FALSE` the size, the list record (level, head, tail) and
every forward pointer, key and level in memory are as before, and the
traversal differs in the value of one pair with that key.  The insert returns
whenever the loop of `random_level` does. -/
theorem C11_insert_reports_new_node (cmp : Option K → Option K → Int)
    (hcmp : IsOrderCmp cmp) (rand_max : Nat) (SL : SkiplistsStructure K V)
    (hr : Reachable cmp rand_max SL) (key : K) (value : Option V)
    (out : List (Option K × Option V)) (hout : traversal SL = some out) :
    (∀ b SL1, skiplists_insert SL key value = some (b, SL1) →
      (b = false ↔ SL.allow_duplicates = false ∧ ∃ p ∈ out, cmp p.1 (some key) = 0) ∧
      (b = true →
        skiplists_size SL1 = skiplists_size SL + 1 ∧ SL1.mem.length = SL.mem.length + 1 ∧
        load_key SL1.mem SL.mem.length = some (some key) ∧
        load_value SL1.mem SL.mem.length = some value ∧
        (∃ c, level_chain SL1 0 = some c ∧ SL.mem.length ∈ c) ∧
        ∃ pre post, out = pre ++ post ∧
          traversal SL1 = some (pre ++ (some key, value) :: post)) ∧
      (b = false →
        skiplists_size SL1 = skiplists_size SL ∧ SL1.L = SL.L ∧
        (∀ x j, load_forward SL1.mem x j = load_forward SL.mem x j) ∧
        (∀ x, load_key SL1.mem x = load_key SL.mem x) ∧
        (∀ x, load_level SL1.mem x = load_level SL.mem x) ∧
        ∃ pre v_old post v_new, out = pre ++ (some key, v_old) :: post ∧
          traversal SL1 = some (pre ++ (some key, v_new) :: post))) ∧
    ((random_level SL.R SL.prng).isSome = true →
      ∃ b SL1, skiplists_insert SL key value = some (b, SL1)) := by
  obtain ⟨es, hinv, hc⟩ := reach_inv hcmp hr
  have hcmp2 : IsOrderCmp SL.compare_function := hc ▸ hcmp
  refine ⟨?_, fun hlevel => insert_returns hinv hcmp2 key value
    (by intro hn; rw [hn] at hlevel; simp at hlevel)⟩
  have hout2 := traversal_eq hinv hout
  subst hout2
  intro b SL1 hins
  have hpres := present_iff_hit hcmp key es hinv.sorted
  cases b with
  | false =>
    obtain ⟨ha, t, w, -, ht2, ht3, h2, -⟩ := insert_false_result hinv hcmp2 hins
    obtain ⟨-, -, -, -, ff, -⟩ := insert_frame hins
    obtain ⟨hL, hsize, -, -, -, t1, v1, hst⟩ := ff rfl
    obtain ⟨s1, s2, s3, s4, -⟩ := store_value_spec hst
    refine ⟨⟨fun _ => ⟨ha, ?_⟩, fun _ => rfl⟩, fun hb => by simp at hb, fun _ =>
      ⟨hsize, hL, s2, s3, s4, ?_⟩⟩
    · exact ⟨as_visited (t.key, t.value), List.mem_map_of_mem _ (List.mem_map_of_mem _ ht2),
        by simp only [as_visited]; rw [(hcmp _ _).2]; exact ht3⟩
    · obtain ⟨pre, post, hes, hmap⟩ := map_set_value_split es hinv.nodup t ht2 w
      refine ⟨(pairs pre).map as_visited, t.value, (pairs post).map as_visited, w, ?_, ?_⟩
      · rw [← ht3, ← visited_append_cons]
        exact congrArg (fun l => (pairs l).map as_visited) hes
      · rw [traversal_spec h2, hmap, visited_append_cons, ht3]
  | true =>
    obtain ⟨hnc, k, R1, prng1, hrl, hes, h2, hlev, hlen⟩ := insert_true_result hinv hcmp2 hins
    obtain ⟨-, -, -, -, -, ft⟩ := insert_frame hins
    obtain ⟨k', R1', prng1', -, -, -, -, hsize, -⟩ := ft rfl
    have hmem : (⟨SL.mem.length, k, key, value⟩ : Entry K V) ∈
        (insert_point SL.duplicate_rule key es).1 ++
          (⟨SL.mem.length, k, key, value⟩ : Entry K V) ::
          (insert_point SL.duplicate_rule key es).2 := by simp
    obtain ⟨-, n2, n3⟩ := ChainOk_mem h2.chain hmem
    refine ⟨⟨fun hb => by simp at hb, fun hcon => ?_⟩, fun _ =>
      ⟨hsize, hlen, n2, n3, ⟨_, level_chain_spec h2 0 (by omega), ?_⟩, ?_⟩,
      fun hb => by simp at hb⟩
    · exact absurd ⟨hcon.1, hpres.1 hcon.2⟩ hnc
    · simp only [List.mem_map, List.mem_filter]
      exact ⟨_, ⟨hmem, by simp⟩, rfl⟩
    · refine ⟨(pairs (insert_point SL.duplicate_rule key es).1).map as_visited,
        (pairs (insert_point SL.duplicate_rule key es).2).map as_visited, ?_, ?_⟩
      · rw [← visited_append]
        exact congrArg (fun l => (pairs l).map as_visited) hes
      · rw [traversal_spec h2, visited_append_cons]

end Claims4

section Claims5
variable {K V : Type} [LinearOrder K]

/-- C12: on a list that allows duplicates with the rule `rule` fixed from the
start, after any sequence of inserts and removes the values visited under a key
are those of the reference: a queue under `FIRST_IN_FIRST_OUT` (oldest first),
a stack otherwise (newest first).  `skiplists_remove` of the key returns `TRUE`
exactly when that list is not empty, takes its first value (the oldest under
`FIRST_IN_FIRST_OUT`, the newest under `LAST_IN_FIRST_OUT`), leaves the values
of every other key alone and lowers the size by one.  The operations return
whenever `RAND_MAX` is at least 2 and `rand()` gives odd numbers, two for each
operation after the one that `skiplists_new` takes. -/
theorem C12_removes_follow_duplicate_rule (cmp : Option K → Option K → Int)
    (hcmp : IsOrderCmp cmp) (rule : Int) (rand_max : Nat) (prng : List Nat)
    (ops : List (Op K V)) :
    (∀ SL : SkiplistsStructure K V,
      run_ops (skiplists_allow_duplicates (skiplists_new cmp rand_max prng) rule) ops
        = some SL →
      ∃ out, traversal SL = some out ∧
        (∀ key, values_of cmp key out = bag_run rule key ops) ∧
        ∀ key, ∃ SL1 out1,
          skiplists_remove SL key = some (!(bag_run rule key ops).isEmpty, SL1) ∧
          traversal SL1 = some out1 ∧
          values_of cmp key out1 = (bag_run rule key ops).tail ∧
          (∀ k, k ≠ key → values_of cmp k out1 = values_of cmp k out) ∧
          skiplists_size SL1
            = skiplists_size SL - (if (bag_run rule key ops).isEmpty = true then 0 else 1)) ∧
    (2 ≤ rand_max → AllOdd prng.tail → 2 * ops.length ≤ prng.tail.length →
      ∃ SL : SkiplistsStructure K V,
        run_ops (skiplists_allow_duplicates (skiplists_new cmp rand_max prng) rule) ops
          = some SL) := by
  refine ⟨?_, fun hmax hodd hlen =>
    allow_fresh_run_returns hcmp rule rand_max hmax prng hodd ops hlen⟩
  intro SL hrun
  obtain ⟨es, hinv, hc, hv⟩ := allow_fresh_run_spec hcmp rule rand_max prng ops SL hrun
  refine ⟨_, traversal_spec hinv, fun key => by rw [values_of_visited hcmp, hv], fun key => ?_⟩
  obtain ⟨S, r1, r2, -, r4, -⟩ := remove_spec hinv (hc ▸ hcmp) key
  have hb := (entry_values_abs_remove key es hinv.sorted key).2
  rw [hv] at hb
  refine ⟨S, _, by rw [r1, hb], traversal_spec r2, ?_, ?_, ?_⟩
  · rw [values_of_visited hcmp, (entry_values_abs_remove key es hinv.sorted key).1, hv]
    simp [bag_apply]
  · intro k hk
    rw [values_of_visited hcmp, values_of_visited hcmp,
      (entry_values_abs_remove key es hinv.sorted k).1]
    simp [bag_apply, Ne.symm hk]
  · show S.size = SL.size - _
    rw [r4, hb]
    cases (bag_run rule key ops).isEmpty <;> simp

end Claims5

section Claims6
variable {K V : Type} [LinearOrder K]

/-- C13 (amended): a list fresh from `skiplists_new` has 18 levels (top level
17), `inverse_p = 2`, no duplicate function, rule `LAST_IN_FIRST_OUT`, size 0,
and `allow_duplicates` is `TRUE`, since `skiplists.h` defines
`SKIPLISTS_ALLOW_DUPLICATES`: two inserts of the same key leave size 2.  After
`skiplists_disallow_duplicates (SL, NULL)` they leave size 1.  The two inserts
return whenever `RAND_MAX` is at least 2 and `rand()` gives four odd numbers
after the one that `skiplists_new` takes. -/
theorem C13_fresh_list_defaults (cmp : Option K → Option K → Int) (hcmp : IsOrderCmp cmp)
    (rand_max : Nat) (prng : List Nat) :
    (skiplists_new cmp rand_max prng : SkiplistsStructure K V).R.max_number_of_levels = 18 ∧
    (skiplists_new cmp rand_max prng : SkiplistsStructure K V).R.max_level = 17 ∧
    (skiplists_new cmp rand_max prng : SkiplistsStructure K V).R.inverse_p = 2 ∧
    (skiplists_new cmp rand_max prng : SkiplistsStructure K V).allow_duplicates = true ∧
    (skiplists_new cmp rand_max prng : SkiplistsStructure K V).duplicate_function = none ∧
    (skiplists_new cmp rand_max prng : SkiplistsStructure K V).duplicate_rule
      = LAST_IN_FIRST_OUT ∧
    skiplists_size (skiplists_new cmp rand_max prng : SkiplistsStructure K V) = 0 ∧
    (∀ (key : K) (v1 v2 : Option V) (SL2 : SkiplistsStructure K V),
      run_ops (skiplists_new cmp rand_max prng) [Op.insert key v1, Op.insert key v2] = some SL2 →
      skiplists_size SL2 = 2) ∧
    (∀ (key : K) (v1 v2 : Option V) (SL2 : SkiplistsStructure K V),
      run_ops (skiplists_disallow_duplicates (skiplists_new cmp rand_max prng) none)
        [Op.insert key v1, Op.insert key v2] = some SL2 →
      skiplists_size SL2 = 1) ∧
    (2 ≤ rand_max → AllOdd prng.tail → 4 ≤ prng.tail.length →
      ∀ (key : K) (v1 v2 : Option V), ∃ SL2 : SkiplistsStructure K V,
        run_ops (skiplists_new cmp rand_max prng) [Op.insert key v1, Op.insert key v2]
          = some SL2) := by
  refine ⟨rfl, rfl, rfl, rfl, rfl, rfl, rfl, ?_, ?_, ?_⟩
  · intro key v1 v2 SL2 hrun
    obtain ⟨b1, S1, b2, h1, h2⟩ := run_two_inserts hrun
    have hinv := new_inv (V := V) cmp rand_max prng
    obtain ⟨l1, hb1, i1, c1, s1⟩ := insert_result hinv hcmp h1
    have ha1 : S1.allow_duplicates = true := c1.2.1
    obtain ⟨l2, hb2, i2, c2, s2⟩ := insert_result i1 (by rw [c1.1]; exact hcmp) h2
    have hb1t : b1 = true := by rw [hb1]; simp [abs_insert, skiplists_new]
    have hb2t : b2 = true := by rw [hb2, ha1]; simp [abs_insert]
    show SL2.size = 2
    rw [s2, s1, hb1t, hb2t]
    show ((0 : Int) + (if true = true then 1 else 0)) + (if true = true then 1 else 0) = 2
    simp
  · intro key v1 v2 SL2 hrun
    obtain ⟨es, hinv, hc, hs, hp⟩ := fresh_run_spec hcmp rand_max prng _ SL2 hrun
    show SL2.size = 1
    rw [hinv.size]
    have hlen : es.length = (pairs es).length := by simp [pairs]
    rw [hlen, hp]
    simp [ref_run, ref_apply, ref_put]
  · intro hmax hodd hlen key v1 v2
    have hp : (skiplists_new cmp rand_max prng : SkiplistsStructure K V).prng = prng.tail := by
      show (rand prng).2 = prng.tail
      cases prng <;> rfl
    exact run_ops_returns _ _ [] (new_inv cmp rand_max prng) hcmp
      (@new_gen_ok K V cmp rand_max hmax prng) (hp ▸ hodd) (by rw [hp]; simpa using hlen)

end Claims6

section Claims7
variable {K V : Type} [LinearOrder K]

/-- C14: in every reachable state in disallow-duplicates mode with a duplicate
function `f`, an insert of `(key, v_new)` when the key is stored returns
`FALSE`; one visited pair `(key, v_old)` becomes `(key, f (v_old, v_new))`, the
existing value being the first argument; the size, the list record and every
forward pointer are as before.  Unless the rule is `FIRST_IN_FIRST_OUT` and the
key has several entries, `v_old` is what `skiplists_lookup` returned before and
`f (v_old, v_new)` is what it returns afterwards. -/
theorem C14_merge_function_on_collision (cmp : Option K → Option K → Int)
    (hcmp : IsOrderCmp cmp) (rand_max : Nat) (SL : SkiplistsStructure K V)
    (hr : Reachable cmp rand_max SL) (f : Option V → Option V → Option V)
    (hmode : SL.allow_duplicates = false) (hf : SL.duplicate_function = some f)
    (key : K) (v_new : Option V) (out : List (Option K × Option V))
    (hout : traversal SL = some out) (hpresent : ∃ p ∈ out, cmp p.1 (some key) = 0) :
    ∃ SL1 pre v_old post,
      skiplists_insert SL key v_new = some (false, SL1) ∧
      out = pre ++ (some key, v_old) :: post ∧
      traversal SL1 = some (pre ++ (some key, f v_old v_new) :: post) ∧
      skiplists_size SL1 = skiplists_size SL ∧ SL1.L = SL.L ∧
      (∀ x j, load_forward SL1.mem x j = load_forward SL.mem x j) ∧
      (SL.duplicate_rule ≠ FIRST_IN_FIRST_OUT ∨
          (out.filter (fun p => decide (cmp p.1 (some key) = 0))).length = 1 →
        skiplists_lookup SL key = some v_old ∧
        skiplists_lookup SL1 key = some (f v_old v_new)) := by
  obtain ⟨es, hinv, hc⟩ := reach_inv hcmp hr
  have hcmp2 : IsOrderCmp SL.compare_function := hc ▸ hcmp
  have hout2 := traversal_eq hinv hout
  subst hout2
  have hsome := (present_iff_hit hcmp key es hinv.sorted).1 hpresent
  obtain ⟨SL1, hins, -, hcfg, -⟩ := insert_update_spec hinv hcmp2 key v_new hmode hsome
  obtain ⟨-, t, w, ht1, ht2, ht3, h2, -, hw⟩ := insert_false_result hinv hcmp2 hins
  have hwf := hw f hf
  subst hwf
  obtain ⟨-, -, -, -, ff, -⟩ := insert_frame hins
  obtain ⟨hL, hsize, -, -, -, t1, v1, hst⟩ := ff rfl
  obtain ⟨-, s2, -⟩ := store_value_spec hst
  obtain ⟨pre, post, hes, hmap⟩ := map_set_value_split es hinv.nodup t ht2 (f t.value v_new)
  refine ⟨SL1, (pairs pre).map as_visited, t.value, (pairs post).map as_visited, hins, ?_, ?_,
    hsize, hL, s2, ?_⟩
  · rw [← ht3, ← visited_append_cons]
    exact congrArg (fun l => (pairs l).map as_visited) hes
  · rw [traversal_spec h2, hmap, visited_append_cons, ht3]
  · intro hcond
    have hth := update_target_eq_hit hcmp SL.duplicate_rule key es hsome hcond
    rw [ht1] at hth
    constructor
    · rw [lookup_spec hinv hcmp2 key, ← hth]; rfl
    · rw [lookup_spec h2 (by rw [hcfg.1]; exact hcmp2) key,
        hit_map_of_key key _ (fun e => (set_value_id t.id _ e).2.2), ← hth]
      simp [set_value]

end Claims7

section Claims8
variable {K V : Type} [LinearOrder K]

end Claims8

section Claims9
variable {K V : Type} [LinearOrder K]

/-- C16: with a comparison function that is a total order, in every state of a
list that has only ever been in disallow-duplicates mode, the walk from `Head`
along the forward pointers of any level `l` up to 17 reaches `Tail`; the nodes
met are in strictly ascending key order; for `l` at least 1 they are a
sub-sequence of the chain of level `l - 1`; above the list's level the chain is
empty; and a node of level `h` of the level-0 chain is on the chain of level `l`
exactly when `l` is at most `h`. -/
theorem C16_level_chains_are_sorted_sublists (cmp : Option K → Option K → Int)
    (hcmp : IsOrderCmp cmp) (rand_max : Nat) (SL : SkiplistsStructure K V)
    (hr : ReachableDisallow cmp rand_max SL) :
    ∃ chain : Nat → List Nat,
      (∀ l, l ≤ 17 → level_chain SL l = some (chain l)) ∧
      (∀ l, l ≤ 17 → (chain l).Pairwise (key_below SL)) ∧
      (∀ l, 1 ≤ l → l ≤ 17 → (chain l).Sublist (chain (l - 1))) ∧
      (∀ l, SL.L.level < l → chain l = []) ∧
      (∀ x ∈ chain 0, ∃ h, load_level SL.mem x = some h ∧ h ≤ SL.L.level ∧
        ∀ l, x ∈ chain l ↔ l ≤ h) := by
  obtain ⟨es, hinv, hc, -, hs⟩ := reach_disallow_inv hcmp hr
  refine ⟨fun l => (es.filter (fun e => decide (l ≤ e.level))).map (fun e => e.id),
    fun l hl => level_chain_spec hinv l hl, ?_, ?_, ?_, ?_⟩
  · intro l _
    rw [List.pairwise_map]
    refine (hs.sublist (List.filter_sublist _)).imp_of_mem ?_
    intro a b ha hb hab
    have ha2 := (ChainOk_mem hinv.chain (List.mem_of_mem_filter ha)).2.1
    have hb2 := (ChainOk_mem hinv.chain (List.mem_of_mem_filter hb)).2.1
    exact ⟨a.key, b.key, ha2, hb2, by rw [hc]; exact ((hcmp _ _).1).2 hab⟩
  · intro l h1 _
    apply List.Sublist.map
    have : es.filter (fun e => decide (l ≤ e.level))
        = (es.filter (fun e => decide (l - 1 ≤ e.level))).filter
            (fun e => decide (l ≤ e.level)) := by
      rw [List.filter_filter]
      apply List.filter_congr
      intro e _
      by_cases h : l ≤ e.level
      · have : l - 1 ≤ e.level := by omega
        simp [h, this]
      · simp [h]
    rw [this]
    exact List.filter_sublist _
  · intro l hl
    show (es.filter (fun e => decide (l ≤ e.level))).map (fun e => e.id) = []
    rw [List.map_eq_nil_iff, List.filter_eq_nil_iff]
    intro e he
    have := hinv.levels e he
    simp; omega
  · intro x hx
    simp only [List.mem_map, List.mem_filter] at hx
    obtain ⟨e, ⟨he, -⟩, rfl⟩ := hx
    refine ⟨e.level, (ChainOk_mem hinv.chain he).1, hinv.levels e he, fun l => ?_⟩
    simp only [List.mem_map, List.mem_filter, decide_eq_true_eq]
    constructor
    · rintro ⟨e1, ⟨he1, hl1⟩, hid⟩
      have := entry_of_id hinv.nodup he1 he hid
      rw [← this]; exact hl1
    · intro hl
      exact ⟨e, ⟨he, hl⟩, rfl⟩

end Claims9

section Claims10
variable {K V : Type} [LinearOrder K]

/-- C17: in every reachable state the list's level is at most
`max_number_of_levels - 1`, `Head->forward[l]` is `Tail` on every level `l`
above it up to `max_level`, and the level is `0` or `Head->forward[level]` is
not `Tail`.  A returning `skiplists_remove` does not raise the level, and its
result satisfies the same three properties: the level is lowered to the highest
level that still holds a node, or to `0`. -/
theorem C17_level_is_highest_occupied (cmp : Option K → Option K → Int)
    (hcmp : IsOrderCmp cmp) (rand_max : Nat) (SL : SkiplistsStructure K V)
    (hr : Reachable cmp rand_max SL) :
    (SL.L.level ≤ SL.R.max_number_of_levels - 1 ∧
      (∀ l, SL.L.level < l → l ≤ SL.R.max_level →
        load_forward SL.mem SL.L.Head l = some SL.L.Tail) ∧
      (SL.L.level = 0 ∨
        ∃ x, load_forward SL.mem SL.L.Head SL.L.level = some x ∧ x ≠ SL.L.Tail)) ∧
    (∀ (key : K) (b : Bool) (SL1 : SkiplistsStructure K V),
      skiplists_remove SL key = some (b, SL1) →
      SL1.L.level ≤ SL.L.level ∧
      (∀ l, SL1.L.level < l → l ≤ SL1.R.max_level →
        load_forward SL1.mem SL1.L.Head l = some SL1.L.Tail) ∧
      (SL1.L.level = 0 ∨
        ∃ x, load_forward SL1.mem SL1.L.Head SL1.L.level = some x ∧ x ≠ SL1.L.Tail)) := by
  have main : ∀ S : SkiplistsStructure K V, Reachable cmp rand_max S →
      S.L.level ≤ S.R.max_number_of_levels - 1 ∧
      (∀ l, S.L.level < l → l ≤ S.R.max_level →
        load_forward S.mem S.L.Head l = some S.L.Tail) ∧
      (S.L.level = 0 ∨
        ∃ x, load_forward S.mem S.L.Head S.L.level = some x ∧ x ≠ S.L.Tail) := by
    intro S hS
    obtain ⟨es, hinv, -⟩ := reach_inv hcmp hS
    obtain ⟨g1, g2, -⟩ := reach_gen hS
    refine ⟨by rw [g1]; exact hinv.level_le, fun l hl hl2 => ?_, reach_top hcmp hS⟩
    rw [g2] at hl2
    rw [head_tail_iff hinv l hl2]
    intro x hx
    have := hinv.levels x hx
    omega
  refine ⟨main SL hr, fun key b SL1 hrem => ?_⟩
  obtain ⟨-, m2, m3⟩ := main SL1 (Reachable.remove hr hrem)
  refine ⟨?_, m2, m3⟩
  obtain ⟨-, -, -, -, -, -, ff, ft⟩ := remove_frame hrem
  cases b with
  | false => rw [(ff rfl).1]
  | true => exact (shrink_level_top _ _ _ _ _ (ft rfl).2).1

end Claims10

section Claims11
variable {K V : Type} [LinearOrder K]

/-- C18: when the list is fresh from `skiplists_new`, or the last call was a
returning `skiplists_insert` or `skiplists_remove` on a reachable state,
`init_fingers` is set; then, whatever the finger array holds,
`skiplists_lookup_with_finger` starts at `Head` on the list's level with nothing
found yet, returns what `skiplists_lookup` returns, and clears `init_fingers`. -/
theorem C18_finger_search_after_mutation (cmp : Option K → Option K → Int)
    (hcmp : IsOrderCmp cmp) (rand_max : Nat) (SL : SkiplistsStructure K V)
    (hlast : (∃ prng, SL = skiplists_new cmp rand_max prng) ∨
      (∃ SL0 key value b, Reachable cmp rand_max SL0 ∧
        skiplists_insert SL0 key value = some (b, SL)) ∨
      (∃ SL0 key b, Reachable cmp rand_max SL0 ∧ skiplists_remove SL0 key = some (b, SL)))
    (key : K) :
    SL.init_fingers = true ∧
    ∃ v, skiplists_lookup SL key = some v ∧
      ∀ fg : List Nat, fg.length = SKIPLISTS_MAX_NUMBER_OF_LEVELS →
        finger_start { SL with L := { SL.L with finger := fg } } key
          = some (SL.L.Head, SL.L.level, false, 0) ∧
        ∃ SL1, skiplists_lookup_with_finger { SL with L := { SL.L with finger := fg } } key
            = some (v, SL1) ∧
          SL1.init_fingers = false := by
  have hreach : Reachable cmp rand_max SL ∧ SL.init_fingers = true := by
    rcases hlast with ⟨prng, rfl⟩ | ⟨SL0, k, v, b, h0, hins⟩ | ⟨SL0, k, b, h0, hrem⟩
    · exact ⟨Reachable.new prng, rfl⟩
    · exact ⟨Reachable.insert h0 hins, (insert_frame hins).1⟩
    · exact ⟨Reachable.remove h0 hrem, (remove_frame hrem).1⟩
  obtain ⟨hr, hinit⟩ := hreach
  obtain ⟨es, hinv, hc⟩ := reach_inv hcmp hr
  refine ⟨hinit, _, lookup_spec hinv (hc ▸ hcmp) key, fun fg hfg => ?_⟩
  have hinv2 : ListInv { SL with L := { SL.L with finger := fg } } es :=
    hinv.congr ⟨rfl, rfl, rfl, by
      show fg.length = SL.L.finger.length
      rw [hfg, hinv.finger_len]; rfl⟩ rfl rfl rfl
  exact lwf_init_spec hinv2 (hc ▸ hcmp) hinit key

end Claims11

section Claims12
variable {K V : Type}

end Claims12

/-! ## More examples: witnesses, counterexamples and failing inputs -/

theorem reachable_disallow_run_ops {K V : Type} {cmp : Option K → Option K → Int}
    {rand_max : Nat} :
    ∀ (ops : List (Op K V)) (SL SL1 : SkiplistsStructure K V),
      ReachableDisallow cmp rand_max SL → run_ops SL ops = some SL1 →
      ReachableDisallow cmp rand_max SL1 := by
  intro ops
  induction ops with
  | nil =>
    intro SL SL1 hr h
    simp only [run_ops, Option.some.injEq] at h
    exact h ▸ hr
  | cons op ops ih =>
    intro SL SL1 hr h
    rw [run_ops] at h
    cases h1 : run_op SL op with
    | none => simp [h1] at h
    | some S =>
      simp only [h1] at h
      refine ih S SL1 ?_ h
      cases op with
      | insert key value =>
        simp only [run_op, Option.map_eq_some'] at h1
        obtain ⟨⟨b, S1⟩, hins, hS⟩ := h1
        simp only at hS
        subst hS
        exact ReachableDisallow.insert hr hins
      | remove key =>
        simp only [run_op, Option.map_eq_some'] at h1
        obtain ⟨⟨b, S1⟩, hrem, hS⟩ := h1
        simp only at hS
        subst hS
        exact ReachableDisallow.remove hr hrem

theorem ex_two_disallow : ReachableDisallow int_compare ex_rand_max ex_two :=
  reachable_disallow_run_ops _ _ _ (ReachableDisallow.new [81, 81] none) ex_two_run

theorem ex_before_two_reachable : Reachable int_compare ex_rand_max ex_before_two :=
  reachable_run_ops [Op.insert 1 (some 10), Op.insert 3 (some 30)] _ _ ex_fresh_reachable
    (by rfl)

theorem ex_merging_reachable : Reachable int_compare ex_rand_max ex_merging :=
  Reachable.disallow_duplicates (some ex_sum) ex_two_reachable

theorem ex_empty_fingered_reachable : Reachable int_compare ex_rand_max ex_empty_fingered :=
  @Reachable.lookup_with_finger Int Int int_compare ex_rand_max ex_new ex_empty_fingered 5 none
    ex_new_reachable (by rfl)

theorem ex_low_fingered_reachable : Reachable int_compare ex_rand_max ex_low_fingered :=
  @Reachable.lookup_with_finger Int Int int_compare ex_rand_max ex_two ex_low_fingered 1
    (some 11) ex_two_reachable (by rfl)

/-- C11, at examples: on the list with keys `1` and `3` in disallow mode, the
insert of `(3, 31)` returns `FALSE` and changes one value; the insert of
`(2, 20)` returns `TRUE` and the size grows by one. -/
theorem C11_witness :
    skiplists_insert ex_two 3 (some 31) = some (false, ex_two_updated) ∧
    (skiplists_size ex_two_updated = skiplists_size ex_two ∧ ex_two_updated.L = ex_two.L) ∧
    traversal ex_two_updated = some [(some 1, some 11), (some 3, some 31)] ∧
    skiplists_insert ex_two 2 (some 20) = some (true, ex_two_more) ∧
    (skiplists_size ex_two_more = skiplists_size ex_two + 1 ∧
      ex_two_more.mem.length = ex_two.mem.length + 1) ∧
    traversal ex_two_more = some [(some 1, some 11), (some 2, some 20), (some 3, some 30)] :=
  ⟨by rfl,
   ⟨(((C11_insert_reports_new_node int_compare int_compare_order ex_rand_max ex_two
        ex_two_reachable 3 (some 31) [(some 1, some 11), (some 3, some 30)] (by rfl)).1
        false ex_two_updated (by rfl)).2.2 rfl).1,
    (((C11_insert_reports_new_node int_compare int_compare_order ex_rand_max ex_two
        ex_two_reachable 3 (some 31) [(some 1, some 11), (some 3, some 30)] (by rfl)).1
        false ex_two_updated (by rfl)).2.2 rfl).2.1⟩,
   by rfl, by rfl,
   ⟨(((C11_insert_reports_new_node int_compare int_compare_order ex_rand_max ex_two
        ex_two_reachable 2 (some 20) [(some 1, some 11), (some 3, some 30)] (by rfl)).1
        true ex_two_more (by rfl)).2.1 rfl).1,
    (((C11_insert_reports_new_node int_compare int_compare_order ex_rand_max ex_two
        ex_two_reachable 2 (some 20) [(some 1, some 11), (some 3, some 30)] (by rfl)).1
        true ex_two_more (by rfl)).2.1 rfl).2.1⟩,
   by rfl⟩

/-- C12, at an example: under `FIRST_IN_FIRST_OUT`, after the
inserts `(2, 10)` and `(2, 20)` the key `2` holds `10`, `20`; three calls of
`skiplists_remove (2)` return `TRUE`, `TRUE`, `FALSE`, and the first takes `10`. -/
theorem C12_witness :
    run_ops ex_fifo_new ex_two_dups = some ex_fifo_two ∧
    (∃ out, traversal ex_fifo_two = some out ∧
      (∀ key, values_of int_compare key out = bag_run FIRST_IN_FIRST_OUT key ex_two_dups) ∧
      ∀ key, ∃ SL1 out1,
        skiplists_remove ex_fifo_two key
          = some (!(bag_run FIRST_IN_FIRST_OUT key ex_two_dups).isEmpty, SL1) ∧
        traversal SL1 = some out1 ∧
        values_of int_compare key out1 = (bag_run FIRST_IN_FIRST_OUT key ex_two_dups).tail ∧
        (∀ k, k ≠ key → values_of int_compare k out1 = values_of int_compare k out) ∧
        skiplists_size SL1 = skiplists_size ex_fifo_two
          - (if (bag_run FIRST_IN_FIRST_OUT key ex_two_dups).isEmpty = true then 0 else 1)) ∧
    bag_run FIRST_IN_FIRST_OUT 2 ex_two_dups = [some 10, some 20] ∧
    bag_run LAST_IN_FIRST_OUT 2 ex_two_dups = [some 20, some 10] ∧
    skiplists_remove ex_fifo_two 2 = some (true, ex_fifo_one) ∧
    traversal ex_fifo_one = some [(some 2, some 20)] ∧
    skiplists_remove ex_fifo_one 2 = some (true, ex_fifo_none) ∧
    (skiplists_remove ex_fifo_none 2).map (fun r => r.1) = some false :=
  ⟨by rfl,
   (C12_removes_follow_duplicate_rule int_compare int_compare_order FIRST_IN_FIRST_OUT
      ex_rand_max [81, 81] ex_two_dups).1 ex_fifo_two (by rfl),
   by rfl, by rfl, by rfl, by rfl, by rfl, by rfl⟩

/-- C13, as stated, fails: a fresh list allows duplicates, and two inserts of
the key `2` leave size 2. -/
theorem C13_counterexample :
    (skiplists_new int_compare ex_rand_max [81, 81] : SkiplistsStructure Int Int).allow_duplicates
      = true ∧
    run_ops ex_new [Op.insert 2 (some 10), Op.insert 2 (some 20)] = some ex_dup ∧
    skiplists_size ex_dup = 2 :=
  ⟨by rfl, by rfl, by rfl⟩

/-- C13 (amended), at an example: the defaults of the fresh list `ex_new`; two
inserts of the key `2` leave size 2, and size 1 once duplicates are
disallowed. -/
theorem C13_witness :
    ex_new.allow_duplicates = true ∧
    run_ops ex_new ex_two_dups = some ex_dup ∧ skiplists_size ex_dup = 2 ∧
    run_ops ex_fresh ex_two_dups = some ex_same_twice ∧ skiplists_size ex_same_twice = 1 :=
  ⟨(C13_fresh_list_defaults int_compare int_compare_order ex_rand_max [81, 81]).2.2.2.1,
   by rfl,
   (C13_fresh_list_defaults int_compare int_compare_order ex_rand_max [81, 81]).2.2.2.2.2.2.2.1
     2 (some 10) (some 20) ex_dup (by rfl),
   by rfl,
   (C13_fresh_list_defaults int_compare int_compare_order
     ex_rand_max [81, 81]).2.2.2.2.2.2.2.2.1 2 (some 10) (some 20) ex_same_twice (by rfl)⟩

/-- C14, at an example: with the duplicate function `ex_sum`, the insert of
`(3, 1)` on the list that holds `(3, 30)` stores `31`. -/
theorem C14_witness :
    (∃ SL1 pre v_old post,
      skiplists_insert ex_merging 3 (some 1) = some (false, SL1) ∧
      [(some 1, some 11), (some 3, some 30)] = pre ++ (some 3, v_old) :: post ∧
      traversal SL1 = some (pre ++ (some 3, ex_sum v_old (some 1)) :: post) ∧
      skiplists_size SL1 = skiplists_size ex_merging ∧ SL1.L = ex_merging.L ∧
      (∀ x j, load_forward SL1.mem x j = load_forward ex_merging.mem x j) ∧
      (ex_merging.duplicate_rule ≠ FIRST_IN_FIRST_OUT ∨
          (([(some 1, some 11), (some 3, some 30)] : List (Option Int × Option Int)).filter
            (fun p => decide (int_compare p.1 (some 3) = 0))).length = 1 →
        skiplists_lookup ex_merging 3 = some v_old ∧
        skiplists_lookup SL1 3 = some (ex_sum v_old (some 1)))) ∧
    skiplists_insert ex_merging 3 (some 1) = some (false, ex_merged) ∧
    traversal ex_merged = some [(some 1, some 11), (some 3, some 31)] :=
  ⟨C14_merge_function_on_collision int_compare int_compare_order ex_rand_max ex_merging
     ex_merging_reachable ex_sum rfl rfl 3 (some 1) [(some 1, some 11), (some 3, some 30)]
     (by rfl) ⟨(some 3, some 30), by decide, by decide⟩,
   by rfl, by rfl⟩

/-- C16, at an example: the list with the keys `1` (level 0, node 3) and `3`
(level 1, node 4). -/
theorem C16_witness :
    (∃ chain : Nat → List Nat,
      (∀ l, l ≤ 17 → level_chain ex_two l = some (chain l)) ∧
      (∀ l, l ≤ 17 → (chain l).Pairwise (key_below ex_two)) ∧
      (∀ l, 1 ≤ l → l ≤ 17 → (chain l).Sublist (chain (l - 1))) ∧
      (∀ l, ex_two.L.level < l → chain l = []) ∧
      (∀ x ∈ chain 0, ∃ h, load_level ex_two.mem x = some h ∧ h ≤ ex_two.L.level ∧
        ∀ l, x ∈ chain l ↔ l ≤ h)) ∧
    level_chain ex_two 0 = some [3, 4] ∧ level_chain ex_two 1 = some [4] ∧
    level_chain ex_two 2 = some [] :=
  ⟨C16_level_chains_are_sorted_sublists int_compare int_compare_order ex_rand_max ex_two
     ex_two_disallow,
   by rfl, by rfl, by rfl⟩

/-- C17, at an example: the list `ex_fifo_two` has level 1; removing its two
entries brings the level to `0`. -/
theorem C17_witness :
    (ex_fifo_two.L.level ≤ ex_fifo_two.R.max_number_of_levels - 1 ∧
      (∀ l, ex_fifo_two.L.level < l → l ≤ ex_fifo_two.R.max_level →
        load_forward ex_fifo_two.mem ex_fifo_two.L.Head l = some ex_fifo_two.L.Tail) ∧
      (ex_fifo_two.L.level = 0 ∨
        ∃ x, load_forward ex_fifo_two.mem ex_fifo_two.L.Head ex_fifo_two.L.level = some x ∧
          x ≠ ex_fifo_two.L.Tail)) ∧
    ex_fifo_two.L.level = 1 ∧
    skiplists_remove ex_fifo_two 2 = some (true, ex_fifo_one) ∧
    (ex_fifo_one.L.level ≤ ex_fifo_two.L.level ∧
      (∀ l, ex_fifo_one.L.level < l → l ≤ ex_fifo_one.R.max_level →
        load_forward ex_fifo_one.mem ex_fifo_one.L.Head l = some ex_fifo_one.L.Tail) ∧
      (ex_fifo_one.L.level = 0 ∨
        ∃ x, load_forward ex_fifo_one.mem ex_fifo_one.L.Head ex_fifo_one.L.level = some x ∧
          x ≠ ex_fifo_one.L.Tail)) ∧
    ex_fifo_one.L.level = 1 ∧ ex_fifo_none.L.level = 0 :=
  ⟨(C17_level_is_highest_occupied int_compare int_compare_order ex_rand_max ex_fifo_two
      (reachable_run_ops ex_two_dups _ _
        (Reachable.allow_duplicates FIRST_IN_FIRST_OUT ex_new_reachable) (by rfl))).1,
   by rfl, by rfl,
   (C17_level_is_highest_occupied int_compare int_compare_order ex_rand_max ex_fifo_two
      (reachable_run_ops ex_two_dups _ _
        (Reachable.allow_duplicates FIRST_IN_FIRST_OUT ex_new_reachable) (by rfl))).2
      2 true ex_fifo_one (by rfl),
   by rfl, by rfl⟩

/-- C18, at an example: the list `ex_two` is the result of an insert; a finger
search for `3` starts at `Head` and returns `30`, as the plain lookup does,
also with a finger array that points somewhere else. -/
theorem C18_witness :
    skiplists_insert ex_before_two 1 (some 11) = some (false, ex_two) ∧
    ex_two.init_fingers = true ∧
    (∃ v, skiplists_lookup ex_two 3 = some v ∧
      ∀ fg : List Nat, fg.length = SKIPLISTS_MAX_NUMBER_OF_LEVELS →
        finger_start { ex_two with L := { ex_two.L with finger := fg } } 3
          = some (ex_two.L.Head, ex_two.L.level, false, 0) ∧
        ∃ SL1, skiplists_lookup_with_finger
            { ex_two with L := { ex_two.L with finger := fg } } 3 = some (v, SL1) ∧
          SL1.init_fingers = false) ∧
    skiplists_lookup ex_two 3 = some (some 30) ∧
    (skiplists_lookup_with_finger
      { ex_two with L := { ex_two.L with finger := List.replicate 18 4 } } 3).map
        (fun r => r.1) = some (some 30) :=
  ⟨by rfl,
   (C18_finger_search_after_mutation int_compare int_compare_order ex_rand_max ex_two
      (Or.inr (Or.inl ⟨ex_before_two, 1, some 11, false, ex_before_two_reachable, by rfl⟩))
      3).1,
   (C18_finger_search_after_mutation int_compare int_compare_order ex_rand_max ex_two
      (Or.inr (Or.inl ⟨ex_before_two, 1, some 11, false, ex_before_two_reachable, by rfl⟩))
      3).2,
   by rfl, by rfl⟩

/-- C20, at the failing inputs: after `skiplists_lookup_with_finger` on the empty
list, and after a finger search for the smallest key of the list `ex_two`,
`init_fingers` is `FALSE` and `finger[0]` is `Head`, whose key is `NULL`: the
next finger search passes that key to `compare_function`.  The value returned
for it shows in the state: two lists that differ only in what their comparison
returns on `NULL` end the search for `2` with different finger arrays. -/
theorem C20_finger_search_compares_head_key :
    Reachable int_compare ex_rand_max ex_empty_fingered ∧
    ex_empty_fingered.init_fingers = false ∧
    ex_empty_fingered.L.finger[0]? = some ex_empty_fingered.L.Head ∧
    load_key ex_empty_fingered.mem ex_empty_fingered.L.Head = some none ∧
    Reachable int_compare ex_rand_max ex_low_fingered ∧
    ex_low_fingered.init_fingers = false ∧
    ex_low_fingered.L.finger[0]? = some ex_low_fingered.L.Head ∧
    load_key ex_low_fingered.mem ex_low_fingered.L.Head = some none ∧
    (ex_probe 0).L.finger = (ex_probe (-1)).L.finger ∧
    (ex_probe 0).mem = (ex_probe (-1)).mem ∧
    (skiplists_lookup_with_finger (ex_probe 0) 2).map (fun r => (r.1, r.2.L.finger.take 2))
      = some (some 20, [3, 1]) ∧
    (skiplists_lookup_with_finger (ex_probe (-1)) 2).map (fun r => (r.1, r.2.L.finger.take 2))
      = some (some 20, [1, 1]) :=
  ⟨ex_empty_fingered_reachable, by rfl, by rfl, by rfl,
   ex_low_fingered_reachable, by rfl, by rfl, by rfl, by rfl, by rfl, by rfl, by rfl⟩

namespace SkipLists

section Pool
variable {K V : Type}

theorem pool_step_ok (s : SkipLists K V) (h : PoolOk s) :
    PoolOk (if s.randoms_left - 1 = 0 then
        { s with random_bits := (rand s.prng).1 % BITSINRANDOM + 1,
                 randoms_left := ((BITSINRANDOM / 2 : Nat) : Int),
                 prng := (rand s.prng).2 }
      else { s with random_bits := s.random_bits >>> 2, randoms_left := s.randoms_left - 1 }) := by
  obtain ⟨h1, h2, h3, h4⟩ := h
  split
  · refine ⟨by show (1 : Int) ≤ ((BITSINRANDOM / 2 : Nat) : Int); decide,
      by show ((BITSINRANDOM / 2 : Nat) : Int) ≤ 15; decide, ?_,
      fun _ => by show 1 ≤ (rand s.prng).1 % BITSINRANDOM + 1; omega⟩
    show ((rand s.prng).1 % 31 + 1) * 4 ^ ((15 : Int) - ((31 / 2 : Nat) : Int)).toNat < 32
    have : (rand s.prng).1 % 31 < 31 := Nat.mod_lt _ (by decide)
    norm_num
    omega
  · rename_i hne
    refine ⟨by show 1 ≤ s.randoms_left - 1; omega, by show s.randoms_left - 1 ≤ 15; omega, ?_,
      fun hc => by exfalso; change s.randoms_left - 1 = 15 at hc; omega⟩
    show (s.random_bits >>> 2) * 4 ^ ((15 : Int) - (s.randoms_left - 1)).toNat < 32
    have he : ((15 : Int) - (s.randoms_left - 1)).toNat = (15 - s.randoms_left).toNat + 1 := by
      omega
    rw [he, pow_succ, Nat.shiftRight_eq_div_pow]
    have : s.random_bits / 2 ^ 2 * (4 ^ (15 - s.randoms_left).toNat * 4)
        ≤ s.random_bits * 4 ^ (15 - s.randoms_left).toNat := by
      have h5 : s.random_bits / 4 * 4 ≤ s.random_bits := Nat.div_mul_le_self _ _
      calc s.random_bits / 2 ^ 2 * (4 ^ (15 - s.randoms_left).toNat * 4)
          = (s.random_bits / 4 * 4) * 4 ^ (15 - s.randoms_left).toNat := by ring_nf
        _ ≤ s.random_bits * 4 ^ (15 - s.randoms_left).toNat := Nat.mul_le_mul_right _ h5
    omega

theorem and_three (n : Nat) : n &&& 3 = n % 4 := Nat.and_pow_two_sub_one_eq_mod n 2

/-- With a set bit among the lowest `2 * k` bits in hand and more than `k` uses
left, the loop of `random_level` ends within `k` rounds. -/
theorem loop_nonzero : ∀ (k fuel : Nat) (s : SkipLists K V) (l : Int),
    s.random_bits ≠ 0 → s.random_bits < 4 ^ k → (k : Int) < s.randoms_left → PoolOk s →
    k ≤ fuel →
    ∃ l1 s1, random_level_loop fuel s l = Except.ok (l1, s1) ∧ l ≤ l1 ∧ l1 < l + k ∧
      PoolOk s1 ∧ SameList s s1 := by
  intro k
  induction k with
  | zero => intro fuel s l h0 h1; simp at h1; exact absurd h1 h0
  | succ k ih =>
    intro fuel s l h0 h1 h2 hp hf
    obtain ⟨f, rfl⟩ : ∃ f, fuel = f + 1 := ⟨fuel - 1, by omega⟩
    have hne : ¬ (s.randoms_left - 1 = 0) := by push_cast at h2; omega
    have hp1 := pool_step_ok s hp
    rw [if_neg hne] at hp1
    rw [random_level_loop]
    simp only [hne, if_false, and_three]
    by_cases hb : s.random_bits % 4 = 0
    · simp only [hb, if_true]
      have hs : s.random_bits >>> 2 = s.random_bits / 4 := by
        rw [Nat.shiftRight_eq_div_pow]
      obtain ⟨l1, s1, e1, e2, e3, e4, e5⟩ :=
        ih f { s with random_bits := s.random_bits >>> 2, randoms_left := s.randoms_left - 1 }
          (l + 1)
          (by show s.random_bits >>> 2 ≠ 0; rw [hs]; omega)
          (by show s.random_bits >>> 2 < 4 ^ k; rw [hs]; rw [pow_succ] at h1; omega)
          (by show (k : Int) < s.randoms_left - 1; push_cast at h2; omega)
          hp1 (by omega)
      exact ⟨l1, s1, e1, by omega, by push_cast; omega, e4, e5⟩
    · simp only [hb, if_false]
      exact ⟨l, _, rfl, le_refl _, by push_cast; omega, hp1, ⟨rfl, rfl, rfl, rfl, rfl⟩⟩

/-- With no bit in hand the loop of `random_level` runs to the next refill and
ends within three rounds after it. -/
theorem loop_zero : ∀ (n fuel : Nat) (s : SkipLists K V) (l : Int),
    s.random_bits = 0 → s.randoms_left = ((n + 1 : Nat) : Int) → PoolOk s → n + 4 ≤ fuel →
    ∃ l1 s1, random_level_loop fuel s l = Except.ok (l1, s1) ∧ l ≤ l1 ∧
      l1 ≤ l + ((n + 3 : Nat) : Int) ∧ PoolOk s1 ∧ SameList s s1 := by
  intro n
  induction n with
  | zero =>
    intro fuel s l h0 h1 hp hf
    obtain ⟨f, rfl⟩ : ∃ f, fuel = f + 1 := ⟨fuel - 1, by omega⟩
    have hz : s.randoms_left - 1 = 0 := by rw [h1]; simp
    have hp1 := pool_step_ok s hp
    rw [if_pos hz] at hp1
    rw [random_level_loop]
    simp only [hz, if_true, and_three, h0, Nat.zero_mod]
    have hr : (rand s.prng).1 % 31 < 31 := Nat.mod_lt _ (by decide)
    obtain ⟨l1, s1, e1, e2, e3, e4, e5⟩ :=
      loop_nonzero 3 f
        { s with random_bits := (rand s.prng).1 % BITSINRANDOM + 1,
                 randoms_left := ((BITSINRANDOM / 2 : Nat) : Int),
                 prng := (rand s.prng).2 } (l + 1)
        (by show (rand s.prng).1 % BITSINRANDOM + 1 ≠ 0; omega)
        (by show (rand s.prng).1 % 31 + 1 < 4 ^ 3; norm_num; omega)
        (by show ((3 : Nat) : Int) < ((BITSINRANDOM / 2 : Nat) : Int); decide)
        hp1 (by omega)
    exact ⟨l1, s1, e1, by omega, by push_cast at e3 ⊢; omega, e4, e5⟩
  | succ n ih =>
    intro fuel s l h0 h1 hp hf
    obtain ⟨f, rfl⟩ : ∃ f, fuel = f + 1 := ⟨fuel - 1, by omega⟩
    have hne : ¬ (s.randoms_left - 1 = 0) := by rw [h1]; push_cast; omega
    have hp1 := pool_step_ok s hp
    rw [if_neg hne] at hp1
    have hb : s.random_bits % 4 = 0 := by rw [h0]
    rw [random_level_loop]
    simp only [hne, if_false, and_three, hb, if_true]
    obtain ⟨l1, s1, e1, e2, e3, e4, e5⟩ :=
      ih f { s with random_bits := s.random_bits >>> 2, randoms_left := s.randoms_left - 1 }
        (l + 1)
        (by show s.random_bits >>> 2 = 0; rw [h0]; rfl)
        (by show s.randoms_left - 1 = ((n + 1 : Nat) : Int); rw [h1]; push_cast; omega)
        hp1 (by omega)
    exact ⟨l1, s1, e1, by omega, by push_cast at e3 ⊢; omega, e4, e5⟩

/-- From every state of the pool the loop of `random_level` ends within 18
rounds, having counted at most 16 empty groups. -/
theorem loop_returns (fuel : Nat) (hf : 18 ≤ fuel) (s : SkipLists K V) (l : Int)
    (hp : PoolOk s) :
    ∃ l1 s1, random_level_loop fuel s l = Except.ok (l1, s1) ∧ l ≤ l1 ∧ l1 ≤ l + 16 ∧
      PoolOk s1 ∧ SameList s s1 := by
  obtain ⟨h1, h2, h3, h4⟩ := hp
  by_cases hb : s.random_bits = 0
  · have hl : s.randoms_left ≤ 14 := by
      by_contra hc
      have h15 : s.randoms_left = 15 := by omega
      have := h4 h15
      omega
    obtain ⟨n, hn⟩ : ∃ n : Nat, s.randoms_left = ((n + 1 : Nat) : Int) :=
      ⟨(s.randoms_left - 1).toNat, by push_cast; omega⟩
    have hn14 : n + 1 ≤ 14 := by
      have : ((n + 1 : Nat) : Int) ≤ 14 := hn ▸ hl
      exact_mod_cast this
    obtain ⟨l1, s1, e1, e2, e3, e4, e5⟩ :=
      loop_zero n fuel s l hb hn ⟨h1, h2, h3, h4⟩ (by omega)
    exact ⟨l1, s1, e1, e2, by push_cast at e3; omega, e4, e5⟩
  · have hlt : s.random_bits < 4 ^ 3 := by
      have : s.random_bits * 1 ≤ s.random_bits * 4 ^ (15 - s.randoms_left).toNat :=
        Nat.mul_le_mul_left _ (Nat.one_le_pow _ _ (by decide))
      norm_num
      omega
    have hleft : ((3 : Nat) : Int) < s.randoms_left := by
      by_contra hc
      have hc2 : s.randoms_left ≤ 3 := by push_cast at hc; omega
      have h12 : 12 ≤ (15 - s.randoms_left).toNat := by omega
      have hpow : 4 ^ 12 ≤ 4 ^ (15 - s.randoms_left).toNat :=
        Nat.pow_le_pow_right (by decide) h12
      have hb1 : 1 ≤ s.random_bits := by omega
      have : 1 * 4 ^ 12 ≤ s.random_bits * 4 ^ (15 - s.randoms_left).toNat :=
        Nat.mul_le_mul hb1 hpow
      norm_num at this
      omega
    obtain ⟨l1, s1, e1, e2, e3, e4, e5⟩ :=
      loop_nonzero 3 fuel s l hb hlt hleft ⟨h1, h2, h3, h4⟩ (by omega)
    exact ⟨l1, s1, e1, e2, by push_cast at e3; omega, e4, e5⟩

/-- The method `random_level` returns from every state of the pool, with a
level from 1 to `max_level` when `max_level` is at least 1. -/
theorem cpp_random_level_returns (s : SkipLists K V) (hp : PoolOk s) :
    ∃ k s1, random_level s = Except.ok (k, s1) ∧ PoolOk s1 ∧ SameList s s1 ∧
      k ≤ s.max_level ∧ (1 ≤ s.max_level → 1 ≤ k) := by
  obtain ⟨l1, s1, e1, e2, e3, e4, e5⟩ :=
    loop_returns (s.randoms_left.toNat + s.random_bits + 64) (by omega) s 1 hp
  refine ⟨if l1 > s1.max_level then s1.max_level else l1, s1, ?_, e4, e5, ?_, ?_⟩
  · unfold random_level
    rw [e1]
  · rw [e5.2.2.1]
    split <;> omega
  · intro hm
    rw [e5.2.2.1]
    split <;> omega

end Pool
end SkipLists

namespace SkipLists

section CppFrames
variable {K V : Type} [LinearOrder K]

/-- The shrink loop of `remove` does not raise the level. -/
theorem shrink_le (mem : List (Option (SkipListsNode K V))) (header : Nat) :
    ∀ (n : Nat) (m m1 : Int), shrink mem header n m = Except.ok m1 → m1 ≤ m := by
  intro n
  induction n with
  | zero => intro m m1 h; simp [shrink] at h
  | succ n ih =>
    intro m m1 h
    rw [shrink] at h
    cases hf : forward_at mem header (m - 1) with
    | error f => simp [hf] at h
    | ok x =>
      simp only [hf] at h
      split at h
      · have := ih _ _ h
        omega
      · simp only [Except.ok.injEq] at h
        omega

/-- The loop of `random_level` touches the random-bit pool only. -/
theorem loop_frame : ∀ (fuel : Nat) (s s1 : SkipLists K V) (l l1 : Int),
    random_level_loop fuel s l = Except.ok (l1, s1) → SameList s s1 := by
  intro fuel
  induction fuel with
  | zero => intro s s1 l l1 h; simp [random_level_loop] at h
  | succ fuel ih =>
    intro s s1 l l1 h
    rw [random_level_loop] at h
    simp only at h
    split at h
    · have := ih _ _ _ _ h
      split at this <;> exact this
    · simp only [Except.ok.injEq, Prod.mk.injEq] at h
      obtain ⟨-, h2⟩ := h
      subst h2
      split <;> exact ⟨rfl, rfl, rfl, rfl, rfl⟩

theorem random_level_frame {s s1 : SkipLists K V} {k : Int}
    (h : random_level s = Except.ok (k, s1)) : SameList s s1 := by
  unfold random_level at h
  cases hl : random_level_loop (s.randoms_left.toNat + s.random_bits + 64) s 1 with
  | error f => simp [hl] at h
  | ok r =>
    obtain ⟨l1, s2⟩ := r
    simp only [hl, Except.ok.injEq, Prod.mk.injEq] at h
    obtain ⟨-, h2⟩ := h
    subst h2
    exact loop_frame _ _ _ _ _ hl

/-- What a returning `insert` does to the level and to the random-bit pool. -/
theorem insert_frame_cpp {s s1 : SkipLists K V} {q0 : Nat} {key : K} {value : V} {b : Bool}
    (h : insert s q0 key value = Except.ok (b, s1)) :
    s1.max_number_of_levels = s.max_number_of_levels ∧ s1.max_level = s.max_level ∧
    ((s1.level = s.level ∧ s1.randoms_left = s.randoms_left ∧ s1.random_bits = s.random_bits) ∨
     ∃ k0 s2, random_level s = Except.ok (k0, s2) ∧ s1.randoms_left = s2.randoms_left ∧
       s1.random_bits = s2.random_bits ∧
       s1.level = (if k0 > s2.level then s2.level + 1 else s2.level) ∧
       s1.max_number_of_levels = s2.max_number_of_levels ∧ s1.max_level = s2.max_level) := by
  unfold insert at h
  cases hs : insert_search s.mem key s.level.toNat s.header q0
      (List.replicate s.max_number_of_levels.toNat 0) with
  | error f => simp [hs] at h
  | ok r =>
    obtain ⟨p, q, update⟩ := r
    simp only [hs] at h
    split at h
    · simp at h
    · split at h
      · simp at h
      · simp only [Except.ok.injEq, Prod.mk.injEq] at h
        obtain ⟨-, h2⟩ := h
        subst h2
        exact ⟨rfl, rfl, Or.inl ⟨rfl, rfl, rfl⟩⟩
    · cases hr : random_level s with
      | error f => simp [hr] at h
      | ok r =>
        obtain ⟨k0, s2⟩ := r
        simp only [hr] at h
        split at h
        · simp at h
        · rename_i k level1 update1 hraise
          split at h
          · simp at h
          · simp only [Except.ok.injEq, Prod.mk.injEq] at h
            obtain ⟨-, h2⟩ := h
            subst h2
            have hfr := random_level_frame hr
            refine ⟨hfr.2.1, hfr.2.2.1, Or.inr ⟨k0, s2, rfl, rfl, rfl, ?_, rfl, rfl⟩⟩
            show level1 = _
            split at hraise
            · rename_i hgt
              rw [if_pos hgt]
              split at hraise
              · simp at hraise
              · simp only [Except.ok.injEq, Prod.mk.injEq] at hraise
                exact hraise.2.1.symm
            · rename_i hgt
              rw [if_neg hgt]
              simp only [Except.ok.injEq, Prod.mk.injEq] at hraise
              exact hraise.2.1.symm

/-- What a returning `remove` does to the level and to the random-bit pool. -/
theorem remove_frame_cpp {s s1 : SkipLists K V} {q0 : Nat} {key : K} {b : Bool}
    (h : remove s q0 key = Except.ok (b, s1)) :
    s1.max_number_of_levels = s.max_number_of_levels ∧ s1.max_level = s.max_level ∧
    s1.randoms_left = s.randoms_left ∧ s1.random_bits = s.random_bits ∧
    s1.level ≤ s.level := by
  unfold remove at h
  cases hs : remove_search s.mem key s.level.toNat s.header q0
      (List.replicate s.max_number_of_levels.toNat 0) with
  | error f => simp [hs] at h
  | ok r =>
    obtain ⟨p, q, update⟩ := r
    simp only [hs] at h
    split at h
    · simp at h
    · simp only [Except.ok.injEq, Prod.mk.injEq] at h
      obtain ⟨-, h2⟩ := h
      subst h2
      exact ⟨rfl, rfl, rfl, rfl, le_refl _⟩
    · cases hu : unlink update q s.level s.level.toNat 0 s.mem with
      | error f => simp [hu] at h
      | ok mem1 =>
        simp only [hu] at h
        cases hsh : shrink (mem1.set q none) s.header (s.level.toNat + 2) s.level with
        | error f => simp [hsh] at h
        | ok m =>
          simp only [hsh, Except.ok.injEq, Prod.mk.injEq] at h
          obtain ⟨-, h2⟩ := h
          subst h2
          exact ⟨rfl, rfl, rfl, rfl, shrink_le _ _ _ _ _ hsh⟩

/-- The pool, the bounds and the level in every reachable list. -/
theorem reach_pool [Inhabited K] [Inhabited V] {max_level_num : Int} (hmax : 1 ≤ max_level_num)
    {s : SkipLists K V} (hr : ReachableState max_level_num s) :
    PoolOk s ∧ s.max_number_of_levels = max_level_num ∧ s.max_level = max_level_num - 1 ∧
    s.level ≤ s.max_level := by
  induction hr with
  | create prng =>
    refine ⟨⟨by show (1 : Int) ≤ ((BITSINRANDOM / 2 : Nat) : Int); decide,
      by show ((BITSINRANDOM / 2 : Nat) : Int) ≤ 15; decide, ?_, fun _ => ?_⟩, rfl, rfl, ?_⟩
    · show ((rand prng).1 % 31 + 1) * 4 ^ ((15 : Int) - ((31 / 2 : Nat) : Int)).toNat < 32
      have : (rand prng).1 % 31 < 31 := Nat.mod_lt _ (by decide)
      norm_num
      omega
    · show 1 ≤ (rand prng).1 % BITSINRANDOM + 1
      omega
    · show (0 : Int) ≤ max_level_num - 1
      omega
  | @insert s s1 q0 key value b _ hins ih =>
    obtain ⟨hp, i2, i3, i4⟩ := ih
    obtain ⟨f1, f2, f3⟩ := insert_frame_cpp hins
    rcases f3 with ⟨g1, g2, g3⟩ | ⟨k0, s2, hrl, g1, g2, g3, g4, g5⟩
    · refine ⟨?_, f1.trans i2, f2.trans i3, by rw [g1, f2]; exact i4⟩
      unfold PoolOk
      rw [g2, g3]
      exact hp
    · obtain ⟨k, s3, e1, e2, e3, e4, -⟩ := cpp_random_level_returns s hp
      rw [e1] at hrl
      simp only [Except.ok.injEq, Prod.mk.injEq] at hrl
      obtain ⟨hk, hs⟩ := hrl
      subst hk; subst hs
      refine ⟨?_, f1.trans i2, f2.trans i3, ?_⟩
      · unfold PoolOk
        rw [g1, g2]
        exact e2
      · rw [g3, f2, e3.1]
        split <;> omega
  | @remove s s1 q0 key b _ hrem ih =>
    obtain ⟨hp, i2, i3, i4⟩ := ih
    obtain ⟨f1, f2, f3, f4, f5⟩ := remove_frame_cpp hrem
    refine ⟨?_, f1.trans i2, f2.trans i3, by rw [f2]; omega⟩
    unfold PoolOk
    rw [f3, f4]
    exact hp

end CppFrames
end SkipLists

section CppClaims
variable {K V : Type} [LinearOrder K]

/-- When every slot of `header->forward` below `m` is null, the shrink loop of
`remove` started at `m` reads `header->forward[-1]`. -/
theorem shrink_reads_below_zero (mem : List (Option (SkipListsNode K V))) (header : Nat)
    (hn : SkipListsNode K V) (hh : SkipLists.node_at mem header = Except.ok hn) :
    ∀ (m n : Nat), (∀ i, i < m → hn.forward[i]? = some 0) → m < n →
      SkipLists.shrink mem header n (m : Int) = Except.error Fault.out_of_range := by
  intro m
  induction m with
  | zero =>
    intro n _ hlt
    obtain ⟨f, rfl⟩ : ∃ f, n = f + 1 := ⟨n - 1, by omega⟩
    rw [SkipLists.shrink]
    simp [SkipLists.forward_at, hh, SkipLists.vec_get]
  | succ m ih =>
    intro n hz hlt
    obtain ⟨f, rfl⟩ : ∃ f, n = f + 1 := ⟨n - 1, by omega⟩
    rw [SkipLists.shrink]
    have hf : SkipLists.forward_at mem header (((m + 1 : Nat) : Int) - 1) = Except.ok 0 := by
      have h1 : (((m + 1 : Nat) : Int) - 1) = (m : Int) := by push_cast; omega
      rw [h1]
      simp [SkipLists.forward_at, hh, SkipLists.vec_get, hz m (by omega)]
    rw [hf]
    have h2 : True ∧ ((m + 1 : Nat) : Int) ≥ 0 := ⟨trivial, by omega⟩
    simp only []
    rw [if_pos h2]
    have h1 : (((m + 1 : Nat) : Int) - 1) = (m : Int) := by push_cast; omega
    rw [h1]
    exact ih f (fun i hi => hz i (by omega)) (by omega)

/-- C22: in every list built by the constructor with `max_level_num` at least 2
and by returning calls of `insert` and `remove`, the loop of `random_level`
ends within 18 rounds whatever `rand()` gives, `random_level` returns a level
from 1 to `max_level = max_number_of_levels - 1` and changes the random-bit
pool only, and a returning `insert` leaves the level as it is or raises it by
one, never above `max_number_of_levels - 1`. -/
theorem C22_random_level_terminates [Inhabited K] [Inhabited V] (max_level_num : Int)
    (hmax : 2 ≤ max_level_num) (s : SkipLists K V)
    (hr : SkipLists.ReachableState max_level_num s) :
    (∃ l s1, SkipLists.random_level_loop 18 s 1 = Except.ok (l, s1) ∧ 1 ≤ l ∧ l ≤ 17) ∧
    (∃ k s1, SkipLists.random_level s = Except.ok (k, s1) ∧ 1 ≤ k ∧ k ≤ s.max_level ∧
      s.max_level = s.max_number_of_levels - 1 ∧ SkipLists.SameList s s1) ∧
    (∀ (q0 : Nat) (key : K) (value : V) (b : Bool) (s1 : SkipLists K V),
      SkipLists.insert s q0 key value = Except.ok (b, s1) →
      (s1.level = s.level ∨ s1.level = s.level + 1) ∧
      s1.level ≤ s.max_number_of_levels - 1) := by
  obtain ⟨hp, i2, i3, i4⟩ := SkipLists.reach_pool (by omega) hr
  obtain ⟨k, s2, e1, e2, e3, e4, e5⟩ := SkipLists.cpp_random_level_returns s hp
  refine ⟨?_, ⟨k, s2, e1, e5 (by omega), e4, by rw [i2, i3], e3⟩, ?_⟩
  · obtain ⟨l1, s1, f1, f2, f3, -, -⟩ := SkipLists.loop_returns 18 (le_refl _) s 1 hp
    exact ⟨l1, s1, f1, f2, by omega⟩
  · intro q0 key value b s1 hins
    obtain ⟨f1, f2, f3⟩ := SkipLists.insert_frame_cpp hins
    rcases f3 with ⟨g1, -, -⟩ | ⟨k0, s3, hrl, -, -, g3, -, -⟩
    · exact ⟨Or.inl g1, by rw [g1, i2]; omega⟩
    · rw [e1] at hrl
      simp only [Except.ok.injEq, Prod.mk.injEq] at hrl
      obtain ⟨hk, hs⟩ := hrl
      subst hk; subst hs
      rw [g3, e3.1]
      constructor
      · split
        · exact Or.inr rfl
        · exact Or.inl rfl
      · rw [i2]
        split <;> omega

end CppClaims

theorem ex_only_1_reachable : SkipLists.ReachableState 16 SkipLists.ex_only_1 :=
  @SkipLists.ReachableState.insert Int Int _ _ _ 16 (SkipLists.create 16 [16])
    SkipLists.ex_only_1 0 1 2 true (SkipLists.ReachableState.create [16]) (by rfl)

/-- C22, at an example: the list of the default constructor after
`insert (1, 2)`; the next `random_level` returns 2, and `insert (3, 4)` raises
the level from 1 to 2. -/
theorem C22_witness :
    (∃ l s1, SkipLists.random_level_loop 18 SkipLists.ex_only_1 1 = Except.ok (l, s1) ∧
      1 ≤ l ∧ l ≤ 17) ∧
    (∃ k s1, SkipLists.random_level SkipLists.ex_only_1 = Except.ok (k, s1) ∧ 1 ≤ k ∧
      k ≤ SkipLists.ex_only_1.max_level ∧
      SkipLists.ex_only_1.max_level = SkipLists.ex_only_1.max_number_of_levels - 1 ∧
      SkipLists.SameList SkipLists.ex_only_1 s1) ∧
    (SkipLists.random_level SkipLists.ex_only_1).map (fun r => r.1) = Except.ok 2 ∧
    (SkipLists.insert SkipLists.ex_only_1 0 3 4).map (fun r => (r.1, r.2.level))
      = Except.ok (true, 2) :=
  ⟨(C22_random_level_terminates 16 (by decide) SkipLists.ex_only_1 ex_only_1_reachable).1,
   (C22_random_level_terminates 16 (by decide) SkipLists.ex_only_1 ex_only_1_reachable).2.1,
   by rfl, by rfl⟩

/-- C21, at the failing input: on the list that holds `1` alone, built by the
constructor and `insert (1, 2)`, `remove (1)` unlinks the node and its shrink
loop then reads `header->forward[-1]`; the loop does so from every level when
the header's forward slots below it are all null. -/
theorem C21_shrink_loop_reads_before_forward :
    SkipLists.insert_each 0 (SkipLists.create 16 [16]) [(1, 2)]
      = Except.ok SkipLists.ex_only_1 ∧
    SkipLists.remove SkipLists.ex_only_1 0 1 = Except.error Fault.out_of_range ∧
    SkipLists.shrink
      [none, some { key := 0, value := 0, forward := List.replicate 16 0 }, none] 1 3
      (1 : Int) = Except.error Fault.out_of_range ∧
    (∀ (mem : List (Option (SkipListsNode Int Int))) (header : Nat)
      (hn : SkipListsNode Int Int) (m n : Nat),
      SkipLists.node_at mem header = Except.ok hn →
      (∀ i, i < m → hn.forward[i]? = some 0) → m < n →
      SkipLists.shrink mem header n (m : Int) = Except.error Fault.out_of_range) :=
  ⟨by rfl, by rfl, by rfl,
   fun mem header hn m n hh hz hlt => shrink_reads_below_zero mem header hn hh m n hz hlt⟩

/-- C7, at examples: on the list with keys `1` and `3`, which has only ever
been in disallow-duplicates mode, the traversal visits `(1, 11)`, `(3, 30)`,
the keys and values of the nodes 3 and 4 of the level-0 chain, in strictly
ascending order; on the list that holds the key `2` twice it visits both
entries. -/
theorem C7_witness :
    ReachableDisallow int_compare ex_rand_max ex_two ∧
    traversal ex_two = some [(some 1, some 11), (some 3, some 30)] ∧
    level_chain ex_two 0 = some [3, 4] ∧ skiplists_size ex_two = 2 ∧
    ([(some 1, some 11), (some 3, some 30)] : List (Option Int × Option Int)).Pairwise
      (fun a b => int_compare a.1 b.1 < 0) ∧
    traversal ex_dup = some [(some 2, some 20), (some 2, some 10)] ∧
    ∃ out chain, traversal ex_dup = some out ∧ level_chain ex_dup 0 = some chain ∧
      chain.map (fun x => (load_key ex_dup.mem x, load_value ex_dup.mem x))
        = out.map (fun p => (some p.1, some p.2)) ∧
      ((out.length : Nat) : Int) = skiplists_size ex_dup ∧
      (∀ p ∈ out, ∃ k, p.1 = some k) ∧
      (∀ key, (∃ p ∈ out, int_compare p.1 (some key) = 0) ↔
        ∃ SL1, skiplists_remove ex_dup key = some (true, SL1)) ∧
      out.Pairwise (fun a b => int_compare a.1 b.1 ≤ 0) ∧
      (ReachableDisallow int_compare ex_rand_max ex_dup →
        out.Pairwise (fun a b => int_compare a.1 b.1 < 0)) :=
  ⟨ex_two_disallow, by rfl, by rfl, by rfl,
   by
     obtain ⟨out, chain, h1, -, -, -, -, -, -, h8⟩ :=
       C7_traverse_visits_keys_ascending int_compare int_compare_order ex_rand_max ex_two
         ex_two_reachable
     have hout : out = [(some 1, some 11), (some 3, some 30)] :=
       Option.some.inj (h1.symm.trans (by rfl))
     rw [← hout]
     exact h8 ex_two_disallow,
   by rfl,
   C7_traverse_visits_keys_ascending int_compare int_compare_order ex_rand_max ex_dup
     ex_dup_reachable⟩
